import Mathlib

/-!
Verification development for the perpetual-DEX SDK state core.

The definitions below are a shallow embedding of the Rust sources:
* `src/state/l2_book/mod.rs` (slotmap arena + intrusive linked-list book,
  with the `BookLevel` of `src/state/l3_book/level.rs`),
* `src/state/exchange.rs` (`Exchange::apply_events` / `apply_raw_event`),
* `src/state/perpetual.rs` (`update_state_instant`, `update_funding`),
* `src/state/position.rs` (`apply_mark_price`, `apply_funding_payment`),
* `src/fill/listener.rs` (`TradeProcessor`).

Hash maps / BTree maps are embedded as association lists with
first-match lookup, in-place replacement on insert and first-match
removal on erase, which reproduces the observable map semantics of the
Rust `HashMap`/`BTreeMap` mutations used by the sources (iteration
order of `HashMap` is modelled as list order).  Fixed-width decimal
values (`UD64`, `UD128`, `D256`) are embedded as rationals: the book
and position code only adds, subtracts, multiplies and compares them,
and those operations are exact on decimals.
-/

namespace PerplDex

/-! ### Association-list maps -/

def lookupA {α β : Type} [DecidableEq α] (k : α) : List (α × β) → Option β
  | [] => none
  | (k', v) :: rest => if k' = k then some v else lookupA k rest

def insertA {α β : Type} [DecidableEq α] (k : α) (v : β) : List (α × β) → List (α × β)
  | [] => [(k, v)]
  | (k', v') :: rest => if k' = k then (k', v) :: rest else (k', v') :: insertA k v rest

def eraseA {α β : Type} [DecidableEq α] (k : α) : List (α × β) → List (α × β)
  | [] => []
  | (k', v') :: rest => if k' = k then rest else (k', v') :: eraseA k rest

/-- Keys of an association list are pairwise distinct. -/
def keysND {α β : Type} (m : List (α × β)) : Prop := (m.map Prod.fst).Nodup

variable {α β : Type} [DecidableEq α]

@[simp] theorem lookupA_nil (k : α) : lookupA k ([] : List (α × β)) = none := rfl

theorem lookupA_cons (k k' : α) (v : β) (m : List (α × β)) :
    lookupA k ((k', v) :: m) = if k' = k then some v else lookupA k m := rfl

@[simp] theorem lookupA_insertA_self (k : α) (v : β) (m : List (α × β)) :
    lookupA k (insertA k v m) = some v := by
  induction m with
  | nil => simp [insertA, lookupA]
  | cons hd tl ih =>
    obtain ⟨k', v'⟩ := hd
    by_cases h : k' = k <;> simp [insertA, lookupA, h, ih]

theorem lookupA_insertA_ne {k k' : α} (v : β) (m : List (α × β)) (h : k' ≠ k) :
    lookupA k' (insertA k v m) = lookupA k' m := by
  have h' : ¬ k = k' := fun hh => h hh.symm
  induction m with
  | nil => simp [insertA, lookupA, h']
  | cons hd tl ih =>
    obtain ⟨k0, v0⟩ := hd
    by_cases h0 : k0 = k
    · subst h0
      simp [insertA, lookupA, h']
    · simp [insertA, lookupA, h0, ih]

theorem lookupA_eraseA_ne {k k' : α} (m : List (α × β)) (h : k' ≠ k) :
    lookupA k' (eraseA k m) = lookupA k' m := by
  induction m with
  | nil => simp [eraseA]
  | cons hd tl ih =>
    obtain ⟨k0, v0⟩ := hd
    by_cases h0 : k0 = k
    · subst h0
      have h' : ¬ k0 = k' := fun hh => h hh.symm
      simp [eraseA, lookupA, h']
    · simp [eraseA, lookupA, h0, ih]

theorem mem_keys_of_lookupA {k : α} {v : β} {m : List (α × β)}
    (h : lookupA k m = some v) : k ∈ m.map Prod.fst := by
  induction m with
  | nil => simp [lookupA] at h
  | cons hd tl ih =>
    obtain ⟨k0, v0⟩ := hd
    by_cases h0 : k0 = k
    · subst h0; simp
    · simp only [lookupA, if_neg h0] at h
      simpa using Or.inr (ih h)

theorem lookupA_eq_none_of_not_mem {k : α} {m : List (α × β)}
    (h : k ∉ m.map Prod.fst) : lookupA k m = none := by
  induction m with
  | nil => rfl
  | cons hd tl ih =>
    obtain ⟨k0, v0⟩ := hd
    simp only [List.map_cons, List.mem_cons, not_or] at h
    have h0 : ¬ k0 = k := fun hh => h.1 hh.symm
    simp [lookupA, h0, ih h.2]

theorem lookupA_eraseA_self {k : α} {m : List (α × β)} (hnd : keysND m) :
    lookupA k (eraseA k m) = none := by
  induction m with
  | nil => simp [eraseA]
  | cons hd tl ih =>
    obtain ⟨k0, v0⟩ := hd
    obtain ⟨h1, h2⟩ := List.nodup_cons.mp hnd
    by_cases h0 : k0 = k
    · subst h0
      have he : eraseA k0 ((k0, v0) :: tl) = tl := by simp [eraseA]
      rw [he]
      exact lookupA_eq_none_of_not_mem h1
    · simp [eraseA, lookupA, h0, ih h2]

theorem eraseA_insertA_of_none {k : α} {v : β} {m : List (α × β)}
    (h : lookupA k m = none) : eraseA k (insertA k v m) = m := by
  induction m with
  | nil => simp [insertA, eraseA]
  | cons hd tl ih =>
    obtain ⟨k0, v0⟩ := hd
    by_cases h0 : k0 = k
    · simp [lookupA, h0] at h
    · simp only [lookupA, if_neg h0] at h
      simp [insertA, eraseA, h0, ih h]

theorem insertA_insertA (k : α) (v v' : β) (m : List (α × β)) :
    insertA k v (insertA k v' m) = insertA k v m := by
  induction m with
  | nil => simp [insertA]
  | cons hd tl ih =>
    obtain ⟨k0, v0⟩ := hd
    by_cases h0 : k0 = k <;> simp [insertA, h0, ih]

theorem insertA_of_lookupA_self {k : α} {v : β} {m : List (α × β)}
    (h : lookupA k m = some v) : insertA k v m = m := by
  induction m with
  | nil => simp [lookupA] at h
  | cons hd tl ih =>
    obtain ⟨k0, v0⟩ := hd
    by_cases h0 : k0 = k
    · simp only [lookupA, if_pos h0] at h
      injection h with h
      simp [insertA, h0, h]
    · simp only [lookupA, if_neg h0] at h
      simp [insertA, h0, ih h]

theorem keys_insertA_subset {k : α} {v : β} {p : α × β} {m : List (α × β)}
    (hp : p ∈ insertA k v m) : p ∈ m ∨ p.1 = k := by
  induction m with
  | nil =>
    simp [insertA] at hp
    right
    simp [hp]
  | cons hd tl ih =>
    obtain ⟨ka, va⟩ := hd
    by_cases ha : ka = k
    · simp only [insertA, if_pos ha] at hp
      rcases List.mem_cons.mp hp with hp | hp
      · right; simp [hp, ha]
      · left; simp [hp]
    · simp only [insertA, if_neg ha] at hp
      rcases List.mem_cons.mp hp with hp | hp
      · left; simp [hp]
      · rcases ih hp with h | h
        · left; simp [h]
        · right; exact h

theorem keysND_insertA (k : α) (v : β) {m : List (α × β)} (h : keysND m) :
    keysND (insertA k v m) := by
  induction m with
  | nil => simp [insertA, keysND]
  | cons hd tl ih =>
    obtain ⟨k0, v0⟩ := hd
    obtain ⟨h1, h2⟩ := List.nodup_cons.mp h
    by_cases h0 : k0 = k
    · subst h0
      have : keysND ((k0, v) :: tl) := List.nodup_cons.mpr ⟨by simpa using h1, h2⟩
      simpa [keysND, insertA] using this
    · have htl : keysND (insertA k v tl) := ih h2
      have hnotin : k0 ∉ (insertA k v tl).map Prod.fst := by
        intro hmem
        rcases List.mem_map.mp hmem with ⟨p, hp, hpk⟩
        rcases keys_insertA_subset hp with hh | hh
        · exact h1 (List.mem_map.mpr ⟨p, hh, hpk⟩)
        · exact h0 (by rw [← hpk, hh])
      have : keysND ((k0, v0) :: insertA k v tl) :=
        List.nodup_cons.mpr ⟨hnotin, htl⟩
      simpa [keysND, insertA, h0] using this

theorem mem_of_mem_eraseA {k : α} {p : α × β} {m : List (α × β)}
    (hp : p ∈ eraseA k m) : p ∈ m := by
  induction m with
  | nil => simp [eraseA] at hp
  | cons hd tl ih =>
    obtain ⟨ka, va⟩ := hd
    by_cases ha : ka = k
    · simp only [eraseA, if_pos ha] at hp
      exact List.mem_cons.mpr (Or.inr hp)
    · simp only [eraseA, if_neg ha] at hp
      rcases List.mem_cons.mp hp with hp | hp
      · simp [hp]
      · exact List.mem_cons.mpr (Or.inr (ih hp))

theorem keysND_eraseA (k : α) {m : List (α × β)} (h : keysND m) :
    keysND (eraseA k m) := by
  induction m with
  | nil => simpa [eraseA] using h
  | cons hd tl ih =>
    obtain ⟨k0, v0⟩ := hd
    obtain ⟨h1, h2⟩ := List.nodup_cons.mp h
    by_cases h0 : k0 = k
    · simpa [keysND, eraseA, h0] using h2
    · have hnotin : k0 ∉ (eraseA k tl).map Prod.fst := by
        intro hmem
        rcases List.mem_map.mp hmem with ⟨p, hp, hpk⟩
        exact h1 (List.mem_map.mpr ⟨p, mem_of_mem_eraseA hp, hpk⟩)
      have : keysND ((k0, v0) :: eraseA k tl) :=
        List.nodup_cons.mpr ⟨hnotin, ih h2⟩
      simpa [keysND, eraseA, h0] using this

/-! ### Core scalar types (`src/types/mod.rs`, `src/types/order.rs`) -/

/-- Chain instant, ordered lexicographically by block number then timestamp
(the Rust type derives `PartialOrd`/`Ord` on the field order). -/
structure StateInstant where
  block_number : Nat
  block_timestamp : Nat
deriving DecidableEq

/-- Boolean lexicographic `a <= b`, matching the derived Rust `Ord`. -/
def StateInstant.leB (a b : StateInstant) : Bool :=
  a.block_number < b.block_number ||
    (a.block_number = b.block_number && a.block_timestamp ≤ b.block_timestamp)

/-- Boolean `a >= b`, as used by `Exchange::apply_events` and
`Position::apply_funding_payment`. -/
def StateInstant.geB (a b : StateInstant) : Bool := StateInstant.leB b a

inductive OrderSide
  | Ask
  | Bid
deriving DecidableEq

inductive OrderType
  | OpenLong
  | OpenShort
  | CloseLong
  | CloseShort
deriving DecidableEq

/-- Side of an order type (`OrderType::side` in `src/types/order.rs`). -/
def OrderType.side : OrderType → OrderSide
  | .OpenLong => .Bid
  | .CloseShort => .Bid
  | .OpenShort => .Ask
  | .CloseLong => .Ask

/-! ### Order book (`src/state/l2_book/mod.rs` with the `BookLevel` of
`src/state/l3_book/level.rs`)

Slots of the slotmap arena are embedded as natural numbers allocated from a
counter; freshness of a slotmap key corresponds to the counter bound.  The
`Order` record carries the fields the book operations read; its remaining
fields ride along unchanged and are irrelevant to the book claims. -/

structure Order where
  order_id : Nat
  otype : OrderType
  account_id : Nat
  price : Rat
  size : Rat
  prev_order_id : Option Nat
  next_order_id : Option Nat
deriving DecidableEq

/-- Book order with intrusive linked-list pointers (`L3Order` in
`src/state/l2_book/order.rs`). -/
structure L3Order where
  order : Order
  prev : Option Nat
  next : Option Nat
deriving DecidableEq

def L3Order.new (o : Order) : L3Order := ⟨o, none, none⟩

/-- Price level with head/tail of the linked list and cached aggregates
(`BookLevel` in `src/state/l3_book/level.rs`). -/
structure BookLevel where
  head : Option Nat
  tail : Option Nat
  cached_size : Rat
  cached_count : Nat
deriving DecidableEq

instance : Inhabited BookLevel := ⟨⟨none, none, 0, 0⟩⟩

/-- Emptiness of a level (`BookLevel::is_empty`: `head.is_none()`). -/
def BookLevel.isEmptyB (l : BookLevel) : Bool := l.head = none

inductive BookErr
  | OrderAlreadyExists (order_id : Nat) (existing_price : Rat) (existing_slot : Nat)
  | OrderNotFound (order_id : Nat)
  | InvalidOrderSize (order_id : Nat) (size : Rat)
  | InvalidOrderPrice (order_id : Nat) (price : Rat)
deriving DecidableEq

structure L2Book where
  next_slot : Nat
  orders : List (Nat × L3Order)
  order_index : List (Nat × Nat)
  asks : List (Rat × BookLevel)
  bids : List (Rat × BookLevel)
deriving DecidableEq

def L2Book.empty : L2Book := ⟨0, [], [], [], []⟩

/-- The side-keyed level map; `asks` and `bids` receive the same treatment in
every mutation of `src/state/l2_book/mod.rs`, duplicated per match arm there
(the bid key reversal only affects iteration order, which none of the
mutations and none of the claims consult). -/
def L2Book.sideMap (b : L2Book) : OrderSide → List (Rat × BookLevel)
  | .Ask => b.asks
  | .Bid => b.bids

def L2Book.setSide (b : L2Book) : OrderSide → List (Rat × BookLevel) → L2Book
  | .Ask, m => { b with asks := m }
  | .Bid, m => { b with bids := m }

/-- Successful path of `L2Book::add_order` (validation passed). -/
def L2Book.addOrderGo (b : L2Book) (o : Order) : L2Book × Nat :=
  let side := o.otype.side
  let level := (lookupA o.price (b.sideMap side)).getD default
  let slot := b.next_slot
  let l3 : L3Order := { order := o, prev := level.tail, next := none }
  let orders1 := insertA slot l3 b.orders
  let orders2 :=
    match level.tail with
    | some t =>
      match lookupA t orders1 with
      | some told => insertA t { told with next := some slot } orders1
      | none => orders1
    | none => orders1
  let level' : BookLevel :=
    { head := if level.head = none then some slot else level.head
      tail := some slot
      cached_size := level.cached_size + o.size
      cached_count := level.cached_count + 1 }
  let b' : L2Book :=
    { b with
      next_slot := b.next_slot + 1
      orders := orders2
      order_index := insertA o.order_id slot b.order_index }
  (b'.setSide side (insertA o.price level' (b.sideMap side)), slot)

/-- `L2Book::add_order`. -/
def L2Book.addOrder (b : L2Book) (o : Order) : Except BookErr (L2Book × Nat) :=
  if o.size = 0 then .error (.InvalidOrderSize o.order_id o.size)
  else if o.price = 0 then .error (.InvalidOrderPrice o.order_id o.price)
  else
    match lookupA o.order_id b.order_index with
    | some existing_slot =>
      match lookupA existing_slot b.orders with
      | some existing =>
        .error (.OrderAlreadyExists o.order_id existing.order.price existing_slot)
      | none => .ok (b.addOrderGo o)
    | none => .ok (b.addOrderGo o)

/-- `L2Book::update_order` (in-place size update; the `_prev_order` argument
of the Rust function is unused there and omitted here). -/
def L2Book.updateOrder (b : L2Book) (o : Order) : Except BookErr L2Book :=
  if o.size = 0 then .error (.InvalidOrderSize o.order_id o.size)
  else
    match lookupA o.order_id b.order_index with
    | none => .error (.OrderNotFound o.order_id)
    | some slot =>
      match lookupA slot b.orders with
      | none => .error (.OrderNotFound o.order_id)
      | some l3 =>
        let old_size := l3.order.size
        let price := l3.order.price
        let side := l3.order.otype.side
        let b1 := { b with orders := insertA slot { l3 with order := o } b.orders }
        match lookupA price (b1.sideMap side) with
        | some level =>
          .ok (b1.setSide side
            (insertA price
              { level with cached_size := level.cached_size - old_size + o.size }
              (b1.sideMap side)))
        | none => .ok b1

/-- `L2Book::remove_order_by_id`.  The order index is erased before the arena
lookup, as in the source. -/
def L2Book.removeOrderById (b : L2Book) (order_id : Nat) :
    Except BookErr (L2Book × Order) :=
  match lookupA order_id b.order_index with
  | none => .error (.OrderNotFound order_id)
  | some slot =>
    let b0 := { b with order_index := eraseA order_id b.order_index }
    match lookupA slot b0.orders with
    | none => .error (.OrderNotFound order_id)
    | some l3 =>
      let prev_slot := l3.prev
      let next_slot := l3.next
      let price := l3.order.price
      let size := l3.order.size
      let side := l3.order.otype.side
      let orders1 :=
        match prev_slot with
        | some p =>
          match lookupA p b0.orders with
          | some po => insertA p { po with next := next_slot } b0.orders
          | none => b0.orders
        | none => b0.orders
      let orders2 :=
        match next_slot with
        | some n =>
          match lookupA n orders1 with
          | some no => insertA n { no with prev := prev_slot } orders1
          | none => orders1
        | none => orders1
      let levelStep :=
        match lookupA price (b0.sideMap side) with
        | some level =>
          let level' : BookLevel :=
            { head := if level.head = some slot then next_slot else level.head
              tail := if level.tail = some slot then prev_slot else level.tail
              cached_size := level.cached_size - size
              cached_count := level.cached_count - 1 }
          (insertA price level' (b0.sideMap side), level'.isEmptyB)
        | none => (b0.sideMap side, false)
      let sideMap' := if levelStep.2 then eraseA price levelStep.1 else levelStep.1
      .ok (({ b0 with orders := eraseA slot orders2 }).setSide side sideMap', l3.order)

/-- `L2Book::move_to_back` (the `_prev_order` argument is unused and
omitted). -/
def L2Book.moveToBack (b : L2Book) (o : Order) : Except BookErr L2Book :=
  match lookupA o.order_id b.order_index with
  | none => .error (.OrderNotFound o.order_id)
  | some slot =>
    match lookupA slot b.orders with
    | none => .error (.OrderNotFound o.order_id)
    | some l3 =>
      let prev_slot := l3.prev
      let next_slot := l3.next
      let price := l3.order.price
      let old_size := l3.order.size
      let side := l3.order.otype.side
      if (lookupA price (b.sideMap side)).map BookLevel.tail = some (some slot) then
        -- Already at the back: in-place data and cached-size update.
        let b1 := { b with orders := insertA slot { l3 with order := o } b.orders }
        match lookupA price (b1.sideMap side) with
        | some level =>
          .ok (b1.setSide side
            (insertA price
              { level with cached_size := level.cached_size - old_size + o.size }
              (b1.sideMap side)))
        | none => .ok b1
      else
        let orders1 :=
          match prev_slot with
          | some p =>
            match lookupA p b.orders with
            | some po => insertA p { po with next := next_slot } b.orders
            | none => b.orders
          | none => b.orders
        let orders2 :=
          match next_slot with
          | some n =>
            match lookupA n orders1 with
            | some no => insertA n { no with prev := prev_slot } orders1
            | none => orders1
          | none => orders1
        match lookupA price (b.sideMap side) with
        | some level =>
          let level1 := if level.head = some slot then { level with head := next_slot } else level
          let old_tail := level1.tail
          let orders3 :=
            match old_tail with
            | some t =>
              match lookupA t orders2 with
              | some told => insertA t { told with next := some slot } orders2
              | none => orders2
            | none => orders2
          let orders4 :=
            match lookupA slot orders3 with
            | some cur => insertA slot { cur with prev := old_tail, next := none, order := o } orders3
            | none => orders3
          let level2 : BookLevel :=
            { level1 with
              tail := some slot
              cached_size := level1.cached_size - old_size + o.size }
          .ok (({ b with orders := orders4 }).setSide side
            (insertA price level2 (b.sideMap side)))
        | none => .ok { b with orders := orders2 }

/-! Snapshot reconstruction (`L2Book::add_orders_from_snapshot`). -/

/-- First pass: validate and insert every order into the arena and the order
index, building the `OrderId -> slot` map.  A validation failure aborts,
keeping the insertions already performed (the Rust method mutates `self` in
place and returns early). -/
def snapInsertAll (b : L2Book) (m : List (Nat × Nat)) :
    List Order → L2Book × List (Nat × Nat) × Option BookErr
  | [] => (b, m, none)
  | o :: rest =>
    if o.size = 0 then (b, m, some (.InvalidOrderSize o.order_id o.size))
    else if o.price = 0 then (b, m, some (.InvalidOrderPrice o.order_id o.price))
    else
      let slot := b.next_slot
      let b' : L2Book :=
        { b with
          next_slot := b.next_slot + 1
          orders := insertA slot (L3Order.new o) b.orders
          order_index := insertA o.order_id slot b.order_index }
      snapInsertAll b' (insertA o.order_id slot m) rest

/-- Second pass: resolve each order's `prev_order_id`/`next_order_id` against
the batch map; identifiers absent from the batch resolve to `none`. -/
def snapSetLinks (b : L2Book) (m : List (Nat × Nat)) : List Order → L2Book
  | [] => b
  | o :: rest =>
    let b' :=
      match lookupA o.order_id m with
      | some slot =>
        match lookupA slot b.orders with
        | some l3 =>
          { b with
            orders := insertA slot
              { l3 with
                prev := o.prev_order_id.bind (fun i => lookupA i m)
                next := o.next_order_id.bind (fun i => lookupA i m) }
              b.orders }
        | none => b
      | none => b
    snapSetLinks b' m rest

def snapHeadOk (orders : List (Nat × L3Order)) (slots : List Nat) (s : Nat) : Bool :=
  match lookupA s orders with
  | some o =>
    match o.prev with
    | none => true
    | some p => !(slots.contains p)
  | none => false

def snapTailOk (orders : List (Nat × L3Order)) (slots : List Nat) (s : Nat) : Bool :=
  match lookupA s orders with
  | some o =>
    match o.next with
    | none => true
    | some p => !(slots.contains p)
  | none => false

def snapLevelAgg (orders : List (Nat × L3Order)) (slots : List Nat) : Rat × Nat :=
  slots.foldl
    (fun acc s =>
      match lookupA s orders with
      | some o => (acc.1 + o.order.size, acc.2 + 1)
      | none => acc)
    (0, 0)

def snapGroupKeys (orders : List Order) : List (Rat × OrderSide) :=
  orders.foldl
    (fun acc o =>
      if (o.price, o.otype.side) ∈ acc then acc else acc ++ [(o.price, o.otype.side)])
    []

def snapGroupSlots (m : List (Nat × Nat)) (orders : List Order)
    (key : Rat × OrderSide) : List Nat :=
  (orders.filter (fun o => (o.price, o.otype.side) = key)).map
    (fun o => (lookupA o.order_id m).getD 0)

/-- Third pass: build one level per `(price, side)` group. -/
def snapBuildLevels (b : L2Book) (m : List (Nat × Nat)) (orders : List Order) : L2Book :=
  (snapGroupKeys orders).foldl
    (fun bk key =>
      let slots := snapGroupSlots m orders key
      let agg := snapLevelAgg bk.orders slots
      let level : BookLevel :=
        { head := slots.find? (fun s => snapHeadOk bk.orders slots s)
          tail := slots.find? (fun s => snapTailOk bk.orders slots s)
          cached_size := agg.1
          cached_count := agg.2 }
      bk.setSide key.2 (insertA key.1 level (bk.sideMap key.2)))
    b

/-- `L2Book::add_orders_from_snapshot`: validate/insert, link, build levels. -/
def L2Book.addOrdersFromSnapshot (b : L2Book) (orders : List Order) :
    L2Book × Option BookErr :=
  match snapInsertAll b [] orders with
  | (b1, _, some e) => (b1, some e)
  | (b1, m, none) =>
    let b2 := snapSetLinks b1 m orders
    (snapBuildLevels b2 m orders, none)

/-! ### Positions (`src/state/position.rs`) -/

inductive PositionType
  | Long
  | Short
deriving DecidableEq

def PositionType.isLong : PositionType → Bool
  | .Long => true
  | .Short => false

structure Position where
  instant : StateInstant
  funding_instant : StateInstant
  perpetual_id : Nat
  account_id : Nat
  ptype : PositionType
  entry_price : Rat
  size : Rat
  deposit : Rat
  delta_pnl : Rat
  premium_pnl : Rat
deriving DecidableEq

def Position.pnl (p : Position) : Rat := p.delta_pnl + p.premium_pnl

/-- `Position::apply_mark_price`. -/
def Position.applyMarkPrice (p : Position) (instant : StateInstant) (mark_price : Rat) :
    Position :=
  let sign : Rat := if p.ptype.isLong then 1 else -1
  { p with
    delta_pnl := sign * (mark_price - p.entry_price) * p.size
    instant := instant }

/-- `Position::apply_funding_payment`; the returned flag reports whether the
payment was applied (skipped when `funding_instant >= instant`). -/
def Position.applyFundingPayment (p : Position) (instant : StateInstant)
    (payment_per_unit : Rat) : Position × Bool :=
  if p.funding_instant.geB instant then (p, false)
  else
    let sign : Rat := if p.ptype.isLong then -1 else 1
    ({ p with
       premium_pnl := p.premium_pnl + sign * payment_per_unit * p.size
       instant := instant
       funding_instant := instant }, true)

/-! ### Perpetual (funding/mark fragment of `src/state/perpetual.rs`) -/

structure Perpetual where
  instant : StateInstant
  state_instant : StateInstant
  id : Nat
  mark_price : Rat
  mark_price_block : Option Nat
  mark_price_timestamp : Nat
  prev_funding_rate : Rat
  next_funding_rate : Option Rat
  next_funding_payment : Option Rat
  next_funding_event_block : Option Nat
deriving DecidableEq

/-- `Perpetual::funding_rate`. -/
def Perpetual.fundingRate (p : Perpetual) : Rat :=
  match p.next_funding_rate, p.next_funding_event_block with
  | some next, some bl =>
    if bl ≤ p.state_instant.block_number then next else p.prev_funding_rate
  | _, _ => p.prev_funding_rate

/-- `Perpetual::update_mark_price`. -/
def Perpetual.updateMarkPrice (p : Perpetual) (instant : StateInstant) (mark : Rat) :
    Perpetual :=
  { p with
    mark_price := mark
    mark_price_block := some instant.block_number
    mark_price_timestamp := instant.block_timestamp
    instant := instant }

/-- `Perpetual::update_funding`: rotate the pending rate into
`prev_funding_rate` when a strictly later funding block arrives, then store
the new pending rate/payment/block. -/
def Perpetual.updateFunding (p : Perpetual) (instant : StateInstant)
    (funding_rate funding_payment : Rat) (block_num : Nat) : Perpetual :=
  let prev' :=
    match p.next_funding_rate, p.next_funding_event_block with
    | some next, some bl => if bl < block_num then next else p.prev_funding_rate
    | _, _ => p.prev_funding_rate
  { p with
    prev_funding_rate := prev'
    next_funding_rate := some funding_rate
    next_funding_payment := some funding_payment
    next_funding_event_block := some block_num
    instant := instant }

/-! ### State events and errors (fragments of `src/state/event.rs`,
`src/error.rs`) -/

inductive OrderErrKind
  | CrossesBook
  | InvalidOrderId
  | MaxMatchesReached
  | PriceOutOfRange
deriving DecidableEq

inductive StateEvent
  | ExchangeHalted (halted : Bool)
  | OrderError (perpetual_id account_id request_id : Nat) (order_id : Option Nat)
      (kind : OrderErrKind)
  | PerpetualMarkPriceUpdated (perpetual_id : Nat) (price : Rat)
  | PerpetualFundingEvent (perpetual_id : Nat) (rate payment_per_unit : Rat)
  | PositionUnrealizedPnLUpdated (perpetual_id account_id : Nat)
      (pnl delta_pnl premium_pnl : Rat)
deriving DecidableEq

inductive DexError
  | BlockOutOfOrder (expected got : Nat)
  | OrderContextExpected (tx_index log_index : Nat)
deriving DecidableEq

/-- `Perpetual::update_state_instant`: advance `state_instant`, and emit a
`FundingEvent` exactly when a pending payment's funding block equals the new
block number. -/
def Perpetual.updateStateInstant (p : Perpetual) (instant : StateInstant) :
    Perpetual × List StateEvent :=
  let p' := { p with state_instant := instant }
  match p.next_funding_payment, p.next_funding_event_block with
  | some payment, some fe =>
    if fe = instant.block_number then
      (p', [.PerpetualFundingEvent p.id p'.fundingRate payment])
    else (p', [])
  | _, _ => (p', [])

/-! ### Exchange event-application engine (fragment of
`src/state/exchange.rs` covering the event kinds the claims quantify over;
every embedded arm follows its `apply_raw_event` match arm) -/

structure OrderContext where
  perpetual_id : Nat
  account_id : Nat
  request_id : Nat
  order_id : Option Nat
deriving DecidableEq

inductive RawEventKind
  | OrderRequest (ctx : OrderContext)
  | OrderBatchCompleted
  | ExchangeHalted (halted : Bool)
  | CrossesBook
  | InvalidOrderId
  | MaxMatchesReached
  | PriceOutOfRange
  | MarkUpdated (perp_id : Nat) (price : Rat)
  | FundingEventCompleted (perp_id : Nat) (rate payment_per_unit : Rat)
      (funding_event_block : Nat)
deriving DecidableEq

structure RawEvent where
  tx_hash : Nat
  tx_index : Nat
  log_index : Nat
  event : RawEventKind
deriving DecidableEq

structure RawBlockEvents where
  instant : StateInstant
  events : List RawEvent
deriving DecidableEq

structure Account where
  id : Nat
  positions : List (Nat × Position)
deriving DecidableEq

structure Exchange where
  instant : StateInstant
  is_halted : Bool
  perpetuals : List (Nat × Perpetual)
  accounts : List (Nat × Account)
deriving DecidableEq

structure StateBlockEvents where
  instant : StateInstant
  events : List (List StateEvent)
deriving DecidableEq

/-- `Exchange::err_ctx`: require an order context, then emit the error event
only when the context's account is tracked. -/
def exErrCtx (ex : Exchange) (ctx : Option OrderContext) (ev : RawEvent)
    (kind : OrderErrKind) :
    Exchange × Option OrderContext × Except DexError (List StateEvent) :=
  match ctx with
  | none => (ex, ctx, .error (.OrderContextExpected ev.tx_index ev.log_index))
  | some c =>
    if (lookupA c.account_id ex.accounts).isSome then
      (ex, ctx,
       .ok [.OrderError c.perpetual_id c.account_id c.request_id c.order_id kind])
    else (ex, ctx, .ok [])

/-- Mark-price propagation over all tracked accounts (the `MarkUpdated` arm
iterates `accounts.values_mut()`; iteration order is modelled as list
order). -/
def applyMarkToAccounts (perp_id : Nat) (instant : StateInstant) (mark : Rat) :
    List (Nat × Account) → List (Nat × Account) × List StateEvent
  | [] => ([], [])
  | (aid, acc) :: rest =>
    let res := applyMarkToAccounts perp_id instant mark rest
    match lookupA perp_id acc.positions with
    | some pos =>
      let pos' := pos.applyMarkPrice instant mark
      ((aid, { acc with positions := insertA perp_id pos' acc.positions }) :: res.1,
       .PositionUnrealizedPnLUpdated pos'.perpetual_id pos'.account_id
           pos'.pnl pos'.delta_pnl pos'.premium_pnl :: res.2)
    | none => ((aid, acc) :: res.1, res.2)

/-- Funding propagation over all tracked accounts (the `FundingEvent` arm of
`Exchange::apply_state_event`). -/
def applyFundingToAccounts (perp_id : Nat) (instant : StateInstant) (payment : Rat) :
    List (Nat × Account) → List (Nat × Account) × List StateEvent
  | [] => ([], [])
  | (aid, acc) :: rest =>
    let res := applyFundingToAccounts perp_id instant payment rest
    match lookupA perp_id acc.positions with
    | some pos =>
      let r := pos.applyFundingPayment instant payment
      if r.2 then
        ((aid, { acc with positions := insertA perp_id r.1 acc.positions }) :: res.1,
         .PositionUnrealizedPnLUpdated r.1.perpetual_id r.1.account_id
             r.1.pnl r.1.delta_pnl r.1.premium_pnl :: res.2)
      else ((aid, acc) :: res.1, res.2)
    | none => ((aid, acc) :: res.1, res.2)

/-- `Exchange::apply_raw_event` (embedded arms).  The returned triple carries
the possibly mutated exchange even on error, mirroring `&mut self`. -/
def Exchange.applyRawEvent (ex : Exchange) (instant : StateInstant) (ev : RawEvent)
    (ctx : Option OrderContext) :
    Exchange × Option OrderContext × Except DexError (List StateEvent) :=
  match ev.event with
  | .OrderRequest c => (ex, some c, .ok [])
  | .OrderBatchCompleted => (ex, none, .ok [])
  | .ExchangeHalted h => ({ ex with is_halted := h }, ctx, .ok [.ExchangeHalted h])
  | .CrossesBook => exErrCtx ex ctx ev .CrossesBook
  | .InvalidOrderId => exErrCtx ex ctx ev .InvalidOrderId
  | .MaxMatchesReached => exErrCtx ex ctx ev .MaxMatchesReached
  | .PriceOutOfRange =>
    -- the source post-processes `err_ctx` with `.ok().flatten()`:
    -- a missing context is swallowed instead of failing the batch
    match ctx with
    | none => (ex, ctx, .ok [])
    | some c =>
      if (lookupA c.account_id ex.accounts).isSome then
        (ex, ctx,
         .ok [.OrderError c.perpetual_id c.account_id c.request_id c.order_id
               .PriceOutOfRange])
      else (ex, ctx, .ok [])
  | .MarkUpdated pid price =>
    match lookupA pid ex.perpetuals with
    | none => (ex, ctx, .ok [])
    | some perp =>
      let perp' := perp.updateMarkPrice instant price
      let res := applyMarkToAccounts pid instant perp'.mark_price ex.accounts
      ({ ex with perpetuals := insertA pid perp' ex.perpetuals, accounts := res.1 },
       ctx,
       .ok (.PerpetualMarkPriceUpdated perp'.id perp'.mark_price :: res.2))
  | .FundingEventCompleted pid rate payment feb =>
    match lookupA pid ex.perpetuals with
    | none => (ex, ctx, .ok [])
    | some perp =>
      ({ ex with
         perpetuals := insertA pid (perp.updateFunding instant rate payment feb)
           ex.perpetuals },
       ctx, .ok [])

/-- `Exchange::apply_state_event` (embedded arms; every arm returns `Ok`). -/
def Exchange.applyStateEvent (ex : Exchange) (instant : StateInstant) (ev : StateEvent) :
    Exchange × Except DexError (List StateEvent) :=
  match ev with
  | .PerpetualFundingEvent pid _rate payment =>
    let res := applyFundingToAccounts pid instant payment ex.accounts
    ({ ex with accounts := res.1 }, .ok res.2)
  | _ => (ex, .ok [])

/-- First pass of `Exchange::apply_events`: sequential event application with
order-context maintenance; the first error aborts, keeping the mutations of
the already applied events. -/
def applyEventsLoop (ex : Exchange) (instant : StateInstant) (ctx : Option OrderContext)
    (prev_tx : Option Nat) (acc : List (List StateEvent)) :
    List RawEvent → Exchange × Except DexError (List (List StateEvent))
  | [] => (ex, .ok acc)
  | ev :: rest =>
    let ctx0 :=
      match prev_tx with
      | some idx => if idx < ev.tx_index then none else ctx
      | none => ctx
    match ex.applyRawEvent instant ev ctx0 with
    | (ex', _, .error e) => (ex', .error e)
    | (ex', ctx', .ok evs) =>
      applyEventsLoop ex' instant ctx' (some ev.tx_index)
        (if evs.isEmpty then acc else acc ++ [evs]) rest

/-- Second pass: advance `state_instant` on every tracked perpetual,
collecting the emitted funding-event groups. -/
def updatePerpsStateInstant (instant : StateInstant) :
    List (Nat × Perpetual) → List (Nat × Perpetual) × List (List StateEvent)
  | [] => ([], [])
  | (pid, perp) :: rest =>
    let r := perp.updateStateInstant instant
    let res := updatePerpsStateInstant instant rest
    ((pid, r.1) :: res.1, if r.2.isEmpty then res.2 else r.2 :: res.2)

/-- Third pass: apply the collected perpetual events back to the state. -/
def applyPerpEvents (ex : Exchange) (instant : StateInstant)
    (acc : List (List StateEvent)) :
    List StateEvent → Exchange × Except DexError (List (List StateEvent))
  | [] => (ex, .ok acc)
  | ev :: rest =>
    match ex.applyStateEvent instant ev with
    | (ex', .error e) => (ex', .error e)
    | (ex', .ok evs) =>
      applyPerpEvents ex' instant (if evs.isEmpty then acc else acc ++ [evs]) rest

/-- `Exchange::apply_events`.  The returned pair carries the possibly mutated
exchange even on error, mirroring `&mut self`. -/
def Exchange.applyEvents (ex : Exchange) (batch : RawBlockEvents) :
    Exchange × Except DexError (Option StateBlockEvents) :=
  let next := batch.instant
  if next.leB ex.instant then (ex, .ok none)
  else if ex.instant.block_number + 1 < next.block_number then
    (ex, .error (.BlockOutOfOrder (ex.instant.block_number + 1) next.block_number))
  else
    match applyEventsLoop ex next none none [] batch.events with
    | (ex1, .error e) => (ex1, .error e)
    | (ex1, .ok evs1) =>
      let ex2 := { ex1 with instant := next }
      let pr := updatePerpsStateInstant next ex2.perpetuals
      let ex3 := { ex2 with perpetuals := pr.1 }
      match applyPerpEvents ex3 next (evs1 ++ pr.2) pr.2.flatten with
      | (ex4, .error e) => (ex4, .error e)
      | (ex4, .ok evs3) => (ex4, .ok (some ⟨next, evs3⟩))

/-! ### Trade correlator (`src/fill/listener.rs`).  Numeric normalization is
embedded as carrying the already-normalized decimal values; the
`NormalizationConfig` perpetual map survives as the set of known perpetual
ids. -/

inductive RequestType
  | OpenLong
  | OpenShort
  | CloseLong
  | CloseShort
  | Cancel
  | IncreasePositionCollateral
  | Change
deriving DecidableEq

/-- `RequestType::try_side`. -/
def RequestType.trySide : RequestType → Option OrderSide
  | .OpenLong => some .Bid
  | .CloseShort => some .Bid
  | .OpenShort => some .Ask
  | .CloseLong => some .Ask
  | _ => none

inductive FillEventKind
  | OrderRequest (request_type : RequestType) (account_id : Nat)
  | OrderBatchCompleted
  | MakerOrderFilled (perp_id maker_account_id maker_order_id : Nat)
      (price size fee : Rat)
  | TakerOrderFilled (price size fee : Rat)
  | Other
deriving DecidableEq

structure FillRawEvent where
  tx_hash : Nat
  tx_index : Nat
  log_index : Nat
  event : FillEventKind
deriving DecidableEq

structure FillBlockEvents where
  instant : StateInstant
  events : List FillRawEvent
deriving DecidableEq

structure PendingMakerFill where
  tx_hash : Nat
  log_index : Nat
  perpetual_id : Nat
  maker_account_id : Nat
  maker_order_id : Nat
  price : Rat
  size : Rat
  maker_fee : Rat
deriving DecidableEq

structure MakerFill where
  log_index : Nat
  maker_account_id : Nat
  maker_order_id : Nat
  price : Rat
  size : Rat
  fee : Rat
deriving DecidableEq

structure TakerTrade where
  tx_hash : Nat
  tx_index : Nat
  perpetual_id : Nat
  taker_account_id : Nat
  taker_side : OrderSide
  taker_fee : Rat
  maker_fills : List MakerFill
deriving DecidableEq

structure FillContext where
  account_id : Nat
  side : OrderSide
deriving DecidableEq

structure TradeProcessor where
  known_perps : List Nat
  order_context : Option FillContext
  pending_maker_fills : List PendingMakerFill
  prev_tx_index : Option Nat
deriving DecidableEq

structure BlockTrades where
  instant : StateInstant
  trades : List TakerTrade
deriving DecidableEq

/-- `TradeProcessor::handle_maker_fill`: buffer the fill when the perpetual
has converters in the config. -/
def TradeProcessor.handleMakerFill (tp : TradeProcessor) (ev : FillRawEvent)
    (perp_id maker_account_id maker_order_id : Nat) (price size fee : Rat) :
    TradeProcessor :=
  if perp_id ∈ tp.known_perps then
    { tp with
      pending_maker_fills := tp.pending_maker_fills ++
        [⟨ev.tx_hash, ev.log_index, perp_id, maker_account_id, maker_order_id,
          price, size, fee⟩] }
  else tp

/-- `TradeProcessor::handle_taker_fill`. -/
def TradeProcessor.handleTakerFill (tp : TradeProcessor) (ev : FillRawEvent)
    (fee : Rat) : Option TakerTrade × TradeProcessor :=
  let makers := tp.pending_maker_fills
  let tp' := { tp with pending_maker_fills := [] }
  match makers with
  | [] => (none, tp')
  | first :: _ =>
    match tp.order_context with
    | none => (none, tp')
    | some c =>
      if makers.all (fun m => m.tx_hash == ev.tx_hash) then
        (some
          { tx_hash := ev.tx_hash
            tx_index := ev.tx_index
            perpetual_id := first.perpetual_id
            taker_account_id := c.account_id
            taker_side := c.side
            taker_fee := fee
            maker_fills := makers.map (fun m =>
              ⟨m.log_index, m.maker_account_id, m.maker_order_id, m.price, m.size,
               m.maker_fee⟩) },
         tp')
      else (none, tp')

/-- `TradeProcessor::process_event`. -/
def TradeProcessor.processEvent (tp : TradeProcessor) (ev : FillRawEvent) :
    Option TakerTrade × TradeProcessor :=
  match ev.event with
  | .OrderRequest rt aid =>
    match rt.trySide with
    | some side => (none, { tp with order_context := some ⟨aid, side⟩ })
    | none => (none, tp)
  | .OrderBatchCompleted =>
    (none, { tp with order_context := none, pending_maker_fills := [] })
  | .MakerOrderFilled pid maid moid price size fee =>
    (none, tp.handleMakerFill ev pid maid moid price size fee)
  | .TakerOrderFilled _price _size fee => tp.handleTakerFill ev fee
  | .Other => (none, tp)

/-- Event loop of `TradeProcessor::process_block` (transaction-boundary
reset, then per-event processing). -/
def processBlockLoop (tp : TradeProcessor) (acc : List TakerTrade) :
    List FillRawEvent → TradeProcessor × List TakerTrade
  | [] => (tp, acc)
  | ev :: rest =>
    let tp0 :=
      match tp.prev_tx_index with
      | some idx =>
        if idx < ev.tx_index then
          { tp with order_context := none, pending_maker_fills := [] }
        else tp
      | none => tp
    let r := tp0.processEvent ev
    let tp1 := { r.2 with prev_tx_index := some ev.tx_index }
    processBlockLoop tp1
      (match r.1 with
       | some t => acc ++ [t]
       | none => acc) rest

/-- `TradeProcessor::process_block`: a total function — the correlator never
fails. -/
def TradeProcessor.processBlock (tp : TradeProcessor) (blk : FillBlockEvents) :
    TradeProcessor × BlockTrades :=
  let r := processBlockLoop tp [] blk.events
  (r.1, ⟨blk.instant, r.2⟩)

/-! ### Engine helper lemmas -/

theorem exErrCtx_instant (ex : Exchange) (ctx : Option OrderContext) (ev : RawEvent)
    (k : OrderErrKind) : (exErrCtx ex ctx ev k).1 = ex := by
  cases ctx with
  | none => rfl
  | some c =>
    by_cases h : (lookupA c.account_id ex.accounts).isSome <;> simp [exErrCtx, h]

theorem applyRawEvent_instant (ex : Exchange) (i : StateInstant) (ev : RawEvent)
    (ctx : Option OrderContext) :
    (ex.applyRawEvent i ev ctx).1.instant = ex.instant := by
  cases hk : ev.event with
  | OrderRequest c => simp [Exchange.applyRawEvent, hk]
  | OrderBatchCompleted => simp [Exchange.applyRawEvent, hk]
  | ExchangeHalted h => simp [Exchange.applyRawEvent, hk]
  | CrossesBook => simp [Exchange.applyRawEvent, hk, exErrCtx_instant]
  | InvalidOrderId => simp [Exchange.applyRawEvent, hk, exErrCtx_instant]
  | MaxMatchesReached => simp [Exchange.applyRawEvent, hk, exErrCtx_instant]
  | PriceOutOfRange =>
    cases ctx with
    | none => simp [Exchange.applyRawEvent, hk]
    | some c =>
      by_cases h : (lookupA c.account_id ex.accounts).isSome <;>
        simp [Exchange.applyRawEvent, hk, h]
  | MarkUpdated pid price =>
    cases h : lookupA pid ex.perpetuals <;> simp [Exchange.applyRawEvent, hk, h]
  | FundingEventCompleted pid r pay feb =>
    cases h : lookupA pid ex.perpetuals <;> simp [Exchange.applyRawEvent, hk, h]

theorem applyEventsLoop_instant (evs : List RawEvent) :
    ∀ (ex : Exchange) (i : StateInstant) (ctx : Option OrderContext)
      (ptx : Option Nat) (acc : List (List StateEvent)),
      (applyEventsLoop ex i ctx ptx acc evs).1.instant = ex.instant := by
  induction evs with
  | nil => intro ex i ctx ptx acc; rfl
  | cons ev rest ih =>
    intro ex i ctx ptx acc
    simp only [applyEventsLoop]
    generalize (match ptx with
       | some idx => if idx < ev.tx_index then none else ctx
       | none => ctx : Option OrderContext) = c0
    have hinst := applyRawEvent_instant ex i ev c0
    rcases hr : ex.applyRawEvent i ev c0 with ⟨ex', ctx', res⟩
    rw [hr] at hinst
    cases res with
    | error e => exact hinst
    | ok out => rw [ih]; exact hinst

theorem applyStateEvent_ok (ex : Exchange) (i : StateInstant) (ev : StateEvent) :
    (∃ res, (ex.applyStateEvent i ev).2 = .ok res) ∧
      (ex.applyStateEvent i ev).1.instant = ex.instant := by
  cases ev <;> simp [Exchange.applyStateEvent]

theorem applyPerpEvents_ok (evs : List StateEvent) :
    ∀ (ex : Exchange) (i : StateInstant) (acc : List (List StateEvent)),
      ∃ ex' res, applyPerpEvents ex i acc evs = (ex', .ok res) ∧
        ex'.instant = ex.instant := by
  induction evs with
  | nil => intro ex i acc; exact ⟨ex, acc, rfl, rfl⟩
  | cons ev rest ih =>
    intro ex i acc
    obtain ⟨⟨res0, hres0⟩, hinst0⟩ := applyStateEvent_ok ex i ev
    rcases hs : ex.applyStateEvent i ev with ⟨ex1, r1⟩
    rw [hs] at hres0 hinst0
    simp only at hres0 hinst0
    subst hres0
    obtain ⟨ex', res, hrec, hinst⟩ :=
      ih ex1 i (if res0.isEmpty then acc else acc ++ [res0])
    refine ⟨ex', res, ?_, by rw [hinst, hinst0]⟩
    simp only [applyPerpEvents, hs]
    exact hrec

/-! ### Claim theorems -/

/-- Claim C8: when the trade correlator processes a `TakerOrderFilled`
event, the pending buffer is always cleared; nothing is emitted when the
buffer was empty or no order context is set; when every buffered maker fill
shares the taker's `tx_hash`, exactly one `TakerTrade` is emitted whose
`perpetual_id` comes from the first buffered fill, whose account and side
come from the order context, whose fee comes from the taker event, and whose
`maker_fills` list every buffered fill in order; a `tx_hash` mismatch drops
the trade entirely.  (`process_block` is a total function — the correlator
never returns an error.) -/
theorem trade_correlator_taker_fill_spec (tp : TradeProcessor) (ev : FillRawEvent)
    (price size fee : Rat) (hev : ev.event = .TakerOrderFilled price size fee) :
    (tp.processEvent ev).2.pending_maker_fills = [] ∧
    (tp.pending_maker_fills = [] → (tp.processEvent ev).1 = none) ∧
    (tp.order_context = none → (tp.processEvent ev).1 = none) ∧
    (∀ first rest c, tp.pending_maker_fills = first :: rest →
      tp.order_context = some c →
      ((∀ m ∈ tp.pending_maker_fills, m.tx_hash = ev.tx_hash) →
        (tp.processEvent ev).1 = some
          { tx_hash := ev.tx_hash
            tx_index := ev.tx_index
            perpetual_id := first.perpetual_id
            taker_account_id := c.account_id
            taker_side := c.side
            taker_fee := fee
            maker_fills := tp.pending_maker_fills.map (fun m =>
              ⟨m.log_index, m.maker_account_id, m.maker_order_id, m.price, m.size,
               m.maker_fee⟩) }) ∧
      ((∃ m ∈ tp.pending_maker_fills, m.tx_hash ≠ ev.tx_hash) →
        (tp.processEvent ev).1 = none)) := by
  obtain ⟨kp, oc, pend, ptx⟩ := tp
  obtain ⟨h, txi, li, k⟩ := ev
  simp only at hev
  subst hev
  refine ⟨?_, ?_, ?_, ?_⟩
  · simp only [TradeProcessor.processEvent, TradeProcessor.handleTakerFill]
    cases pend with
    | nil => rfl
    | cons a as =>
      cases oc with
      | none => rfl
      | some c =>
        by_cases hall : (a :: as).all (fun m => m.tx_hash == h) <;> simp [hall]
  · intro hp
    simp only at hp
    subst hp
    rfl
  · intro hc
    simp only at hc
    subst hc
    simp only [TradeProcessor.processEvent, TradeProcessor.handleTakerFill]
    cases pend with
    | nil => rfl
    | cons a as => rfl
  · intro first rest c hp hc
    simp only at hp hc
    subst hp
    subst hc
    constructor
    · intro hall
      have hall' : (first :: rest).all (fun m => m.tx_hash == h) = true := by
        rw [List.all_eq_true]
        intro m hm
        simpa using hall m hm
      simp [TradeProcessor.processEvent, TradeProcessor.handleTakerFill, hall']
    · rintro ⟨m, hm, hne⟩
      have hall' : ¬ ((first :: rest).all (fun m => m.tx_hash == h) = true) := by
        rw [List.all_eq_true]
        intro hcontra
        exact hne (by simpa using hcontra m hm)
      simp [TradeProcessor.processEvent, TradeProcessor.handleTakerFill, hall']

/-- Witness for C8 at a concrete processor state and taker event. -/
theorem trade_correlator_taker_fill_spec_witness :
    (FillRawEvent.mk 5 0 4 (.TakerOrderFilled 100 1 (1/100))).event =
        .TakerOrderFilled 100 1 (1/100) ∧
    ((TradeProcessor.mk [1] (some ⟨7, .Bid⟩) [⟨5, 2, 1, 9, 3, 100, 1, 1⟩]
        (some 0)).processEvent
        (FillRawEvent.mk 5 0 4 (.TakerOrderFilled 100 1 (1/100)))).2.pending_maker_fills =
        [] ∧
    True :=
  ⟨rfl,
   (trade_correlator_taker_fill_spec
      (TradeProcessor.mk [1] (some ⟨7, .Bid⟩) [⟨5, 2, 1, 9, 3, 100, 1, 1⟩] (some 0))
      (FillRawEvent.mk 5 0 4 (.TakerOrderFilled 100 1 (1/100)))
      100 1 (1/100) rfl).1,
   trivial⟩

theorem applyPerpEvents_instant (evs : List StateEvent) :
    ∀ (ex : Exchange) (i : StateInstant) (acc : List (List StateEvent)),
      (applyPerpEvents ex i acc evs).1.instant = ex.instant := by
  induction evs with
  | nil => intro ex i acc; rfl
  | cons ev rest ih =>
    intro ex i acc
    have h2 := (applyStateEvent_ok ex i ev).2
    rcases hs : ex.applyStateEvent i ev with ⟨ex1, r⟩
    rw [hs] at h2
    simp only [applyPerpEvents, hs]
    cases r with
    | error e => exact h2
    | ok out => rw [ih]; exact h2

theorem applyEventsLoop_eq {evs : List RawEvent} {ex : Exchange} {i : StateInstant}
    {ctx : Option OrderContext} {ptx : Option Nat} {acc : List (List StateEvent)}
    {ex1 : Exchange} {r : Except DexError (List (List StateEvent))}
    (h : applyEventsLoop ex i ctx ptx acc evs = (ex1, r)) : ex1.instant = ex.instant := by
  have := applyEventsLoop_instant evs ex i ctx ptx acc
  rw [h] at this
  exact this

theorem applyPerpEvents_eq_ok {evs : List StateEvent} {ex : Exchange} {i : StateInstant}
    {acc : List (List StateEvent)} {ex4 : Exchange}
    {r : Except DexError (List (List StateEvent))}
    (h : applyPerpEvents ex i acc evs = (ex4, r)) :
    (∃ res, r = .ok res) ∧ ex4.instant = ex.instant := by
  obtain ⟨ex', res, heq, hinst⟩ := applyPerpEvents_ok evs ex i acc
  rw [h] at heq
  simp only [Prod.mk.injEq] at heq
  obtain ⟨he, hr⟩ := heq
  subst he
  exact ⟨⟨res, hr⟩, hinst⟩

theorem applyEvents_ok_some_instant (ex : Exchange) (batch : RawBlockEvents)
    (ex' : Exchange) (evs : StateBlockEvents)
    (h : ex.applyEvents batch = (ex', .ok (some evs))) :
    ex'.instant = batch.instant ∧ evs.instant = batch.instant := by
  simp only [Exchange.applyEvents] at h
  split at h
  · simp at h
  · split at h
    · simp at h
    · split at h
      next ex1 e1 heq => simp at h
      next ex1 evs1 heq =>
        split at h
        next ex4 e2 hp =>
          obtain ⟨⟨res, hres⟩, -⟩ := applyPerpEvents_eq_ok hp
          simp at hres
        next ex4 evs3 hp =>
          have hinst := (applyPerpEvents_eq_ok hp).2
          simp only at hinst
          simp only [Prod.mk.injEq] at h
          obtain ⟨he4, hv⟩ := h
          injection hv with hv
          injection hv with hv
          subst he4
          subst hv
          exact ⟨hinst, rfl⟩

/-- Claim C10: applying a `PriceOutOfRange` raw event with no order context
returns `Ok` with no state events (silently ignored), while the other
order-rejection kinds (`CrossesBook`, `InvalidOrderId`, `MaxMatchesReached`)
applied without a context make `apply_events` fail with
`OrderContextExpected(tx_index, log_index)`. -/
theorem price_out_of_range_context_handling (ex : Exchange) (i : StateInstant)
    (ev : RawEvent) (batch : RawBlockEvents) :
    (ev.event = .PriceOutOfRange →
      ex.applyRawEvent i ev none = (ex, none, .ok [])) ∧
    (∀ k, (k = RawEventKind.CrossesBook ∨ k = RawEventKind.InvalidOrderId ∨
        k = RawEventKind.MaxMatchesReached) → ev.event = k →
      ex.applyRawEvent i ev none =
        (ex, none, .error (.OrderContextExpected ev.tx_index ev.log_index))) ∧
    (batch.events = [ev] → ¬ batch.instant.leB ex.instant →
      ¬ (ex.instant.block_number + 1 < batch.instant.block_number) →
      ((ev.event = .PriceOutOfRange → ∀ e, (ex.applyEvents batch).2 ≠ .error e) ∧
       (∀ k, (k = RawEventKind.CrossesBook ∨ k = RawEventKind.InvalidOrderId ∨
           k = RawEventKind.MaxMatchesReached) → ev.event = k →
         ex.applyEvents batch =
           (ex, .error (.OrderContextExpected ev.tx_index ev.log_index))))) := by
  refine ⟨?_, ?_, ?_⟩
  · intro h
    simp [Exchange.applyRawEvent, h]
  · intro k hk hev
    rcases hk with rfl | rfl | rfl <;> simp [Exchange.applyRawEvent, hev, exErrCtx]
  · intro hbatch h1 h2
    constructor
    · intro hev e hcontra
      have hraw : ex.applyRawEvent batch.instant ev none = (ex, none, .ok []) := by
        simp [Exchange.applyRawEvent, hev]
      have hloop : applyEventsLoop ex batch.instant none none [] [ev] = (ex, .ok []) := by
        simp [applyEventsLoop, hraw]
      simp only [Exchange.applyEvents, if_neg h1, if_neg h2, hbatch, hloop] at hcontra
      split at hcontra
      next ex4 e2 hp =>
        obtain ⟨⟨res, hres⟩, -⟩ := applyPerpEvents_eq_ok hp
        simp at hres
      next ex4 evs3 hp => simp at hcontra
    · intro k hk hev
      have hraw : ex.applyRawEvent batch.instant ev none =
          (ex, none, .error (.OrderContextExpected ev.tx_index ev.log_index)) := by
        rcases hk with rfl | rfl | rfl <;> simp [Exchange.applyRawEvent, hev, exErrCtx]
      have hloop : applyEventsLoop ex batch.instant none none [] [ev] =
          (ex, .error (.OrderContextExpected ev.tx_index ev.log_index)) := by
        simp [applyEventsLoop, hraw]
      simp only [Exchange.applyEvents, if_neg h1, if_neg h2, hbatch, hloop]

/-- Witness for C10 at a concrete state, event and batch. -/
theorem price_out_of_range_context_handling_witness :
    (RawEvent.mk 0 3 7 .CrossesBook).event = RawEventKind.CrossesBook ∧
    (Exchange.mk ⟨0, 0⟩ false [] []).applyEvents
        (RawBlockEvents.mk ⟨1, 1⟩ [RawEvent.mk 0 3 7 .CrossesBook]) =
      (Exchange.mk ⟨0, 0⟩ false [] [], .error (.OrderContextExpected 3 7)) :=
  ⟨rfl,
   ((price_out_of_range_context_handling (Exchange.mk ⟨0, 0⟩ false [] []) ⟨1, 1⟩
      (RawEvent.mk 0 3 7 .CrossesBook)
      (RawBlockEvents.mk ⟨1, 1⟩ [RawEvent.mk 0 3 7 .CrossesBook])).2.2
      rfl (by decide) (by decide)).2 RawEventKind.CrossesBook (Or.inl rfl) rfl⟩

/-- Counterexample for claim C2: with the exchange at instant `(5, 10)`, a
batch at instant `(5, 11)` — same block number, later timestamp — is NOT
treated as already applied: it is processed and mutates state, because the
"already applied" test compares full instants lexicographically, not block
numbers. -/
theorem apply_events_same_block_later_timestamp_processed :
    (RawBlockEvents.mk ⟨5, 11⟩
        [RawEvent.mk 0 0 0 (.ExchangeHalted true)]).instant.block_number ≤
      (Exchange.mk ⟨5, 10⟩ false [] []).instant.block_number ∧
    ((Exchange.mk ⟨5, 10⟩ false [] []).applyEvents
        (RawBlockEvents.mk ⟨5, 11⟩ [RawEvent.mk 0 0 0 (.ExchangeHalted true)])).1 =
      Exchange.mk ⟨5, 11⟩ true [] [] ∧
    ((Exchange.mk ⟨5, 10⟩ false [] []).applyEvents
        (RawBlockEvents.mk ⟨5, 11⟩ [RawEvent.mk 0 0 0 (.ExchangeHalted true)])).2 =
      .ok (some ⟨⟨5, 11⟩, [[.ExchangeHalted true]]⟩) := by
  refine ⟨by decide, by rfl, by rfl⟩

/-- Claim C2 (amended): a batch whose instant is `<=` the exchange instant in
the lexicographic (block number, timestamp) order is a success-no-op; a batch
whose block number exceeds the next expected block fails with
`BlockOutOfOrder(expected, got)` and changes nothing; re-applying a
successfully applied batch is a no-op without error. -/
theorem apply_events_block_ordering (ex : Exchange) (batch : RawBlockEvents) :
    (batch.instant.leB ex.instant → ex.applyEvents batch = (ex, .ok none)) ∧
    (ex.instant.block_number + 1 < batch.instant.block_number →
      ex.applyEvents batch =
        (ex, .error (.BlockOutOfOrder (ex.instant.block_number + 1)
          batch.instant.block_number))) ∧
    (∀ ex' evs, ex.applyEvents batch = (ex', .ok (some evs)) →
      ex'.applyEvents batch = (ex', .ok none)) := by
  refine ⟨?_, ?_, ?_⟩
  · intro h
    simp [Exchange.applyEvents, h]
  · intro h
    have h1 : ¬ batch.instant.leB ex.instant = true := by
      simp only [StateInstant.leB]
      simp only [Bool.or_eq_true, Bool.and_eq_true, decide_eq_true_eq, not_or, not_and]
      omega
    simp [Exchange.applyEvents, h1, h]
  · intro ex' evs h
    have hinst := (applyEvents_ok_some_instant ex batch ex' evs h).1
    have hle : batch.instant.leB ex'.instant = true := by
      rw [hinst]
      simp [StateInstant.leB]
    simp [Exchange.applyEvents, hle]

/-- Witness for C2 at a concrete state and batch. -/
theorem apply_events_block_ordering_witness :
    (RawBlockEvents.mk ⟨4, 7⟩ []).instant.leB
        (Exchange.mk ⟨5, 10⟩ false [] []).instant = true ∧
    (Exchange.mk ⟨5, 10⟩ false [] []).applyEvents (RawBlockEvents.mk ⟨4, 7⟩ []) =
      (Exchange.mk ⟨5, 10⟩ false [] [], .ok none) :=
  ⟨by decide,
   (apply_events_block_ordering (Exchange.mk ⟨5, 10⟩ false [] [])
      (RawBlockEvents.mk ⟨4, 7⟩ [])).1 (by decide)⟩

/-- Counterexample for claim C1: a batch whose first event mutates state
(`ExchangeHalted`) and whose second event fails (`CrossesBook` with no order
context) returns a typed error, yet the halted flag keeps the mutated value —
`apply_events` does not roll back the already-applied prefix. -/
theorem apply_events_not_atomic :
    ((Exchange.mk ⟨5, 5⟩ false [] []).applyEvents
        (RawBlockEvents.mk ⟨6, 6⟩
          [RawEvent.mk 0 0 0 (.ExchangeHalted true),
           RawEvent.mk 0 0 1 .CrossesBook])).2 =
      .error (.OrderContextExpected 0 1) ∧
    ((Exchange.mk ⟨5, 5⟩ false [] []).applyEvents
        (RawBlockEvents.mk ⟨6, 6⟩
          [RawEvent.mk 0 0 0 (.ExchangeHalted true),
           RawEvent.mk 0 0 1 .CrossesBook])).1.is_halted = true ∧
    (Exchange.mk ⟨5, 5⟩ false [] []).is_halted = false := by
  refine ⟨by rfl, by rfl, rfl⟩

/-- Claim C1 (amended): `apply_events` on an in-order batch either succeeds
with the instant advanced to the batch instant, or returns a typed error with
no `StateEvents` returned and the instant unchanged; mutations performed by
events preceding the failing one persist (no rollback), as the counterexample
exhibits. -/
theorem apply_events_error_and_success_semantics (ex : Exchange)
    (batch : RawBlockEvents) :
    (∀ ex' e, ex.applyEvents batch = (ex', .error e) → ex'.instant = ex.instant) ∧
    (∀ ex' evs, ex.applyEvents batch = (ex', .ok (some evs)) →
      ex'.instant = batch.instant ∧ evs.instant = batch.instant) := by
  constructor
  · intro ex' e h
    simp only [Exchange.applyEvents] at h
    split at h
    · simp at h
    · split at h
      · simp only [Prod.mk.injEq] at h
        rw [← h.1]
      · split at h
        next ex1 e1 heq =>
          simp only [Prod.mk.injEq] at h
          rw [← h.1]
          exact applyEventsLoop_eq heq
        next ex1 evs1 heq =>
          split at h
          next ex4 e2 hp =>
            obtain ⟨⟨res, hres⟩, -⟩ := applyPerpEvents_eq_ok hp
            simp at hres
          next ex4 evs3 hp => simp at h
  · intro ex' evs h
    exact applyEvents_ok_some_instant ex batch ex' evs h

/-- Witness for the amended C1 at a concrete state and batch. -/
theorem apply_events_error_and_success_semantics_witness :
    (Exchange.mk ⟨5, 5⟩ false [] []).applyEvents
        (RawBlockEvents.mk ⟨6, 6⟩ [RawEvent.mk 0 0 1 .CrossesBook]) =
      ((Exchange.mk ⟨5, 5⟩ false [] []), .error (.OrderContextExpected 0 1)) ∧
    (Exchange.mk ⟨5, 5⟩ false [] []).instant = ⟨5, 5⟩ :=
  ⟨by rfl,
   (apply_events_error_and_success_semantics (Exchange.mk ⟨5, 5⟩ false [] [])
      (RawBlockEvents.mk ⟨6, 6⟩ [RawEvent.mk 0 0 1 .CrossesBook])).1
      (Exchange.mk ⟨5, 5⟩ false [] []) (.OrderContextExpected 0 1) (by rfl)⟩

/-! ### Mark and funding propagation lemmas -/

theorem lookupA_map_values {γ : Type} (f : β → γ) (k : α) :
    ∀ m : List (α × β),
      lookupA k (m.map (fun p => (p.1, f p.2))) = (lookupA k m).map f := by
  intro m
  induction m with
  | nil => rfl
  | cons hd tl ih =>
    obtain ⟨k0, v0⟩ := hd
    by_cases h0 : k0 = k <;> simp [lookupA, h0, ih]

/-- Per-account effect of a mark update. -/
def markAccount (pid : Nat) (i : StateInstant) (mark : Rat) (acc : Account) : Account :=
  match lookupA pid acc.positions with
  | some pos => { acc with positions := insertA pid (pos.applyMarkPrice i mark) acc.positions }
  | none => acc

theorem applyMarkToAccounts_fst (pid : Nat) (i : StateInstant) (mark : Rat) :
    ∀ accs : List (Nat × Account),
      (applyMarkToAccounts pid i mark accs).1 =
        accs.map (fun p => (p.1, markAccount pid i mark p.2)) := by
  intro accs
  induction accs with
  | nil => rfl
  | cons hd tl ih =>
    obtain ⟨aid, acc⟩ := hd
    cases hpos : lookupA pid acc.positions <;>
      simp [applyMarkToAccounts, markAccount, hpos, ih]

theorem applyMarkToAccounts_snd (pid : Nat) (i : StateInstant) (mark : Rat) :
    ∀ accs : List (Nat × Account),
      (applyMarkToAccounts pid i mark accs).2 =
        accs.filterMap (fun p =>
          (lookupA pid p.2.positions).map (fun pos =>
            StateEvent.PositionUnrealizedPnLUpdated
              (pos.applyMarkPrice i mark).perpetual_id
              (pos.applyMarkPrice i mark).account_id
              (pos.applyMarkPrice i mark).pnl
              (pos.applyMarkPrice i mark).delta_pnl
              (pos.applyMarkPrice i mark).premium_pnl)) := by
  intro accs
  induction accs with
  | nil => rfl
  | cons hd tl ih =>
    obtain ⟨aid, acc⟩ := hd
    cases hpos : lookupA pid acc.positions <;>
      simp [applyMarkToAccounts, hpos, ih]

/-- Per-account effect of a funding payment. -/
def fundAccount (pid : Nat) (i : StateInstant) (payment : Rat) (acc : Account) : Account :=
  match lookupA pid acc.positions with
  | some pos =>
    if (pos.applyFundingPayment i payment).2 then
      { acc with positions := insertA pid (pos.applyFundingPayment i payment).1 acc.positions }
    else acc
  | none => acc

theorem applyFundingToAccounts_fst (pid : Nat) (i : StateInstant) (payment : Rat) :
    ∀ accs : List (Nat × Account),
      (applyFundingToAccounts pid i payment accs).1 =
        accs.map (fun p => (p.1, fundAccount pid i payment p.2)) := by
  intro accs
  induction accs with
  | nil => rfl
  | cons hd tl ih =>
    obtain ⟨aid, acc⟩ := hd
    cases hpos : lookupA pid acc.positions with
    | none => simp [applyFundingToAccounts, fundAccount, hpos, ih]
    | some pos =>
      by_cases hap : (pos.applyFundingPayment i payment).2 <;>
        simp [applyFundingToAccounts, fundAccount, hpos, hap, ih]

/-- Claim C5: a `MarkUpdated` event for a tracked perpetual sets its mark
price, recomputes every tracked position's `delta_pnl` as
`sign(type) * (mark - entry) * size` with `sign(Long) = +1` and
`sign(Short) = -1`, and emits one `UnrealizedPnLUpdated` event per tracked
position after the `MarkPriceUpdated` event; in particular a Long position
with entry 100 and size 10 gets `delta_pnl = +500` when the mark moves to
150, and a Short position with the same parameters gets `-500`. -/
theorem mark_update_propagation (ex : Exchange) (i : StateInstant) (ev : RawEvent)
    (ctx : Option OrderContext) (pid : Nat) (price : Rat) (perp : Perpetual)
    (hev : ev.event = .MarkUpdated pid price)
    (hperp : lookupA pid ex.perpetuals = some perp) :
    (∃ perp2, lookupA pid (ex.applyRawEvent i ev ctx).1.perpetuals = some perp2 ∧
      perp2.mark_price = price ∧ perp2.mark_price_block = some i.block_number) ∧
    (∀ aid acc pos, lookupA aid ex.accounts = some acc →
      lookupA pid acc.positions = some pos →
      ∃ acc2, lookupA aid (ex.applyRawEvent i ev ctx).1.accounts = some acc2 ∧
        lookupA pid acc2.positions = some
          { pos with
            delta_pnl := (if pos.ptype.isLong then (1 : Rat) else -1) *
              (price - pos.entry_price) * pos.size
            instant := i }) ∧
    ((ex.applyRawEvent i ev ctx).2.2 = .ok
      (.PerpetualMarkPriceUpdated perp.id price ::
        ex.accounts.filterMap (fun p =>
          (lookupA pid p.2.positions).map (fun pos =>
            StateEvent.PositionUnrealizedPnLUpdated
              (pos.applyMarkPrice i price).perpetual_id
              (pos.applyMarkPrice i price).account_id
              (pos.applyMarkPrice i price).pnl
              (pos.applyMarkPrice i price).delta_pnl
              (pos.applyMarkPrice i price).premium_pnl)))) ∧
    (Position.applyMarkPrice ⟨⟨0, 0⟩, ⟨0, 0⟩, 1, 1, .Long, 100, 10, 0, 0, 0⟩
        ⟨0, 0⟩ 150).delta_pnl = 500 ∧
    (Position.applyMarkPrice ⟨⟨0, 0⟩, ⟨0, 0⟩, 1, 1, .Short, 100, 10, 0, 0, 0⟩
        ⟨0, 0⟩ 150).delta_pnl = -500 := by
  have hm : (perp.updateMarkPrice i price).mark_price = price := rfl
  refine ⟨?_, ?_, ?_, ?_, ?_⟩
  rotate_left 3
  · simp [Position.applyMarkPrice, PositionType.isLong]
    norm_num
  · simp [Position.applyMarkPrice, PositionType.isLong]
    norm_num
  · refine ⟨perp.updateMarkPrice i price, ?_, rfl, rfl⟩
    simp [Exchange.applyRawEvent, hev, hperp]
  · intro aid acc pos hacc hpos
    refine ⟨markAccount pid i price acc, ?_, ?_⟩
    · simp only [Exchange.applyRawEvent, hev, hperp, hm]
      rw [applyMarkToAccounts_fst, lookupA_map_values, hacc]
      rfl
    · simp only [markAccount, hpos]
      rw [lookupA_insertA_self]
      simp [Position.applyMarkPrice]
  · simp only [Exchange.applyRawEvent, hev, hperp, hm]
    rw [applyMarkToAccounts_snd]
    rfl

/-- Witness for C5 at a concrete exchange, position and mark update. -/
theorem mark_update_propagation_witness :
    (RawEvent.mk 0 0 0 (.MarkUpdated 1 150)).event = .MarkUpdated 1 150 ∧
    lookupA 1 (Exchange.mk ⟨4, 4⟩ false
        [(1, ⟨⟨4, 4⟩, ⟨4, 4⟩, 1, 100, none, 0, 0, none, none, none⟩)]
        [(1, ⟨1, [(1, ⟨⟨0, 0⟩, ⟨0, 0⟩, 1, 1, .Long, 100, 10, 0, 0, 0⟩)]⟩)]).perpetuals =
      some ⟨⟨4, 4⟩, ⟨4, 4⟩, 1, 100, none, 0, 0, none, none, none⟩ ∧
    (Position.applyMarkPrice ⟨⟨0, 0⟩, ⟨0, 0⟩, 1, 1, .Long, 100, 10, 0, 0, 0⟩
        ⟨0, 0⟩ 150).delta_pnl = 500 :=
  ⟨rfl, rfl,
   (mark_update_propagation
      (Exchange.mk ⟨4, 4⟩ false
        [(1, ⟨⟨4, 4⟩, ⟨4, 4⟩, 1, 100, none, 0, 0, none, none, none⟩)]
        [(1, ⟨1, [(1, ⟨⟨0, 0⟩, ⟨0, 0⟩, 1, 1, .Long, 100, 10, 0, 0, 0⟩)]⟩)])
      ⟨5, 5⟩ (RawEvent.mk 0 0 0 (.MarkUpdated 1 150)) none 1 150
      ⟨⟨4, 4⟩, ⟨4, 4⟩, 1, 100, none, 0, 0, none, none, none⟩
      rfl rfl).2.2.2.1⟩

/-- Counterexample for claim C3: an exchange at block 4 receives, in block 5,
a `FundingEventCompleted` whose `funding_event_block` is 3.  The perpetual's
`state_instant` transitions to block `5 >= 3`, yet the pending payment is
never applied: the position's `premium_pnl` stays `0` (the claimed update
would be `0 + (-1) * 5 * 10 = -50`), because `update_state_instant` fires
only on block-number equality with `funding_event_block`. -/
theorem funding_below_current_block_never_applied :
    ((Exchange.mk ⟨4, 4⟩ false
        [(1, ⟨⟨4, 4⟩, ⟨4, 4⟩, 1, 0, none, 0, 0, none, none, none⟩)]
        [(1, ⟨1, [(1, ⟨⟨0, 0⟩, ⟨0, 0⟩, 1, 1, .Long, 100, 10, 0, 0, 0⟩)]⟩)]).applyEvents
        (RawBlockEvents.mk ⟨5, 5⟩
          [RawEvent.mk 0 0 0 (.FundingEventCompleted 1 1 5 3)])).2 =
      .ok (some ⟨⟨5, 5⟩, []⟩) ∧
    (lookupA 1 ((Exchange.mk ⟨4, 4⟩ false
        [(1, ⟨⟨4, 4⟩, ⟨4, 4⟩, 1, 0, none, 0, 0, none, none, none⟩)]
        [(1, ⟨1, [(1, ⟨⟨0, 0⟩, ⟨0, 0⟩, 1, 1, .Long, 100, 10, 0, 0, 0⟩)]⟩)]).applyEvents
        (RawBlockEvents.mk ⟨5, 5⟩
          [RawEvent.mk 0 0 0 (.FundingEventCompleted 1 1 5 3)])).1.perpetuals).map
        (fun p => (p.state_instant, p.next_funding_event_block)) =
      some (⟨5, 5⟩, some 3) ∧
    ((Exchange.mk ⟨4, 4⟩ false
        [(1, ⟨⟨4, 4⟩, ⟨4, 4⟩, 1, 0, none, 0, 0, none, none, none⟩)]
        [(1, ⟨1, [(1, ⟨⟨0, 0⟩, ⟨0, 0⟩, 1, 1, .Long, 100, 10, 0, 0, 0⟩)]⟩)]).applyEvents
        (RawBlockEvents.mk ⟨5, 5⟩
          [RawEvent.mk 0 0 0 (.FundingEventCompleted 1 1 5 3)])).1.accounts =
      [(1, ⟨1, [(1, ⟨⟨0, 0⟩, ⟨0, 0⟩, 1, 1, .Long, 100, 10, 0, 0, 0⟩)]⟩)] ∧
    (0 : Rat) ≠ 0 + (-1) * 5 * 10 := by
  refine ⟨by rfl, by rfl, by rfl, by norm_num⟩

/-- Claim C3 (amended): a `FundingEventCompleted` for a tracked perpetual is
stored as pending (rate, payment, block) without touching any position or
emitting events; the pending payment is turned into a `FundingEvent` exactly
when the perpetual's `state_instant` is set to the block equal to
`funding_event_block` (a payment whose block is already below the arriving
block is never applied); the funding event then updates every tracked
position by `premium_pnl += sign * payment_per_unit * size` with
`sign = -1` for Long and `+1` for Short, stamping `funding_instant`, while a
position whose `funding_instant` is already `>=` the applying instant is
left unchanged, so re-applying the same funding at the same instant is a
no-op. -/
theorem funding_event_semantics (ex : Exchange) (i : StateInstant) (ev : RawEvent)
    (ctx : Option OrderContext) (pid : Nat) (rate payment : Rat) (feb : Nat)
    (perp : Perpetual)
    (hev : ev.event = .FundingEventCompleted pid rate payment feb)
    (hperp : lookupA pid ex.perpetuals = some perp) :
    (ex.applyRawEvent i ev ctx =
      ({ ex with
         perpetuals := insertA pid (perp.updateFunding i rate payment feb) ex.perpetuals },
       ctx, .ok []) ∧
     (perp.updateFunding i rate payment feb).next_funding_payment = some payment ∧
     (perp.updateFunding i rate payment feb).next_funding_rate = some rate ∧
     (perp.updateFunding i rate payment feb).next_funding_event_block = some feb ∧
     (ex.applyRawEvent i ev ctx).1.accounts = ex.accounts) ∧
    (∀ (p : Perpetual) (j : StateInstant),
      (p.updateStateInstant j).1.state_instant = j ∧
      ((p.updateStateInstant j).2 ≠ [] ↔
        ∃ pay fe, p.next_funding_payment = some pay ∧
          p.next_funding_event_block = some fe ∧ fe = j.block_number) ∧
      (∀ pay fe, p.next_funding_payment = some pay →
        p.next_funding_event_block = some fe → fe = j.block_number →
        (p.updateStateInstant j).2 =
          [.PerpetualFundingEvent p.id ((p.updateStateInstant j).1.fundingRate) pay])) ∧
    (∀ (pos : Position) (j : StateInstant) (pay : Rat),
      (pos.funding_instant.geB j → pos.applyFundingPayment j pay = (pos, false)) ∧
      (¬ pos.funding_instant.geB j →
        (pos.applyFundingPayment j pay).1.premium_pnl =
          pos.premium_pnl + (if pos.ptype.isLong then (-1 : Rat) else 1) * pay * pos.size ∧
        (pos.applyFundingPayment j pay).1.funding_instant = j ∧
        (pos.applyFundingPayment j pay).2 = true) ∧
      (pos.applyFundingPayment j pay).1.applyFundingPayment j pay =
        ((pos.applyFundingPayment j pay).1, false)) ∧
    (∀ (ex2 : Exchange) (j : StateInstant) (r pay : Rat) (aid : Nat) (acc : Account)
        (pos : Position),
      lookupA aid ex2.accounts = some acc →
      lookupA pid acc.positions = some pos →
      ∃ acc2,
        lookupA aid
            (ex2.applyStateEvent j (.PerpetualFundingEvent pid r pay)).1.accounts =
          some acc2 ∧
        lookupA pid acc2.positions = some (pos.applyFundingPayment j pay).1) := by
  refine ⟨⟨?_, rfl, rfl, rfl, ?_⟩, ?_, ?_, ?_⟩
  · simp [Exchange.applyRawEvent, hev, hperp]
  · simp [Exchange.applyRawEvent, hev, hperp]
  · intro p j
    refine ⟨?_, ?_, ?_⟩
    · cases hp : p.next_funding_payment <;> cases hb : p.next_funding_event_block <;>
        simp [Perpetual.updateStateInstant, hp, hb]
      split <;> rfl
    · constructor
      · intro hne
        cases hp : p.next_funding_payment with
        | none => simp [Perpetual.updateStateInstant, hp] at hne
        | some pay =>
          cases hb : p.next_funding_event_block with
          | none => simp [Perpetual.updateStateInstant, hp, hb] at hne
          | some fe =>
            by_cases hfe : fe = j.block_number
            · exact ⟨pay, fe, rfl, rfl, hfe⟩
            · simp [Perpetual.updateStateInstant, hp, hb, hfe] at hne
      · rintro ⟨pay, fe, hp, hb, hfe⟩
        simp [Perpetual.updateStateInstant, hp, hb, hfe]
    · intro pay fe hp hb hfe
      simp [Perpetual.updateStateInstant, hp, hb, hfe]
  · intro pos j pay
    refine ⟨?_, ?_, ?_⟩
    · intro hg
      simp [Position.applyFundingPayment, hg]
    · intro hg
      simp [Position.applyFundingPayment, hg]
    · by_cases hg : pos.funding_instant.geB j
      · simp [Position.applyFundingPayment, hg]
      · have hrefl : StateInstant.geB j j = true := by
          simp [StateInstant.geB, StateInstant.leB]
        simp [Position.applyFundingPayment, hg, hrefl]
  · intro ex2 j r pay aid acc pos hacc hpos
    refine ⟨fundAccount pid j pay acc, ?_, ?_⟩
    · simp only [Exchange.applyStateEvent]
      rw [applyFundingToAccounts_fst, lookupA_map_values, hacc]
      rfl
    · by_cases hap : (pos.applyFundingPayment j pay).2
      · simp only [fundAccount, hpos, if_pos hap]
        rw [lookupA_insertA_self]
      · have hskip : pos.applyFundingPayment j pay = (pos, false) := by
          by_cases hg : pos.funding_instant.geB j
          · simp [Position.applyFundingPayment, hg]
          · simp [Position.applyFundingPayment, hg] at hap
        simp [fundAccount, hpos, hap, hskip]

/-- Witness for the amended C3 at a concrete perpetual and funding event. -/
theorem funding_event_semantics_witness :
    (RawEvent.mk 0 0 0 (.FundingEventCompleted 1 1 5 9)).event =
      .FundingEventCompleted 1 1 5 9 ∧
    ((Exchange.mk ⟨4, 4⟩ false
        [(1, ⟨⟨4, 4⟩, ⟨4, 4⟩, 1, 0, none, 0, 0, none, none, none⟩)] []).applyRawEvent
        ⟨5, 5⟩ (RawEvent.mk 0 0 0 (.FundingEventCompleted 1 1 5 9)) none).1.accounts =
      [] :=
  ⟨rfl,
   ((funding_event_semantics
      (Exchange.mk ⟨4, 4⟩ false
        [(1, ⟨⟨4, 4⟩, ⟨4, 4⟩, 1, 0, none, 0, 0, none, none, none⟩)] [])
      ⟨5, 5⟩ (RawEvent.mk 0 0 0 (.FundingEventCompleted 1 1 5 9)) none 1 1 5 9
      ⟨⟨4, 4⟩, ⟨4, 4⟩, 1, 0, none, 0, 0, none, none, none⟩ rfl rfl).1.2.2.2.2)⟩

/-! ### Snapshot reconstruction lemmas -/

theorem snapInsertAll_err_none_iff :
    ∀ (os : List Order) (b : L2Book) (m : List (Nat × Nat)),
      (snapInsertAll b m os).2.2 = none ↔ ∀ o ∈ os, o.size ≠ 0 ∧ o.price ≠ 0 := by
  intro os
  induction os with
  | nil => intro b m; simp [snapInsertAll]
  | cons o rest ih =>
    intro b m
    by_cases hs : o.size = 0
    · simp [snapInsertAll, hs]
    · by_cases hp : o.price = 0
      · simp [snapInsertAll, hs, hp]
      · simp only [snapInsertAll, if_neg hs, if_neg hp]
        rw [ih]
        constructor
        · intro h o2 ho2
          rcases List.mem_cons.mp ho2 with rfl | ho2
          · exact ⟨hs, hp⟩
          · exact h o2 ho2
        · intro h o2 ho2
          exact h o2 (List.mem_cons.mpr (Or.inr ho2))

theorem snapInsertAll_valid_spec :
    ∀ (os : List Order) (b : L2Book) (m : List (Nat × Nat)),
      (∀ o ∈ os, o.size ≠ 0 ∧ o.price ≠ 0) →
      (os.map Order.order_id).Nodup →
      b.order_index = m →
      (∀ id s, lookupA id m = some s → s < b.next_slot) →
      (∀ s, b.next_slot ≤ s → lookupA s b.orders = none) →
      (∀ o ∈ os, lookupA o.order_id m = none) →
      (∀ id1 id2 s, lookupA id1 m = some s → lookupA id2 m = some s → id1 = id2) →
      ∃ b1 m1,
        snapInsertAll b m os = (b1, m1, none) ∧
        b1.order_index = m1 ∧
        b1.asks = b.asks ∧
        b1.bids = b.bids ∧
        (∀ id s, lookupA id m1 = some s → s < b1.next_slot) ∧
        (∀ s, b1.next_slot ≤ s → lookupA s b1.orders = none) ∧
        (∀ id1 id2 s, lookupA id1 m1 = some s → lookupA id2 m1 = some s → id1 = id2) ∧
        (∀ id s, lookupA id m1 = some s →
          lookupA id m = some s ∨ id ∈ os.map Order.order_id) ∧
        (∀ id s, lookupA id m = some s → lookupA id m1 = some s) ∧
        (∀ s l3, lookupA s b.orders = some l3 → lookupA s b1.orders = some l3) ∧
        (∀ o ∈ os, ∃ slot, lookupA o.order_id m1 = some slot ∧
          lookupA slot b1.orders = some (L3Order.new o)) := by
  intro os
  induction os with
  | nil =>
    intro b m _ _ hidx hbound hfresh _ hinj
    exact ⟨b, m, rfl, hidx, rfl, rfl, hbound, hfresh, hinj,
      fun id s h => Or.inl h, fun id s h => h, fun s l3 h => h, by simp⟩
  | cons o rest ih =>
    intro b m hval hnd hidx hbound hfresh hids hinj
    obtain ⟨hs, hp⟩ := hval o (List.mem_cons_self o rest)
    have hnd2 : (∀ x ∈ rest, ¬ x.order_id = o.order_id) ∧
        (rest.map Order.order_id).Nodup := by simpa using hnd
    obtain ⟨hhd, htl⟩ := hnd2
    set slot := b.next_slot with hslot
    set b' : L2Book :=
      { b with
        next_slot := b.next_slot + 1
        orders := insertA slot (L3Order.new o) b.orders
        order_index := insertA o.order_id slot b.order_index } with hb'
    set m' := insertA o.order_id slot m with hm'
    have hfresh_slot : lookupA slot b.orders = none := hfresh slot (le_refl _)
    have hidx' : b'.order_index = m' := by rw [hb', hm', hidx]
    have hbound' : ∀ id s, lookupA id m' = some s → s < b'.next_slot := by
      intro id s h
      by_cases hid : id = o.order_id
      · subst hid
        rw [hm', lookupA_insertA_self] at h
        injection h with h
        simp only [hb']
        omega
      · rw [hm', lookupA_insertA_ne _ _ hid] at h
        have := hbound id s h
        simp only [hb']
        omega
    have hfresh' : ∀ s, b'.next_slot ≤ s → lookupA s b'.orders = none := by
      intro s hle
      simp only [hb'] at hle ⊢
      have hne : s ≠ slot := by omega
      rw [lookupA_insertA_ne _ _ hne]
      exact hfresh s (by omega)
    have hids' : ∀ o2 ∈ rest, lookupA o2.order_id m' = none := by
      intro o2 ho2
      have hne : o2.order_id ≠ o.order_id := hhd o2 ho2
      rw [hm', lookupA_insertA_ne _ _ hne]
      exact hids o2 (List.mem_cons.mpr (Or.inr ho2))
    have hinj' : ∀ id1 id2 s, lookupA id1 m' = some s → lookupA id2 m' = some s →
        id1 = id2 := by
      intro id1 id2 s h1 h2
      by_cases e1 : id1 = o.order_id <;> by_cases e2 : id2 = o.order_id
      · rw [e1, e2]
      · subst e1
        rw [hm', lookupA_insertA_self] at h1
        rw [hm', lookupA_insertA_ne _ _ e2] at h2
        injection h1 with h1
        have := hbound id2 s h2
        omega
      · subst e2
        rw [hm', lookupA_insertA_self] at h2
        rw [hm', lookupA_insertA_ne _ _ e1] at h1
        injection h2 with h2
        have := hbound id1 s h1
        omega
      · rw [hm', lookupA_insertA_ne _ _ e1] at h1
        rw [hm', lookupA_insertA_ne _ _ e2] at h2
        exact hinj id1 id2 s h1 h2
    obtain ⟨b1, m1, heq, hidx1, hasks1, hbids1, hbound1, hfresh1, hinj1, hsub1,
      hpm1, hpo1, hmem1⟩ :=
      ih b' m' (fun o2 ho2 => hval o2 (List.mem_cons.mpr (Or.inr ho2))) htl
        hidx' hbound' hfresh' hids' hinj'
    refine ⟨b1, m1, ?_, hidx1, by rw [hasks1], by rw [hbids1], hbound1, hfresh1,
      hinj1, ?_, ?_, ?_, ?_⟩
    · simp only [snapInsertAll, if_neg hs, if_neg hp]
      exact heq
    · intro id s h
      rcases hsub1 id s h with h1 | h1
      · by_cases hid : id = o.order_id
        · right
          rw [hid]
          simp
        · left
          rw [hm', lookupA_insertA_ne _ _ hid] at h1
          exact h1
      · right
        simp only [List.map_cons, List.mem_cons]
        exact Or.inr h1
    · intro id s h
      have hid : id ≠ o.order_id := by
        intro hcontra
        rw [hcontra] at h
        rw [hids o (List.mem_cons_self o rest)] at h
        exact Option.noConfusion h
      refine hpm1 id s ?_
      rw [hm', lookupA_insertA_ne _ _ hid]
      exact h
    · intro s l3 h
      have hne : s ≠ slot := by
        intro hcontra
        rw [hcontra, hfresh_slot] at h
        exact Option.noConfusion h
      refine hpo1 s l3 ?_
      simp only [hb']
      rw [lookupA_insertA_ne _ _ hne]
      exact h
    · intro o2 ho2
      rcases List.mem_cons.mp ho2 with rfl | ho2
      · refine ⟨slot, ?_, ?_⟩
        · refine hpm1 o2.order_id slot ?_
          rw [hm']
          exact lookupA_insertA_self _ _ _
        · refine hpo1 slot (L3Order.new o2) ?_
          simp only [hb']
          exact lookupA_insertA_self _ _ _
      · exact hmem1 o2 ho2

theorem snapSetLinks_spec :
    ∀ (os : List Order) (b : L2Book) (m : List (Nat × Nat)),
      (os.map Order.order_id).Nodup →
      (∀ id1 id2 s, lookupA id1 m = some s → lookupA id2 m = some s → id1 = id2) →
      (∀ o ∈ os, ∃ slot, lookupA o.order_id m = some slot ∧
        lookupA slot b.orders = some (L3Order.new o)) →
      (snapSetLinks b m os).order_index = b.order_index ∧
      (snapSetLinks b m os).asks = b.asks ∧
      (snapSetLinks b m os).bids = b.bids ∧
      (∀ s, (∀ o ∈ os, lookupA o.order_id m ≠ some s) →
        lookupA s (snapSetLinks b m os).orders = lookupA s b.orders) ∧
      (∀ o ∈ os, ∃ slot, lookupA o.order_id m = some slot ∧
        lookupA slot (snapSetLinks b m os).orders = some
          ⟨o, o.prev_order_id.bind (fun j => lookupA j m),
              o.next_order_id.bind (fun j => lookupA j m)⟩) := by
  intro os
  induction os with
  | nil =>
    intro b m _ _ _
    exact ⟨rfl, rfl, rfl, fun s _ => rfl, by simp⟩
  | cons o rest ih =>
    intro b m hnd hinj hmem
    have hnd2 : (∀ x ∈ rest, ¬ x.order_id = o.order_id) ∧
        (rest.map Order.order_id).Nodup := by simpa using hnd
    obtain ⟨hhd, htl⟩ := hnd2
    obtain ⟨slot_o, hso, hlo⟩ := hmem o (List.mem_cons_self o rest)
    set b' : L2Book :=
      { b with
        orders := insertA slot_o
          ⟨o, o.prev_order_id.bind (fun j => lookupA j m),
              o.next_order_id.bind (fun j => lookupA j m)⟩ b.orders } with hb'
    have hstep : snapSetLinks b m (o :: rest) = snapSetLinks b' m rest := by
      simp only [snapSetLinks, hso, hlo]
      rfl
    have hmem' : ∀ o2 ∈ rest, ∃ slot, lookupA o2.order_id m = some slot ∧
        lookupA slot b'.orders = some (L3Order.new o2) := by
      intro o2 ho2
      obtain ⟨slot2, hs2, hl2⟩ := hmem o2 (List.mem_cons.mpr (Or.inr ho2))
      have hne : slot2 ≠ slot_o := by
        intro hcontra
        exact hhd o2 ho2 (hinj _ _ _ hs2 (hcontra ▸ hso))
      refine ⟨slot2, hs2, ?_⟩
      simp only [hb']
      rw [lookupA_insertA_ne _ _ hne]
      exact hl2
    obtain ⟨hidx1, hasks1, hbids1, hpres1, hmem1⟩ := ih b' m htl hinj hmem'
    rw [hstep]
    refine ⟨hidx1, hasks1, hbids1, ?_, ?_⟩
    · intro s hs
      have hso_ne : slot_o ≠ s := by
        intro hcontra
        exact hs o (List.mem_cons_self o rest) (hcontra ▸ hso)
      rw [hpres1 s (fun o2 ho2 => hs o2 (List.mem_cons.mpr (Or.inr ho2)))]
      simp only [hb']
      exact lookupA_insertA_ne _ _ (fun hc => hso_ne hc.symm)
    · intro o2 ho2
      rcases List.mem_cons.mp ho2 with rfl | ho2
      · refine ⟨slot_o, hso, ?_⟩
        have hpres : lookupA slot_o (snapSetLinks b' m rest).orders =
            lookupA slot_o b'.orders := by
          refine hpres1 slot_o ?_
          intro o3 ho3 hcontra
          exact hhd o3 ho3 (hinj _ _ _ hcontra hso)
        rw [hpres]
        simp only [hb']
        exact lookupA_insertA_self _ _ _
      · exact hmem1 o2 ho2

theorem snapBuildLevels_preserves :
    ∀ (keys : List (Rat × OrderSide)) (bk : L2Book)
      (step : L2Book → Rat × OrderSide → L2Book),
      (∀ b2 key, (step b2 key).orders = b2.orders ∧
        (step b2 key).order_index = b2.order_index ∧
        (step b2 key).next_slot = b2.next_slot) →
      (keys.foldl step bk).orders = bk.orders ∧
      (keys.foldl step bk).order_index = bk.order_index ∧
      (keys.foldl step bk).next_slot = bk.next_slot := by
  intro keys
  induction keys with
  | nil => intro bk step _; exact ⟨rfl, rfl, rfl⟩
  | cons k rest ih =>
    intro bk step hstep
    obtain ⟨h1, h2, h3⟩ := ih (step bk k) step hstep
    obtain ⟨g1, g2, g3⟩ := hstep bk k
    exact ⟨by rw [List.foldl_cons, h1, g1], by rw [List.foldl_cons, h2, g2],
      by rw [List.foldl_cons, h3, g3]⟩

theorem snapBuildLevels_orders (b : L2Book) (m : List (Nat × Nat)) (os : List Order) :
    (snapBuildLevels b m os).orders = b.orders ∧
    (snapBuildLevels b m os).order_index = b.order_index := by
  have h := snapBuildLevels_preserves (snapGroupKeys os) b
    (fun bk key =>
      let slots := snapGroupSlots m os key
      let agg := snapLevelAgg bk.orders slots
      let level : BookLevel :=
        { head := slots.find? (fun s => snapHeadOk bk.orders slots s)
          tail := slots.find? (fun s => snapTailOk bk.orders slots s)
          cached_size := agg.1
          cached_count := agg.2 }
      bk.setSide key.2 (insertA key.1 level (bk.sideMap key.2)))
    (by
      intro b2 key
      cases hside : key.2 <;> simp [L2Book.setSide, hside])
  exact ⟨h.1, h.2.1⟩

/-- Counterexample for claim C9: a snapshot order whose `prev_order_id`
references OrderId 99, which is not in the input batch, is NOT rejected:
`add_orders_from_snapshot` returns success and inserts the order with the
dangling reference resolved to `none`. -/
theorem snapshot_dangling_ref_not_rejected :
    (L2Book.empty.addOrdersFromSnapshot
        [⟨1, .OpenShort, 1, 100, 5, some 99, none⟩]).2 = none ∧
    lookupA 1 (L2Book.empty.addOrdersFromSnapshot
        [⟨1, .OpenShort, 1, 100, 5, some 99, none⟩]).1.order_index = some 0 ∧
    lookupA 0 (L2Book.empty.addOrdersFromSnapshot
        [⟨1, .OpenShort, 1, 100, 5, some 99, none⟩]).1.orders =
      some ⟨⟨1, .OpenShort, 1, 100, 5, some 99, none⟩, none, none⟩ := by
  refine ⟨rfl, rfl, rfl⟩

/-- Claim C9 (amended): `add_orders_from_snapshot` validates each order's
size and price, rejecting the batch with an error exactly when some order
has zero size or zero price; a `prev`/`next` link referencing an OrderId not
present in the input batch is resolved to `none` (treated as a head/tail
terminator) rather than rejected. -/
theorem snapshot_dangling_refs_terminators (os : List Order)
    (hnd : (os.map Order.order_id).Nodup) :
    ((L2Book.empty.addOrdersFromSnapshot os).2 = none ↔
      ∀ o ∈ os, o.size ≠ 0 ∧ o.price ≠ 0) ∧
    ((∀ o ∈ os, o.size ≠ 0 ∧ o.price ≠ 0) →
      ∀ o ∈ os, ∃ slot l3,
        lookupA o.order_id (L2Book.empty.addOrdersFromSnapshot os).1.order_index =
          some slot ∧
        lookupA slot (L2Book.empty.addOrdersFromSnapshot os).1.orders = some l3 ∧
        l3.order = o ∧
        (o.prev_order_id = none → l3.prev = none) ∧
        (o.next_order_id = none → l3.next = none) ∧
        (∀ j, o.prev_order_id = some j → (∀ o2 ∈ os, o2.order_id ≠ j) →
          l3.prev = none) ∧
        (∀ j, o.next_order_id = some j → (∀ o2 ∈ os, o2.order_id ≠ j) →
          l3.next = none)) := by
  constructor
  · have hiff := snapInsertAll_err_none_iff os L2Book.empty []
    rcases hsi : snapInsertAll L2Book.empty [] os with ⟨b1, m1, err⟩
    rw [hsi] at hiff
    simp only at hiff
    cases err with
    | none => simp only [L2Book.addOrdersFromSnapshot, hsi]; simpa using hiff
    | some e => simp only [L2Book.addOrdersFromSnapshot, hsi]; simpa using hiff
  · intro hval o ho
    obtain ⟨b1, m1, hsi, hidx1, -, -, -, -, hinj1, hsub1, -, -, hmem1⟩ :=
      snapInsertAll_valid_spec os L2Book.empty [] hval hnd rfl
        (by intro id s h; simp [lookupA] at h)
        (by intro s hle; rfl)
        (by intro o2 ho2; rfl)
        (by intro id1 id2 s h1 h2; simp [lookupA] at h1)
    obtain ⟨hidx2, -, -, -, hmem2⟩ := snapSetLinks_spec os b1 m1 hnd hinj1 hmem1
    obtain ⟨hord3, hidx3⟩ := snapBuildLevels_orders (snapSetLinks b1 m1 os) m1 os
    obtain ⟨slot, hslot, hl3⟩ := hmem2 o ho
    have hdangling : ∀ j, (∀ o2 ∈ os, o2.order_id ≠ j) → lookupA j m1 = none := by
      intro j hj
      cases hlook : lookupA j m1 with
      | none => rfl
      | some s =>
        rcases hsub1 j s hlook with h | h
        · simp [lookupA] at h
        · obtain ⟨o2, ho2, ho2id⟩ := List.mem_map.mp h
          exact absurd ho2id (hj o2 ho2)
    refine ⟨slot,
      ⟨o, o.prev_order_id.bind (fun j => lookupA j m1),
          o.next_order_id.bind (fun j => lookupA j m1)⟩, ?_, ?_, rfl, ?_, ?_, ?_, ?_⟩
    · simp only [L2Book.addOrdersFromSnapshot, hsi, hidx3, hidx2, hidx1]
      exact hslot
    · simp only [L2Book.addOrdersFromSnapshot, hsi, hord3]
      exact hl3
    · intro hp; rw [hp]; rfl
    · intro hn; rw [hn]; rfl
    · intro j hp hj
      rw [hp]
      simp only [Option.bind_some]
      exact hdangling j hj
    · intro j hn hj
      rw [hn]
      simp only [Option.bind_some]
      exact hdangling j hj

/-- Witness for the amended C9 on a concrete one-order batch. -/
theorem snapshot_dangling_refs_terminators_witness :
    ((⟨1, .OpenShort, 1, 100, 5, none, none⟩ : Order) ::
        []).map Order.order_id = [1] ∧
    (L2Book.empty.addOrdersFromSnapshot
        [⟨1, .OpenShort, 1, 100, 5, none, none⟩]).2 = none :=
  ⟨rfl,
   (snapshot_dangling_refs_terminators
      [⟨1, .OpenShort, 1, 100, 5, none, none⟩] (by simp)).1.mpr
     (by
       intro o2 ho2
       simp only [List.mem_singleton] at ho2
       subst ho2
       exact ⟨by norm_num, by norm_num⟩)⟩

/-- Counterexample for claim C7: the in-place update accepts a new size that
is strictly LARGER than the stored one.  Starting from the (reachable) book
holding order 1 with size 5, `update_order` with size 7 returns `Ok` and
adjusts the cached level size to `5 - 5 + 7` — the strictly-smaller
requirement is not enforced. -/
theorem update_order_allows_size_increase :
    L2Book.empty.addOrder ⟨1, .OpenShort, 1, 100, 5, none, none⟩ =
      .ok (⟨1, [(0, ⟨⟨1, .OpenShort, 1, 100, 5, none, none⟩, none, none⟩)],
        [(1, 0)], [(100, ⟨some 0, some 0, 0 + 5, 0 + 1⟩)], []⟩, 0) ∧
    (5 : Rat) < 7 ∧
    (L2Book.updateOrder
        ⟨1, [(0, ⟨⟨1, .OpenShort, 1, 100, 5, none, none⟩, none, none⟩)],
          [(1, 0)], [(100, ⟨some 0, some 0, 5, 1⟩)], []⟩
        ⟨1, .OpenShort, 1, 100, 7, none, none⟩) =
      .ok ⟨1, [(0, ⟨⟨1, .OpenShort, 1, 100, 7, none, none⟩, none, none⟩)],
        [(1, 0)], [(100, ⟨some 0, some 0, 5 - 5 + 7, 1⟩)], []⟩ := by
  refine ⟨rfl, by norm_num, rfl⟩

/-- Claim C7 (amended): `update_order` returns `Ok` exactly when the order
exists in the book and the new size is non-zero (not: strictly smaller than
before); it returns `InvalidSize` on a zero new size and `NotFound` when the
order is absent, in both cases before any mutation; on success the order's
queue position is preserved (its `prev`/`next` pointers, all other orders,
and the level's head/tail are unchanged) and the level's cached size is
adjusted by `(new - old)`. -/
theorem update_order_semantics (b : L2Book) (o : Order) :
    (o.size = 0 → b.updateOrder o = .error (.InvalidOrderSize o.order_id o.size)) ∧
    (o.size ≠ 0 → lookupA o.order_id b.order_index = none →
      b.updateOrder o = .error (.OrderNotFound o.order_id)) ∧
    (∀ slot, o.size ≠ 0 → lookupA o.order_id b.order_index = some slot →
      lookupA slot b.orders = none →
      b.updateOrder o = .error (.OrderNotFound o.order_id)) ∧
    (∀ slot l3, o.size ≠ 0 → lookupA o.order_id b.order_index = some slot →
      lookupA slot b.orders = some l3 →
      ∃ b2, b.updateOrder o = .ok b2 ∧
        lookupA slot b2.orders = some { l3 with order := o } ∧
        (∀ s, s ≠ slot → lookupA s b2.orders = lookupA s b.orders) ∧
        b2.order_index = b.order_index ∧
        b2.next_slot = b.next_slot ∧
        (∀ level,
          lookupA l3.order.price (b.sideMap l3.order.otype.side) = some level →
          ∃ level2,
            lookupA l3.order.price (b2.sideMap l3.order.otype.side) = some level2 ∧
            level2.head = level.head ∧ level2.tail = level.tail ∧
            level2.cached_count = level.cached_count ∧
            level2.cached_size = level.cached_size - l3.order.size + o.size) ∧
        (l3.order.otype.side = .Ask → b2.bids = b.bids) ∧
        (l3.order.otype.side = .Bid → b2.asks = b.asks)) := by
  refine ⟨?_, ?_, ?_, ?_⟩
  · intro h
    simp [L2Book.updateOrder, h]
  · intro h hidx
    simp [L2Book.updateOrder, if_neg h, hidx]
  · intro slot h hidx hord
    simp [L2Book.updateOrder, if_neg h, hidx, hord]
  · intro slot l3 h hidx hord
    set b1 : L2Book := { b with orders := insertA slot { l3 with order := o } b.orders }
      with hb1
    have hside1 : ∀ sd, b1.sideMap sd = b.sideMap sd := by
      intro sd
      cases sd <;> rfl
    cases hlev : lookupA l3.order.price (b.sideMap l3.order.otype.side) with
    | none =>
      refine ⟨b1, ?_, ?_, ?_, rfl, rfl, ?_, ?_, ?_⟩
      · simp only [L2Book.updateOrder, if_neg h, hidx, hord]
        rw [hside1, hlev]
      · simp only [hb1]
        exact lookupA_insertA_self _ _ _
      · intro s hs
        simp only [hb1]
        exact lookupA_insertA_ne _ _ hs
      · intro level hcontra
        exact Option.noConfusion hcontra
      · intro _; rfl
      · intro _; rfl
    | some level =>
      set level2 : BookLevel :=
        { level with cached_size := level.cached_size - l3.order.size + o.size }
        with hlevel2
      refine ⟨b1.setSide l3.order.otype.side
          (insertA l3.order.price level2 (b1.sideMap l3.order.otype.side)),
        ?_, ?_, ?_, ?_, ?_, ?_, ?_, ?_⟩
      · simp only [L2Book.updateOrder, if_neg h, hidx, hord]
        rw [hside1, hlev]
      · cases hsd : l3.order.otype.side <;>
          simp only [L2Book.setSide, hb1] <;>
          exact lookupA_insertA_self _ _ _
      · intro s hs
        cases hsd : l3.order.otype.side <;>
          simp only [L2Book.setSide, hb1] <;>
          exact lookupA_insertA_ne _ _ hs
      · cases hsd : l3.order.otype.side <;> rfl
      · cases hsd : l3.order.otype.side <;> rfl
      · intro level' hlev'
        have hle : level = level' := Option.some.inj hlev'
        subst hle
        refine ⟨level2, ?_, rfl, rfl, rfl, rfl⟩
        cases hsd : l3.order.otype.side
        · simp only [hsd, L2Book.setSide, L2Book.sideMap, hb1]
          exact lookupA_insertA_self _ _ _
        · simp only [hsd, L2Book.setSide, L2Book.sideMap, hb1]
          exact lookupA_insertA_self _ _ _
      · intro hsd
        rw [hsd]
        simp only [L2Book.setSide]
      · intro hsd
        rw [hsd]
        simp only [L2Book.setSide]

/-- Witness for the amended C7: a size-down update on a concrete book. -/
theorem update_order_semantics_witness :
    (3 : Rat) ≠ 0 ∧
    lookupA 1 (L2Book.mk 1
        [(0, ⟨⟨1, .OpenShort, 1, 100, 5, none, none⟩, none, none⟩)]
        [(1, 0)] [(100, ⟨some 0, some 0, 5, 1⟩)] []).order_index = some 0 ∧
    ∃ b2, (L2Book.mk 1
        [(0, ⟨⟨1, .OpenShort, 1, 100, 5, none, none⟩, none, none⟩)]
        [(1, 0)] [(100, ⟨some 0, some 0, 5, 1⟩)] []).updateOrder
        ⟨1, .OpenShort, 1, 100, 3, none, none⟩ = .ok b2 ∧
      lookupA 0 b2.orders =
        some ⟨⟨1, .OpenShort, 1, 100, 3, none, none⟩, none, none⟩ :=
  ⟨by norm_num, rfl, by
    obtain ⟨b2, hok, hlook, -⟩ :=
      (update_order_semantics
        (L2Book.mk 1 [(0, ⟨⟨1, .OpenShort, 1, 100, 5, none, none⟩, none, none⟩)]
          [(1, 0)] [(100, ⟨some 0, some 0, 5, 1⟩)] [])
        ⟨1, .OpenShort, 1, 100, 3, none, none⟩).2.2.2 0
        ⟨⟨1, .OpenShort, 1, 100, 5, none, none⟩, none, none⟩
        (by norm_num) rfl rfl
    exact ⟨b2, hok, hlook⟩⟩

/-! ### Book well-formedness: intrusive linked-list chains

A price level's orders form a doubly-linked chain through the arena.
`chainOk orders price side prev l` states that the slot list `l` is a valid
chain segment: each slot resolves in the arena to an entry whose order carries
the level's price and side, whose `prev` pointer names the preceding slot
(`prev` for the first element) and whose `next` pointer names the following
slot (`none` for the last). -/

def chainOk (orders : List (Nat × L3Order)) (price : Rat) (side : OrderSide) :
    Option Nat → List Nat → Prop
  | _, [] => True
  | prev, s :: rest =>
    ∃ o, lookupA s orders = some o ∧ o.order.price = price ∧
      o.order.otype.side = side ∧ o.prev = prev ∧ o.next = rest.head? ∧
      chainOk orders price side (some s) rest

/-- Total size of the orders named by a slot list (absent slots count 0). -/
def chainSizes (orders : List (Nat × L3Order)) (l : List Nat) : Rat :=
  (l.map (fun s => ((lookupA s orders).map (fun o => o.order.size)).getD 0)).sum

/-- The chain reachable from a head pointer by following `next` pointers,
with explicit fuel (the book arena is finite). -/
def chainFrom (orders : List (Nat × L3Order)) : Nat → Option Nat → List Nat
  | 0, _ => []
  | _ + 1, none => []
  | fuel + 1, some s =>
    match lookupA s orders with
    | none => []
    | some o => s :: chainFrom orders fuel o.next

theorem chainOk_congr {orders orders2 : List (Nat × L3Order)} {price : Rat}
    {side : OrderSide} :
    ∀ {l : List Nat} {prev : Option Nat},
      (∀ u ∈ l, lookupA u orders2 = lookupA u orders) →
      chainOk orders price side prev l → chainOk orders2 price side prev l
  | [], _, _, h => h
  | s :: rest, _, hsame, ⟨o, ho, hp, hsd, hpr, hnx, hrec⟩ =>
    ⟨o, (hsame s (by simp)).trans ho, hp, hsd, hpr, hnx,
      chainOk_congr (fun u hu => hsame u (by simp [hu])) hrec⟩

theorem chainSizes_congr {orders orders2 : List (Nat × L3Order)} :
    ∀ {l : List Nat},
      (∀ u ∈ l, lookupA u orders2 = lookupA u orders) →
      chainSizes orders2 l = chainSizes orders l
  | [], _ => rfl
  | s :: rest, hsame => by
    simp only [chainSizes, List.map_cons, List.sum_cons, hsame s (by simp)]
    have := @chainSizes_congr _ _ rest (fun u hu => hsame u (by simp [hu]))
    simp only [chainSizes] at this
    rw [this]

theorem chainOk_mem {orders : List (Nat × L3Order)} {price : Rat}
    {side : OrderSide} :
    ∀ {l : List Nat} {prev : Option Nat} {s : Nat},
      chainOk orders price side prev l → s ∈ l →
      ∃ o, lookupA s orders = some o ∧ o.order.price = price ∧
        o.order.otype.side = side
  | a :: rest, _, s, ⟨o, ho, hp, hsd, _, _, hrec⟩, hmem => by
    rcases List.mem_cons.mp hmem with h | h
    · exact ⟨o, by rw [h]; exact ho, hp, hsd⟩
    · exact chainOk_mem hrec h

theorem chainOk_prev_shape {orders : List (Nat × L3Order)} {price : Rat}
    {side : OrderSide} :
    ∀ {l : List Nat} {prev : Option Nat} {t : Nat},
      chainOk orders price side prev l → t ∈ l →
      ∃ o, lookupA t orders = some o ∧
        (o.prev = prev ∨ ∃ u ∈ l, o.prev = some u)
  | a :: rest, _, t, ⟨o, ho, _, _, hpr, _, hrec⟩, hmem => by
    rcases List.mem_cons.mp hmem with h | h
    · exact ⟨o, by rw [h]; exact ho, Or.inl hpr⟩
    · rcases chainOk_prev_shape hrec h with ⟨o2, ho2, hsh⟩
      refine ⟨o2, ho2, ?_⟩
      rcases hsh with h2 | ⟨u, hu, h2⟩
      · exact Or.inr ⟨a, by simp, h2⟩
      · exact Or.inr ⟨u, by simp [hu], h2⟩

theorem chainOk_nodup {orders : List (Nat × L3Order)} {price : Rat}
    {side : OrderSide} :
    ∀ {l : List Nat} {prev : Option Nat},
      chainOk orders price side prev l →
      (∀ u ∈ l, prev ≠ some u) → l.Nodup
  | [], _, _, _ => List.nodup_nil
  | s :: rest, prev, ⟨o, ho, _, _, hpr, _, hrec⟩, hout => by
    have hs_notin : s ∉ rest := by
      intro hmem
      rcases chainOk_prev_shape hrec hmem with ⟨o2, ho2, hsh⟩
      have : o2 = o := Option.some.inj (ho2.symm.trans ho)
      subst this
      rcases hsh with h2 | ⟨u, hu, h2⟩
      · exact hout s (by simp) (hpr.symm.trans h2)
      · exact hout u (by simp [hu]) (hpr.symm.trans h2)
    exact List.nodup_cons.mpr
      ⟨hs_notin, chainOk_nodup hrec (fun u hu h => hs_notin (by rw [Option.some.inj h]; exact hu))⟩

theorem chainOk_unique {orders : List (Nat × L3Order)} {price : Rat}
    {side : OrderSide} :
    ∀ {l l2 : List Nat} {prev : Option Nat},
      chainOk orders price side prev l → chainOk orders price side prev l2 →
      l.head? = l2.head? → l = l2
  | [], [], _, _, _, _ => rfl
  | [], _ :: _, _, _, _, hh => by simp at hh
  | _ :: _, [], _, _, _, hh => by simp at hh
  | s :: rest, s2 :: rest2, _, ⟨o, ho, _, _, _, hnx, hrec⟩,
      ⟨o2, ho2, _, _, _, hnx2, hrec2⟩, hh => by
    have hs : s = s2 := by simpa using hh
    subst hs
    have ho22 : o2 = o := Option.some.inj (ho2.symm.trans ho)
    subst ho22
    have : rest = rest2 := chainOk_unique hrec hrec2 (hnx.symm.trans hnx2)
    rw [this]

/-- `(a :: l).getLast?` via the tail's `getLast?`. -/
theorem getLastQ_cons (a : Nat) (l : List Nat) :
    (a :: l).getLast? =
      (match l.getLast? with | some v => some v | none => some a) := by
  cases l with
  | nil => rfl
  | cons b t =>
    rw [List.getLast?_cons_cons]
    cases hbt : (b :: t).getLast? with
    | none => simp at hbt
    | some v => rfl

/-- Chains of two distinct `(price, side)` keys are disjoint. -/
theorem chainOk_disjoint {orders : List (Nat × L3Order)} {p1 p2 : Rat}
    {sd1 sd2 : OrderSide} {prev1 prev2 : Option Nat} {l1 l2 : List Nat}
    (h1 : chainOk orders p1 sd1 prev1 l1) (h2 : chainOk orders p2 sd2 prev2 l2)
    (hne : ¬ (p1 = p2 ∧ sd1 = sd2)) : ∀ s ∈ l1, s ∉ l2 := by
  intro s hs hs2
  rcases chainOk_mem h1 hs with ⟨o, ho, hp, hsd⟩
  rcases chainOk_mem h2 hs2 with ⟨o2, ho2, hp2, hsd2⟩
  have : o2 = o := Option.some.inj (ho2.symm.trans ho)
  subst this
  exact hne ⟨hp.symm.trans hp2, hsd.symm.trans hsd2⟩

/-- The stored pointers of a chain's element, given its position. -/
theorem chainOk_decomp {orders : List (Nat × L3Order)} {price : Rat}
    {side : OrderSide} :
    ∀ (l1 : List Nat) {x : Nat} {l2 : List Nat} {prev : Option Nat},
      chainOk orders price side prev (l1 ++ x :: l2) →
      ∃ ox, lookupA x orders = some ox ∧
        ox.prev = (match l1.getLast? with | some v => some v | none => prev) ∧
        ox.next = l2.head? ∧ ox.order.price = price ∧ ox.order.otype.side = side
  | [], x, l2, prev, ⟨o, ho, hp, hsd, hpr, hnx, _⟩ => ⟨o, ho, hpr, hnx, hp, hsd⟩
  | a :: l1, x, l2, prev, ⟨_, _, _, _, _, _, hrec⟩ => by
    rcases chainOk_decomp l1 hrec with ⟨ox, ho, hpr, hnx, hp, hsd⟩
    refine ⟨ox, ho, ?_, hnx, hp, hsd⟩
    rw [hpr, getLastQ_cons]
    cases l1.getLast? <;> rfl

/-- The last element of a nonempty chain has `next = none`. -/
theorem chainOk_getLast_next {orders : List (Nat × L3Order)} {price : Rat}
    {side : OrderSide} {l : List Nat} {prev : Option Nat} {t : Nat}
    (h : chainOk orders price side prev l) (ht : l.getLast? = some t) :
    ∃ ot, lookupA t orders = some ot ∧ ot.next = none := by
  rcases List.eq_nil_or_concat l with rfl | ⟨l1, x, rfl⟩
  · simp at ht
  · rw [List.concat_eq_append] at h ht
    have hx : x = t := by
      have h2 : (l1 ++ [x]).getLast? = some x := List.getLast?_concat l1
      exact Option.some.inj (h2.symm.trans ht)
    subst hx
    rcases chainOk_decomp l1 h with ⟨ox, ho, _, hnx, _, _⟩
    exact ⟨ox, ho, by simpa using hnx⟩

/-- `chainFrom` recomputes a valid chain from its head pointer, given enough
fuel. -/
theorem chainFrom_eq {orders : List (Nat × L3Order)} {price : Rat}
    {side : OrderSide} :
    ∀ {l : List Nat} {prev : Option Nat} {fuel : Nat},
      chainOk orders price side prev l → l.length ≤ fuel →
      chainFrom orders fuel l.head? = l
  | [], _, fuel, _, _ => by cases fuel <;> rfl
  | s :: rest, _, fuel + 1, ⟨o, ho, _, _, _, hnx, hrec⟩, hfl => by
    simp only [List.head?_cons, chainFrom, ho, hnx]
    rw [chainFrom_eq hrec (by simpa using Nat.lt_succ_iff.mp (Nat.lt_of_lt_of_le (Nat.lt_succ_of_le (Nat.le_refl _)) hfl))]

/-- Chain members are arena keys, so a (nodup) chain is no longer than the
arena. -/
theorem chainOk_length_le {orders : List (Nat × L3Order)} {price : Rat}
    {side : OrderSide} {l : List Nat} {prev : Option Nat}
    (h : chainOk orders price side prev l) (hnd : l.Nodup) :
    l.length ≤ orders.length := by
  have hsub : l ⊆ orders.map Prod.fst := by
    intro s hs
    rcases chainOk_mem h hs with ⟨o, ho, _, _⟩
    exact mem_keys_of_lookupA ho
  have := List.Subperm.length_le (List.Nodup.subperm hnd hsub)
  simpa using this

theorem mem_of_getLastQ {l : List Nat} {a : Nat} (h : l.getLast? = some a) :
    a ∈ l := by
  rcases List.eq_nil_or_concat l with rfl | ⟨l1, x, rfl⟩
  · simp at h
  · rw [List.concat_eq_append] at h ⊢
    have h2 : (l1 ++ [x]).getLast? = some x := List.getLast?_concat l1
    have : x = a := Option.some.inj (h2.symm.trans h)
    simp [this]

theorem chainSizes_nil (orders : List (Nat × L3Order)) :
    chainSizes orders [] = 0 := rfl

theorem chainSizes_cons (orders : List (Nat × L3Order)) (s : Nat) (l : List Nat) :
    chainSizes orders (s :: l) =
      ((lookupA s orders).map (fun o => o.order.size)).getD 0 + chainSizes orders l := by
  simp [chainSizes]

theorem chainSizes_append (orders : List (Nat × L3Order)) (l1 l2 : List Nat) :
    chainSizes orders (l1 ++ l2) = chainSizes orders l1 + chainSizes orders l2 := by
  simp [chainSizes]

/-- Replacing a slot's order payload (same price/side, pointers untouched)
preserves chain validity. -/
theorem chainOk_insert_same_links {orders : List (Nat × L3Order)} {p : Rat}
    {sd : OrderSide} {slot : Nat} {l3 : L3Order} {o : Order}
    (hl3 : lookupA slot orders = some l3)
    (hp : o.price = l3.order.price) (hsd : o.otype.side = l3.order.otype.side) :
    ∀ {l : List Nat} {prev : Option Nat},
      chainOk orders p sd prev l →
      chainOk (insertA slot { l3 with order := o } orders) p sd prev l
  | [], _, h => h
  | s :: rest, _, ⟨os, hos, hps, hss, hprs, hnxs, hrec⟩ => by
    have hrec2 := chainOk_insert_same_links hl3 hp hsd hrec
    by_cases heq : s = slot
    · subst heq
      have hosl3 : os = l3 := Option.some.inj (hos.symm.trans hl3)
      subst hosl3
      exact ⟨{ os with order := o }, lookupA_insertA_self _ _ _, hp.trans hps,
        hsd.trans hss, hprs, hnxs, hrec2⟩
    · exact ⟨os, (lookupA_insertA_ne _ _ heq).trans hos, hps, hss, hprs, hnxs,
        hrec2⟩

theorem chainSizes_not_mem {orders : List (Nat × L3Order)} {slot : Nat}
    (v : L3Order) {l : List Nat} (hnm : slot ∉ l) :
    chainSizes (insertA slot v orders) l = chainSizes orders l :=
  chainSizes_congr (fun u hu =>
    lookupA_insertA_ne _ _ (fun h => hnm (h ▸ hu)))

/-- Replacing one chain member's order payload shifts the chain's total size
by the size difference. -/
theorem chainSizes_insert_same {orders : List (Nat × L3Order)} {slot : Nat}
    {l3 : L3Order} {o : Order} (hl3 : lookupA slot orders = some l3) :
    ∀ {l : List Nat}, slot ∈ l → l.Nodup →
      chainSizes (insertA slot { l3 with order := o } orders) l =
        chainSizes orders l - l3.order.size + o.size
  | s :: rest, hmem, hnd => by
    have hnd2 := List.nodup_cons.mp hnd
    by_cases heq : s = slot
    · subst heq
      rw [chainSizes_cons, chainSizes_cons, lookupA_insertA_self, hl3,
        chainSizes_not_mem _ hnd2.1]
      simp only [Option.map_some', Option.getD_some]
      ring
    · have hmem2 : slot ∈ rest := by
        rcases List.mem_cons.mp hmem with h | h
        · exact absurd h.symm heq
        · exact h
      rw [chainSizes_cons, chainSizes_cons, lookupA_insertA_ne _ _ heq,
        chainSizes_insert_same hl3 hmem2 hnd2.2]
      ring

/-- Appending a fresh slot at the back of a chain: the old tail's `next` is
patched to the new slot, everything else keeps its arena entry, and the new
slot points back at the old tail. -/
theorem chainOk_snoc {orders orders2 : List (Nat × L3Order)} {p : Rat}
    {sd : OrderSide} {t snew : Nat} {onew : L3Order}
    (honew : lookupA snew orders2 = some onew)
    (hprev : onew.prev = some t) (hnext : onew.next = none)
    (hpo : onew.order.price = p) (hso : onew.order.otype.side = sd)
    (hpatch : ∀ ot, lookupA t orders = some ot →
      lookupA t orders2 = some { ot with next := some snew }) :
    ∀ {l : List Nat} {prev : Option Nat},
      chainOk orders p sd prev l →
      l.getLast? = some t → l.Nodup → snew ∉ l →
      (∀ u ∈ l, u ≠ t → lookupA u orders2 = lookupA u orders) →
      chainOk orders2 p sd prev (l ++ [snew])
  | [], _, _, hlast, _, _, _ => by simp at hlast
  | [s], _, ⟨os, hos, hps, hss, hprs, hnxs, _⟩, hlast, _, hnm, _ => by
    have hst : s = t := by simpa using hlast
    subst hst
    refine ⟨{ os with next := some snew }, hpatch os hos, hps, hss, hprs,
      by simp, ?_⟩
    exact ⟨onew, honew, hpo, hso, by rw [hprev], by simp [hnext], trivial⟩
  | s :: r :: rest, _, ⟨os, hos, hps, hss, hprs, hnxs, hrec⟩, hlast, hnd,
      hnm, hsame => by
    have hlast2 : (r :: rest).getLast? = some t := by
      rw [← List.getLast?_cons_cons]; exact hlast
    have hnd2 := List.nodup_cons.mp hnd
    have hst : s ≠ t := fun h => hnd2.1 (h ▸ mem_of_getLastQ hlast2)
    refine ⟨os, (hsame s (by simp) hst).trans hos, hps, hss, hprs,
      by simpa using hnxs, ?_⟩
    exact chainOk_snoc honew hprev hnext hpo hso hpatch hrec hlast2 hnd2.2
      (fun h => hnm (by simp [h]))
      (fun u hu hut => hsame u (by simp [hu]) hut)

theorem getLastQ_cons_some (a : Nat) (l : List Nat) :
    ∃ w, (a :: l).getLast? = some w := by
  rw [getLastQ_cons]
  cases l.getLast? <;> exact ⟨_, rfl⟩

/-- Excising one slot from the middle of a chain: its predecessor's `next`
is patched forward, its successor's `prev` is patched backward, everything
else keeps its arena entry. -/
theorem chainOk_excise {orders orders2 : List (Nat × L3Order)} {p : Rat}
    {sd : OrderSide} {x : Nat} :
    ∀ (l1 : List Nat) {l2 : List Nat} {prev : Option Nat},
      chainOk orders p sd prev (l1 ++ x :: l2) →
      (l1 ++ x :: l2).Nodup →
      (∀ u ∈ l1 ++ l2, l1.getLast? ≠ some u → l2.head? ≠ some u →
        lookupA u orders2 = lookupA u orders) →
      (∀ v, l1.getLast? = some v → ∀ ov, lookupA v orders = some ov →
        lookupA v orders2 = some { ov with next := l2.head? }) →
      (∀ y, l2.head? = some y → ∀ oy, lookupA y orders = some oy →
        lookupA y orders2 = some { oy with
          prev := (match l1.getLast? with | some v => some v | none => prev) }) →
      chainOk orders2 p sd prev (l1 ++ l2)
  | [], l2, prev, ⟨ox, hox, hpx, hsx, hprx, hnxx, hrec⟩, hnd, hsame, _,
      hpatchHead => by
    cases l2 with
    | nil => trivial
    | cons y l2' =>
      obtain ⟨oy, hoy, hpy, hsy, hpry, hnxy, hrec2⟩ := hrec
      have hynm : y ∉ l2' := (List.nodup_cons.mp (List.nodup_cons.mp hnd).2).1
      refine ⟨{ oy with prev := prev }, hpatchHead y rfl oy hoy, hpy, hsy, rfl,
        hnxy, ?_⟩
      refine chainOk_congr (fun u hu => ?_) hrec2
      refine hsame u (by simp [hu]) (by simp) ?_
      intro hcontra
      exact hynm (by rw [Option.some.inj hcontra]; exact hu)
  | a :: l1', l2, prev, ⟨oa, hoa, hpa, hsa, hpra, hnxa, hrec⟩, hnd, hsame,
      hpatchLast, hpatchHead => by
    have hnd2 := List.nodup_cons.mp hnd
    have hanm : a ∉ l1' ++ x :: l2 := hnd2.1
    have hanm1 : a ∉ l1' := fun h => hanm (by simp [h])
    have hanm2 : a ∉ l2 := fun h => hanm (by simp [h])
    have hrec2 : chainOk orders2 p sd (some a) (l1' ++ l2) := by
      refine chainOk_excise l1' hrec hnd2.2 ?_ ?_ ?_
      · intro u hu hne1 hne2
        refine hsame u (by simp at hu ⊢; tauto) ?_ hne2
        rw [getLastQ_cons]
        cases hgl : l1'.getLast? with
        | some v => exact fun h => hne1 (hgl.trans h)
        | none =>
          intro h
          have : a = u := Option.some.inj h
          subst this
          rcases List.mem_append.mp hu with h2 | h2
          · exact hanm1 h2
          · exact hanm2 h2
      · intro v hv ov hov
        have hv2 : (a :: l1').getLast? = some v := by
          rw [getLastQ_cons, hv]
        exact hpatchLast v hv2 ov hov
      · intro y hy oy hoy
        have h2 := hpatchHead y hy oy hoy
        rw [getLastQ_cons] at h2
        cases hgl : l1'.getLast? with
        | some v => rw [hgl] at h2; exact h2
        | none => rw [hgl] at h2; exact h2
    cases hl1 : l1' with
    | nil =>
      subst hl1
      have hlast : ([] : List Nat) ++ x :: l2 = x :: l2 := rfl
      have ha2 := hpatchLast a (by simp) oa hoa
      exact ⟨{ oa with next := l2.head? }, ha2, hpa, hsa, hpra, rfl, hrec2⟩
    | cons c l1'' =>
      subst hl1
      obtain ⟨w, hw⟩ := getLastQ_cons_some c l1''
      have hwmem : w ∈ c :: l1'' := mem_of_getLastQ hw
      have ha2 : lookupA a orders2 = lookupA a orders := by
        refine hsame a (by simp) ?_ ?_
        · rw [List.getLast?_cons_cons, hw]
          intro h
          exact hanm1 ((Option.some.inj h) ▸ hwmem)
        · intro h
          rcases hy : l2.head? with _ | y
          · rw [hy] at h; exact Option.noConfusion h
          · rw [hy] at h
            have : y = a := Option.some.inj h
            subst this
            exact hanm2 (by
              cases l2 with
              | nil => simp at hy
              | cons z zs => simp at hy; simp [hy])
      refine ⟨oa, ha2.trans hoa, hpa, hsa, hpra, ?_, hrec2⟩
      simpa using hnxa

/-- `l` is the chain of the level: nonempty, a valid chain starting at no
predecessor, delimited by the level's `head`/`tail`, with the cached
aggregates equal to the chain's total size and length. -/
def levelChain (orders : List (Nat × L3Order)) (price : Rat) (side : OrderSide)
    (level : BookLevel) (l : List Nat) : Prop :=
  l ≠ [] ∧ chainOk orders price side none l ∧ level.head = l.head? ∧
    level.tail = l.getLast? ∧ level.cached_size = chainSizes orders l ∧
    level.cached_count = l.length

/-- Well-formedness of an `L2Book`: distinct keys everywhere, slots below the
arena counter, the order index and the arena mutually consistent, every level
of either side map delimiting a valid chain, and every arena order belonging
to the chain of its price level. -/
structure BookWf (b : L2Book) : Prop where
  ordersND : keysND b.orders
  indexND : keysND b.order_index
  asksND : keysND b.asks
  bidsND : keysND b.bids
  slots_lt : ∀ s o, lookupA s b.orders = some o → s < b.next_slot
  index_to_orders : ∀ id s, lookupA id b.order_index = some s →
    ∃ l3, lookupA s b.orders = some l3 ∧ l3.order.order_id = id
  orders_to_index : ∀ s l3, lookupA s b.orders = some l3 →
    lookupA l3.order.order_id b.order_index = some s
  levels : ∀ sd price level, lookupA price (b.sideMap sd) = some level →
    ∃ l, levelChain b.orders price sd level l
  covers : ∀ s l3, lookupA s b.orders = some l3 →
    ∃ level l, lookupA l3.order.price (b.sideMap l3.order.otype.side) = some level ∧
      levelChain b.orders l3.order.price l3.order.otype.side level l ∧ s ∈ l

theorem bookWf_empty : BookWf L2Book.empty := by
  refine ⟨List.nodup_nil, List.nodup_nil, List.nodup_nil, List.nodup_nil,
    ?_, ?_, ?_, ?_, ?_⟩
  · intro s o h; exact Option.noConfusion h
  · intro id s h; exact Option.noConfusion h
  · intro s l3 h; exact Option.noConfusion h
  · intro sd price level h; cases sd <;> exact Option.noConfusion h
  · intro s l3 h; exact Option.noConfusion h

/-- A chain of a present level is nodup: its first element has `prev = none`,
so no member's stored `prev` can name it from outside. -/
theorem levelChain_nodup {orders : List (Nat × L3Order)} {price : Rat}
    {side : OrderSide} {level : BookLevel} {l : List Nat}
    (h : levelChain orders price side level l) : l.Nodup :=
  chainOk_nodup h.2.1 (fun _ _ h2 => Option.noConfusion h2)

/-- Two chains for the same level coincide. -/
theorem levelChain_unique {orders : List (Nat × L3Order)} {price : Rat}
    {side : OrderSide} {level : BookLevel} {l l2 : List Nat}
    (h : levelChain orders price side level l)
    (h2 : levelChain orders price side level l2) : l = l2 :=
  chainOk_unique h.2.1 h2.2.1 (h.2.2.1.symm.trans h2.2.2.1)

/-- Under well-formedness, an arena order lies in the (unique) chain of its
price level. -/
theorem BookWf.mem_level_chain {b : L2Book} (wf : BookWf b) {s : Nat}
    {l3 : L3Order} {level : BookLevel} {l : List Nat}
    (hs : lookupA s b.orders = some l3)
    (hlev : lookupA l3.order.price (b.sideMap l3.order.otype.side) = some level)
    (hl : levelChain b.orders l3.order.price l3.order.otype.side level l) :
    s ∈ l := by
  rcases wf.covers s l3 hs with ⟨level2, l2, hlev2, hl2, hmem⟩
  have : level2 = level := Option.some.inj (hlev2.symm.trans hlev)
  subst this
  rw [levelChain_unique hl hl2]
  exact hmem

/-- The current arena counter is fresh. -/
theorem BookWf.fresh_slot {b : L2Book} (wf : BookWf b) :
    lookupA b.next_slot b.orders = none := by
  cases h : lookupA b.next_slot b.orders with
  | none => rfl
  | some o => exact absurd (wf.slots_lt _ o h) (Nat.lt_irrefl _)

/-- Chain members of a present level are strictly below the arena counter. -/
theorem BookWf.chain_mem_lt {b : L2Book} (wf : BookWf b) {price : Rat}
    {side : OrderSide} {l : List Nat} {prev : Option Nat}
    (h : chainOk b.orders price side prev l) {s : Nat} (hs : s ∈ l) :
    s < b.next_slot := by
  rcases chainOk_mem h hs with ⟨o, ho, _, _⟩
  exact wf.slots_lt s o ho

/-- The spec's per-level invariants, over the chain computed by following
`next` pointers from the level's head: the level holds at least one order,
its cached size is the chain's total size, its cached count the chain's
length, its tail the chain's last slot, the head order has `prev = none` and
the tail order has `next = none`. -/
def BookInv (b : L2Book) : Prop :=
  ∀ sd price level, lookupA price (b.sideMap sd) = some level →
    chainFrom b.orders b.orders.length level.head ≠ [] ∧
    level.cached_size =
      chainSizes b.orders (chainFrom b.orders b.orders.length level.head) ∧
    level.cached_count =
      (chainFrom b.orders b.orders.length level.head).length ∧
    level.tail = (chainFrom b.orders b.orders.length level.head).getLast? ∧
    (∀ h, level.head = some h →
      ∃ oh, lookupA h b.orders = some oh ∧ oh.prev = none) ∧
    (∀ t ot, (chainFrom b.orders b.orders.length level.head).getLast? = some t →
      lookupA t b.orders = some ot → ot.next = none)

theorem bookInv_of_bookWf {b : L2Book} (wf : BookWf b) : BookInv b := by
  intro sd price level hlev
  rcases wf.levels sd price level hlev with ⟨l, hne, hch, hhd, htl, hsz, hct⟩
  have hfrom : chainFrom b.orders b.orders.length level.head = l := by
    rw [hhd]
    exact chainFrom_eq hch
      (chainOk_length_le hch (levelChain_nodup ⟨hne, hch, hhd, htl, hsz, hct⟩))
  rw [hfrom]
  refine ⟨hne, hsz, hct, htl, ?_, ?_⟩
  · intro h hh
    cases l with
    | nil => exact absurd rfl hne
    | cons s rest =>
      obtain ⟨o, ho, _, _, hpr, _, _⟩ := hch
      have : h = s := by
        have := hhd.symm.trans hh
        simpa using this.symm
      subst this
      exact ⟨o, ho, hpr⟩
  · intro t ot ht hot
    rcases chainOk_getLast_next hch ht with ⟨ot2, hot2, hnx⟩
    have : ot = ot2 := Option.some.inj (hot.symm.trans hot2)
    rw [this]
    exact hnx

theorem lookupA_insertA_cases {α β : Type} [DecidableEq α] {k k' : α}
    {v w : β} {m : List (α × β)}
    (h : lookupA k' (insertA k v m) = some w) :
    (k' = k ∧ w = v) ∨ (k' ≠ k ∧ lookupA k' m = some w) := by
  by_cases he : k' = k
  · subst he
    rw [lookupA_insertA_self] at h
    exact Or.inl ⟨rfl, (Option.some.inj h).symm⟩
  · exact Or.inr ⟨he, ((lookupA_insertA_ne _ _ he).symm.trans h)⟩

theorem sideMap_setSide_same (b : L2Book) (sd : OrderSide)
    (m : List (Rat × BookLevel)) : (b.setSide sd m).sideMap sd = m := by
  cases sd <;> rfl

theorem sideMap_setSide_ne (b : L2Book) {sd sd' : OrderSide}
    (m : List (Rat × BookLevel)) (h : sd' ≠ sd) :
    (b.setSide sd m).sideMap sd' = b.sideMap sd' := by
  cases sd <;> cases sd' <;> first | rfl | exact absurd rfl h

theorem setSide_orders (b : L2Book) (sd : OrderSide)
    (m : List (Rat × BookLevel)) : (b.setSide sd m).orders = b.orders := by
  cases sd <;> rfl

theorem setSide_order_index (b : L2Book) (sd : OrderSide)
    (m : List (Rat × BookLevel)) :
    (b.setSide sd m).order_index = b.order_index := by
  cases sd <;> rfl

theorem setSide_next_slot (b : L2Book) (sd : OrderSide)
    (m : List (Rat × BookLevel)) : (b.setSide sd m).next_slot = b.next_slot := by
  cases sd <;> rfl

theorem keysND_setSide {b : L2Book} {sd : OrderSide} {m : List (Rat × BookLevel)}
    (ha : keysND b.asks) (hb : keysND b.bids) (hm : keysND m) :
    keysND (b.setSide sd m).asks ∧ keysND (b.setSide sd m).bids := by
  cases sd
  · exact ⟨hm, hb⟩
  · exact ⟨ha, hm⟩

theorem levelChain_congr {orders orders2 : List (Nat × L3Order)} {price : Rat}
    {sd : OrderSide} {level : BookLevel} {l : List Nat}
    (hsame : ∀ u ∈ l, lookupA u orders2 = lookupA u orders)
    (h : levelChain orders price sd level l) :
    levelChain orders2 price sd level l := by
  refine ⟨h.1, chainOk_congr hsame h.2.1, h.2.2.1, h.2.2.2.1, ?_, h.2.2.2.2.2⟩
  rw [chainSizes_congr hsame]
  exact h.2.2.2.2.1

theorem chain_not_mem_of_entry {orders : List (Nat × L3Order)} {p : Rat}
    {sd : OrderSide} {prev : Option Nat} {l : List Nat}
    (h : chainOk orders p sd prev l) {slot : Nat} {l3 : L3Order}
    (hslot : lookupA slot orders = some l3)
    (hne : ¬ (l3.order.price = p ∧ l3.order.otype.side = sd)) : slot ∉ l := by
  intro hmem
  rcases chainOk_mem h hmem with ⟨o2, ho2, hp2, hs2⟩
  have : o2 = l3 := Option.some.inj (ho2.symm.trans hslot)
  subst this
  exact hne ⟨hp2, hs2⟩

theorem sideMap_set_orders (b : L2Book) (x : List (Nat × L3Order))
    (sd : OrderSide) : ({ b with orders := x } : L2Book).sideMap sd = b.sideMap sd := by
  cases sd <;> rfl

theorem sideMap_set_index (b : L2Book) (x : List (Nat × Nat))
    (sd : OrderSide) :
    ({ b with order_index := x } : L2Book).sideMap sd = b.sideMap sd := by
  cases sd <;> rfl

/-- Shared core of the in-place data update: replacing one arena order's
payload (same price/side) and adjusting the cached level size preserves
well-formedness.  Used by `update_order` and the already-at-back branch of
`move_to_back`. -/
theorem bookWf_update_core {b : L2Book} (wf : BookWf b) {o : Order} {slot : Nat}
    {l3 : L3Order} {level : BookLevel}
    (hidx : lookupA o.order_id b.order_index = some slot)
    (harena : lookupA slot b.orders = some l3)
    (hkp : o.price = l3.order.price) (hks : o.otype.side = l3.order.otype.side)
    (hlev : lookupA l3.order.price (b.sideMap l3.order.otype.side) = some level) :
    BookWf (({ b with orders := insertA slot { l3 with order := o } b.orders
      } : L2Book).setSide l3.order.otype.side
      (insertA l3.order.price
        { level with cached_size := level.cached_size - l3.order.size + o.size }
        (b.sideMap l3.order.otype.side))) := by
  have hidx2 : l3.order.order_id = o.order_id := by
    obtain ⟨l3x, harx, hx⟩ := wf.index_to_orders o.order_id slot hidx
    rw [Option.some.inj (harx.symm.trans harena)] at hx
    exact hx
  rcases wf.covers slot l3 harena with ⟨levelc, l, hlevc, hlc, hmem⟩
  have hlevid : level = levelc := Option.some.inj (hlev.symm.trans hlevc)
  subst hlevid
  obtain ⟨hne, hch, hhd, htl, hsz, hct⟩ := hlc
  have hndl : l.Nodup := levelChain_nodup ⟨hne, hch, hhd, htl, hsz, hct⟩
  set orders2 := insertA slot { l3 with order := o } b.orders with horders2
  have hch2 : chainOk orders2 l3.order.price l3.order.otype.side none l :=
    chainOk_insert_same_links harena hkp hks hch
  have hszs : chainSizes orders2 l =
      chainSizes b.orders l - l3.order.size + o.size :=
    chainSizes_insert_same harena hmem hndl
  have hlc2 : levelChain orders2 l3.order.price l3.order.otype.side
      { level with cached_size := level.cached_size - l3.order.size + o.size } l := by
    refine ⟨hne, hch2, hhd, htl, ?_, hct⟩
    rw [hszs, ← hsz]
  -- Transport of a chain at a different (price, side) key.
  have hother : ∀ {p2 : Rat} {sd2 : OrderSide} {lv2 : BookLevel} {l2 : List Nat},
      ¬ (l3.order.price = p2 ∧ l3.order.otype.side = sd2) →
      levelChain b.orders p2 sd2 lv2 l2 → levelChain orders2 p2 sd2 lv2 l2 := by
    intro p2 sd2 lv2 l2 hne2 hlc2'
    have hnm : slot ∉ l2 := chain_not_mem_of_entry hlc2'.2.1 harena hne2
    exact levelChain_congr
      (fun u hu => lookupA_insertA_ne _ _ (fun h => hnm (h ▸ hu))) hlc2'
  constructor
  · rw [setSide_orders]
    exact keysND_insertA _ _ wf.ordersND
  · rw [setSide_order_index]
    exact wf.indexND
  · cases hsd : l3.order.otype.side
    · exact keysND_insertA _ _ wf.asksND
    · exact wf.asksND
  · cases hsd : l3.order.otype.side
    · exact wf.bidsND
    · exact keysND_insertA _ _ wf.bidsND
  · intro s os hs
    rw [setSide_orders] at hs
    rw [setSide_next_slot]
    rcases lookupA_insertA_cases hs with ⟨rfl, _⟩ | ⟨_, h2⟩
    · exact wf.slots_lt _ _ harena
    · exact wf.slots_lt _ _ h2
  · intro id s hs
    rw [setSide_order_index] at hs
    rw [setSide_orders]
    rcases wf.index_to_orders id s hs with ⟨l3s, hl3s, hids⟩
    by_cases hse : s = slot
    · subst hse
      have hll : l3s = l3 := Option.some.inj (hl3s.symm.trans harena)
      refine ⟨{ l3 with order := o }, lookupA_insertA_self _ _ _, ?_⟩
      rw [hll] at hids
      exact hidx2.symm.trans hids
    · exact ⟨l3s, (lookupA_insertA_ne _ _ hse).trans hl3s, hids⟩
  · intro s os hs
    rw [setSide_orders] at hs
    rw [setSide_order_index]
    rcases lookupA_insertA_cases hs with ⟨rfl, rfl⟩ | ⟨hne2, h2⟩
    · exact hidx
    · exact wf.orders_to_index _ _ h2
  · intro sd2 p2 lv2 hlv2
    rw [setSide_orders]
    by_cases hsd2 : sd2 = l3.order.otype.side
    · subst hsd2
      rw [sideMap_setSide_same] at hlv2
      rcases lookupA_insertA_cases hlv2 with ⟨rfl, rfl⟩ | ⟨hne2, h2⟩
      · exact ⟨l, hlc2⟩
      · rcases wf.levels _ p2 lv2 h2 with ⟨l2, hlc3⟩
        exact ⟨l2, hother (fun hcontra => hne2 hcontra.1.symm) hlc3⟩
    · rw [sideMap_setSide_ne _ _ hsd2] at hlv2
      rcases wf.levels sd2 p2 lv2 hlv2 with ⟨l2, hlc3⟩
      exact ⟨l2, hother (fun hcontra => hsd2 hcontra.2.symm) hlc3⟩
  · intro s os hs
    rw [setSide_orders] at hs
    rw [setSide_orders]
    rcases lookupA_insertA_cases hs with ⟨rfl, rfl⟩ | ⟨hne2, h2⟩
    · dsimp only
      refine ⟨{ level with cached_size := level.cached_size - l3.order.size + o.size },
        l, ?_, ?_, hmem⟩
      · rw [hkp, hks, sideMap_setSide_same, lookupA_insertA_self]
      · rw [hkp, hks]
        exact hlc2
    · rcases wf.covers s os h2 with ⟨lv3, l33, hlv3, hlc33, hmem3⟩
      by_cases hkey : os.order.price = l3.order.price ∧
          os.order.otype.side = l3.order.otype.side
      · obtain ⟨hkeyp, hkeys⟩ := hkey
        rw [hkeyp, hkeys] at hlv3 hlc33
        have hlvl : level = lv3 := Option.some.inj (hlev.symm.trans hlv3)
        subst hlvl
        have hl33 : l = l33 :=
          levelChain_unique ⟨hne, hch, hhd, htl, hsz, hct⟩ hlc33
        subst hl33
        refine ⟨{ level with cached_size := level.cached_size - l3.order.size + o.size },
          l, ?_, ?_, hmem3⟩
        · rw [hkeyp, hkeys, sideMap_setSide_same, lookupA_insertA_self]
        · rw [hkeyp, hkeys]
          exact hlc2
      · refine ⟨lv3, l33, ?_,
          hother (fun hc => hkey ⟨hc.1.symm, hc.2.symm⟩) hlc33, hmem3⟩
        by_cases hsd3 : os.order.otype.side = l3.order.otype.side
        · rw [hsd3, sideMap_setSide_same]
          have hpne : os.order.price ≠ l3.order.price :=
            fun h => hkey ⟨h, hsd3⟩
          rw [lookupA_insertA_ne _ _ hpne, ← hsd3]
          exact hlv3
        · rw [sideMap_setSide_ne _ _ hsd3]
          exact hlv3

/-- `update_order` preserves well-formedness when the incoming order data
keeps the stored order's price and side. -/
theorem bookWf_updateOrder {b : L2Book} (wf : BookWf b) {o : Order}
    {b2 : L2Book} (hok : b.updateOrder o = .ok b2)
    (hkeep : ∀ slot l3, lookupA o.order_id b.order_index = some slot →
      lookupA slot b.orders = some l3 →
      o.price = l3.order.price ∧ o.otype.side = l3.order.otype.side) :
    BookWf b2 := by
  simp only [L2Book.updateOrder] at hok
  split at hok
  · exact Except.noConfusion hok
  split at hok
  · exact Except.noConfusion hok
  next slot hidx =>
  split at hok
  · exact Except.noConfusion hok
  next l3 harena =>
  obtain ⟨hkp, hks⟩ := hkeep slot l3 hidx harena
  rcases wf.covers slot l3 harena with ⟨level, l, hlev, _, _⟩
  rw [sideMap_set_orders] at hok
  split at hok
  case h_2 heqn =>
    rw [hlev] at heqn
    exact Option.noConfusion heqn
  next level2 hlev2 =>
  have hlev2' : level = level2 := Option.some.inj (hlev.symm.trans hlev2)
  subst hlev2'
  have hb2 := (Except.ok.inj hok).symm
  subst hb2
  rw [sideMap_set_orders]
  exact bookWf_update_core wf hidx harena hkp hks hlev2

theorem chainSizes_congr_size {orders orders2 : List (Nat × L3Order)} :
    ∀ {l : List Nat},
      (∀ u ∈ l, ((lookupA u orders2).map (fun o => o.order.size)).getD 0 =
        ((lookupA u orders).map (fun o => o.order.size)).getD 0) →
      chainSizes orders2 l = chainSizes orders l
  | [], _ => rfl
  | s :: rest, hsame => by
    rw [chainSizes_cons, chainSizes_cons, hsame s (by simp),
      chainSizes_congr_size (fun u hu => hsame u (by simp [hu]))]

theorem BookWf.chain_not_mem_fresh {b : L2Book} (wf : BookWf b) {price : Rat}
    {side : OrderSide} {l : List Nat} {prev : Option Nat}
    (h : chainOk b.orders price side prev l) : b.next_slot ∉ l :=
  fun hm => absurd (wf.chain_mem_lt h hm) (Nat.lt_irrefl _)

theorem addOrderGo_none {b : L2Book} {o : Order}
    (h : lookupA o.price (b.sideMap o.otype.side) = none) :
    b.addOrderGo o =
      (({ b with
          next_slot := b.next_slot + 1
          orders := insertA b.next_slot ⟨o, none, none⟩ b.orders
          order_index := insertA o.order_id b.next_slot b.order_index
        } : L2Book).setSide o.otype.side
          (insertA o.price
            ⟨some b.next_slot, some b.next_slot, 0 + o.size, 0 + 1⟩
            (b.sideMap o.otype.side)), b.next_slot) := by
  simp only [L2Book.addOrderGo, h, Option.getD]
  rfl

theorem addOrderGo_some {b : L2Book} {o : Order} {level : BookLevel} {t : Nat}
    {told : L3Order}
    (h : lookupA o.price (b.sideMap o.otype.side) = some level)
    (ht : level.tail = some t)
    (htold : lookupA t (insertA b.next_slot ⟨o, level.tail, none⟩ b.orders) =
      some told) :
    b.addOrderGo o =
      (({ b with
          next_slot := b.next_slot + 1
          orders := insertA t { told with next := some b.next_slot }
            (insertA b.next_slot ⟨o, level.tail, none⟩ b.orders)
          order_index := insertA o.order_id b.next_slot b.order_index
        } : L2Book).setSide o.otype.side
          (insertA o.price
            ⟨if level.head = none then some b.next_slot else level.head,
             some b.next_slot, level.cached_size + o.size,
             level.cached_count + 1⟩
            (b.sideMap o.otype.side)), b.next_slot) := by
  simp only [L2Book.addOrderGo, h, Option.getD]
  rw [ht] at htold ⊢
  dsimp only
  rw [htold]

/-- `add_order` preserves well-formedness. -/
theorem bookWf_addOrder {b : L2Book} (wf : BookWf b) {o : Order}
    {b2 : L2Book} {sl : Nat} (hok : b.addOrder o = .ok (b2, sl)) :
    BookWf b2 := by
  simp only [L2Book.addOrder] at hok
  split at hok
  · exact Except.noConfusion hok
  split at hok
  · exact Except.noConfusion hok
  split at hok
  next existing hidxE =>
    split at hok
    next existing2 harE => exact Except.noConfusion hok
    next harE =>
      rcases wf.index_to_orders o.order_id existing hidxE with ⟨l3e, hl3e, _⟩
      rw [harE] at hl3e
      exact Option.noConfusion hl3e
  next hidxN =>
  have hgo : b.addOrderGo o = (b2, sl) := Except.ok.inj hok
  clear hok
  cases hlevL : lookupA o.price (b.sideMap o.otype.side) with
  | none =>
    rw [addOrderGo_none hlevL] at hgo
    injection hgo with hb2 hsl
    subst hb2
    have hOslot : lookupA b.next_slot
        (insertA b.next_slot (⟨o, none, none⟩ : L3Order) b.orders) =
        some ⟨o, none, none⟩ := lookupA_insertA_self _ _ _
    have hchain1 : chainOk
        (insertA b.next_slot (⟨o, none, none⟩ : L3Order) b.orders)
        o.price o.otype.side none [b.next_slot] :=
      ⟨⟨o, none, none⟩, hOslot, rfl, rfl, rfl, rfl, trivial⟩
    have hlc1 : levelChain
        (insertA b.next_slot (⟨o, none, none⟩ : L3Order) b.orders)
        o.price o.otype.side
        ⟨some b.next_slot, some b.next_slot, 0 + o.size, 0 + 1⟩
        [b.next_slot] := by
      refine ⟨by simp, hchain1, rfl, by simp, ?_, rfl⟩
      rw [chainSizes_cons, chainSizes_nil, hOslot]
      simp only [Option.map_some', Option.getD_some]
      ring
    have htrans : ∀ {p2 : Rat} {sd2 : OrderSide} {lv : BookLevel} {l2 : List Nat},
        levelChain b.orders p2 sd2 lv l2 →
        levelChain (insertA b.next_slot (⟨o, none, none⟩ : L3Order) b.orders)
          p2 sd2 lv l2 := by
      intro p2 sd2 lv l2 hlcx
      refine levelChain_congr (fun u hu => lookupA_insertA_ne _ _ ?_) hlcx
      intro hun
      rcases chainOk_mem hlcx.2.1 hu with ⟨ou, hou, _, _⟩
      rw [hun] at hou
      rw [wf.fresh_slot] at hou
      exact Option.noConfusion hou
    constructor
    · rw [setSide_orders]
      exact keysND_insertA _ _ wf.ordersND
    · rw [setSide_order_index]
      exact keysND_insertA _ _ wf.indexND
    · cases hsd : o.otype.side
      · exact keysND_insertA _ _ wf.asksND
      · exact wf.asksND
    · cases hsd : o.otype.side
      · exact wf.bidsND
      · exact keysND_insertA _ _ wf.bidsND
    · intro s2 os2 hs2
      rw [setSide_orders] at hs2
      rw [setSide_next_slot]
      rcases lookupA_insertA_cases hs2 with ⟨rfl, _⟩ | ⟨_, h2⟩
      · exact Nat.lt_succ_self _
      · exact Nat.lt_succ_of_lt (wf.slots_lt _ _ h2)
    · intro id2 s2 hs2
      rw [setSide_order_index] at hs2
      rw [setSide_orders]
      rcases lookupA_insertA_cases hs2 with ⟨rfl, rfl⟩ | ⟨hne2, h2⟩
      · exact ⟨⟨o, none, none⟩, hOslot, rfl⟩
      · rcases wf.index_to_orders id2 s2 h2 with ⟨l3s, hl3s, hids⟩
        have hs2ne : s2 ≠ b.next_slot := by
          intro h
          rw [h, wf.fresh_slot] at hl3s
          exact Option.noConfusion hl3s
        exact ⟨l3s, (lookupA_insertA_ne _ _ hs2ne).trans hl3s, hids⟩
    · intro s2 os2 hs2
      rw [setSide_orders] at hs2
      rw [setSide_order_index]
      rcases lookupA_insertA_cases hs2 with ⟨rfl, rfl⟩ | ⟨hne2, h2⟩
      · exact lookupA_insertA_self _ _ _
      · have hne3 : os2.order.order_id ≠ o.order_id := by
          intro h
          have hx := wf.orders_to_index _ _ h2
          rw [h, hidxN] at hx
          exact Option.noConfusion hx
        exact (lookupA_insertA_ne _ _ hne3).trans (wf.orders_to_index _ _ h2)
    · intro sd2 p2 lv2 hlv2
      rw [setSide_orders]
      by_cases hsd2 : sd2 = o.otype.side
      · subst hsd2
        rw [sideMap_setSide_same] at hlv2
        rcases lookupA_insertA_cases hlv2 with ⟨rfl, rfl⟩ | ⟨hne2, h2⟩
        · exact ⟨[b.next_slot], hlc1⟩
        · rcases wf.levels _ p2 lv2 h2 with ⟨l2, hlc2⟩
          exact ⟨l2, htrans hlc2⟩
      · rw [sideMap_setSide_ne _ _ hsd2] at hlv2
        rcases wf.levels sd2 p2 lv2 hlv2 with ⟨l2, hlc2⟩
        exact ⟨l2, htrans hlc2⟩
    · intro s2 os2 hs2
      rw [setSide_orders] at hs2
      rw [setSide_orders]
      rcases lookupA_insertA_cases hs2 with ⟨rfl, rfl⟩ | ⟨hne2, h2⟩
      · dsimp only
        refine ⟨⟨some b.next_slot, some b.next_slot, 0 + o.size, 0 + 1⟩,
          [b.next_slot], ?_, hlc1, by simp⟩
        rw [sideMap_setSide_same]
        exact lookupA_insertA_self _ _ _
      · rcases wf.covers s2 os2 h2 with ⟨lv3, l33, hlv3, hlc33, hmem3⟩
        have hkeyne : ¬ (os2.order.price = o.price ∧
            os2.order.otype.side = o.otype.side) := by
          rintro ⟨hp2, hs2'⟩
          rw [hp2, hs2', hlevL] at hlv3
          exact Option.noConfusion hlv3
        refine ⟨lv3, l33, ?_, htrans hlc33, hmem3⟩
        by_cases hsd3 : os2.order.otype.side = o.otype.side
        · rw [hsd3, sideMap_setSide_same]
          have hpne : os2.order.price ≠ o.price := fun h => hkeyne ⟨h, hsd3⟩
          rw [lookupA_insertA_ne _ _ hpne, ← hsd3]
          exact hlv3
        · rw [sideMap_setSide_ne _ _ hsd3]
          exact hlv3
  | some level =>
    rcases wf.levels o.otype.side o.price level hlevL with ⟨l, hlc⟩
    obtain ⟨hlne, hch, hhd, htl, hsz, hct⟩ := hlc
    have hndl : l.Nodup := levelChain_nodup ⟨hlne, hch, hhd, htl, hsz, hct⟩
    obtain ⟨t, ht⟩ : ∃ t, level.tail = some t := by
      cases hl0 : l with
      | nil => exact absurd hl0 hlne
      | cons a rest =>
        rw [htl, hl0]
        exact getLastQ_cons_some a rest
    have hgl : l.getLast? = some t := htl.symm.trans ht
    have htmem : t ∈ l := mem_of_getLastQ hgl
    obtain ⟨told0, htold0, htp, hts⟩ := chainOk_mem hch htmem
    have htne : t ≠ b.next_slot := Nat.ne_of_lt (wf.slots_lt _ _ htold0)
    have htold1 : lookupA t
        (insertA b.next_slot (⟨o, level.tail, none⟩ : L3Order) b.orders) =
        some told0 := (lookupA_insertA_ne _ _ htne).trans htold0
    rw [addOrderGo_some hlevL ht htold1] at hgo
    injection hgo with hb2 hsl
    subst hb2
    have hONslot : lookupA b.next_slot
        (insertA t { told0 with next := some b.next_slot }
          (insertA b.next_slot (⟨o, level.tail, none⟩ : L3Order) b.orders)) =
        some ⟨o, level.tail, none⟩ :=
      (lookupA_insertA_ne _ _ (Ne.symm htne)).trans (lookupA_insertA_self _ _ _)
    have hOt : lookupA t
        (insertA t { told0 with next := some b.next_slot }
          (insertA b.next_slot (⟨o, level.tail, none⟩ : L3Order) b.orders)) =
        some { told0 with next := some b.next_slot } := lookupA_insertA_self _ _ _
    have hsameO : ∀ u ∈ l, u ≠ t →
        lookupA u (insertA t { told0 with next := some b.next_slot }
          (insertA b.next_slot (⟨o, level.tail, none⟩ : L3Order) b.orders)) =
        lookupA u b.orders := by
      intro u hu hut
      have hune : u ≠ b.next_slot := by
        intro h
        rcases chainOk_mem hch hu with ⟨ou, hou, _, _⟩
        rw [h, wf.fresh_slot] at hou
        exact Option.noConfusion hou
      exact (lookupA_insertA_ne _ _ hut).trans (lookupA_insertA_ne _ _ hune)
    have hsnoc : chainOk
        (insertA t { told0 with next := some b.next_slot }
          (insertA b.next_slot (⟨o, level.tail, none⟩ : L3Order) b.orders))
        o.price o.otype.side none (l ++ [b.next_slot]) := by
      refine chainOk_snoc hONslot ht rfl rfl rfl ?_ hch hgl hndl
        (wf.chain_not_mem_fresh hch) hsameO
      intro ot hot
      have : ot = told0 := Option.some.inj (hot.symm.trans htold0)
      subst this
      exact hOt
    have hszs : chainSizes
        (insertA t { told0 with next := some b.next_slot }
          (insertA b.next_slot (⟨o, level.tail, none⟩ : L3Order) b.orders))
        (l ++ [b.next_slot]) = chainSizes b.orders l + (o.size + 0) := by
      rw [chainSizes_append]
      have h1 : chainSizes
          (insertA t { told0 with next := some b.next_slot }
            (insertA b.next_slot (⟨o, level.tail, none⟩ : L3Order) b.orders)) l
          = chainSizes b.orders l := by
        refine chainSizes_congr_size (fun u hu => ?_)
        by_cases hut : u = t
        · rw [hut, hOt, htold0]
          rfl
        · rw [hsameO u hu hut]
      rw [h1, chainSizes_cons, chainSizes_nil, hONslot]
      simp only [Option.map_some', Option.getD_some]
    have hlc2 : levelChain
        (insertA t { told0 with next := some b.next_slot }
          (insertA b.next_slot (⟨o, level.tail, none⟩ : L3Order) b.orders))
        o.price o.otype.side
        ⟨if level.head = none then some b.next_slot else level.head,
         some b.next_slot, level.cached_size + o.size, level.cached_count + 1⟩
        (l ++ [b.next_slot]) := by
      refine ⟨by simp, hsnoc, ?_, ?_, ?_, ?_⟩
      · cases hl0 : l with
        | nil => exact absurd hl0 hlne
        | cons a rest =>
          rw [hl0] at hhd
          have hhda : level.head = some a := by simpa using hhd
          rw [hhda]
          simp
      · rw [(List.getLast?_concat l).symm]
      · rw [hszs, hsz]
        ring
      · rw [hct]
        simp
    have htrans : ∀ {p2 : Rat} {sd2 : OrderSide} {lv : BookLevel} {l2 : List Nat},
        ¬ (o.price = p2 ∧ o.otype.side = sd2) →
        levelChain b.orders p2 sd2 lv l2 →
        levelChain (insertA t { told0 with next := some b.next_slot }
          (insertA b.next_slot (⟨o, level.tail, none⟩ : L3Order) b.orders))
          p2 sd2 lv l2 := by
      intro p2 sd2 lv l2 hne hlcx
      have hnt : t ∉ l2 := chain_not_mem_of_entry hlcx.2.1 htold0
        (fun hc => hne ⟨htp.symm.trans hc.1, hts.symm.trans hc.2⟩)
      refine levelChain_congr (fun u hu => ?_) hlcx
      have hut : u ≠ t := fun h => hnt (h ▸ hu)
      have hune : u ≠ b.next_slot := by
        intro h
        rcases chainOk_mem hlcx.2.1 hu with ⟨ou, hou, _, _⟩
        rw [h, wf.fresh_slot] at hou
        exact Option.noConfusion hou
      exact (lookupA_insertA_ne _ _ hut).trans (lookupA_insertA_ne _ _ hune)
    constructor
    · rw [setSide_orders]
      exact keysND_insertA _ _ (keysND_insertA _ _ wf.ordersND)
    · rw [setSide_order_index]
      exact keysND_insertA _ _ wf.indexND
    · cases hsd : o.otype.side
      · exact keysND_insertA _ _ wf.asksND
      · exact wf.asksND
    · cases hsd : o.otype.side
      · exact wf.bidsND
      · exact keysND_insertA _ _ wf.bidsND
    · intro s2 os2 hs2
      rw [setSide_orders] at hs2
      rw [setSide_next_slot]
      rcases lookupA_insertA_cases hs2 with ⟨rfl, _⟩ | ⟨_, h2⟩
      · exact Nat.lt_succ_of_lt (wf.slots_lt _ _ htold0)
      · rcases lookupA_insertA_cases h2 with ⟨rfl, _⟩ | ⟨_, h3⟩
        · exact Nat.lt_succ_self _
        · exact Nat.lt_succ_of_lt (wf.slots_lt _ _ h3)
    · intro id2 s2 hs2
      rw [setSide_order_index] at hs2
      rw [setSide_orders]
      rcases lookupA_insertA_cases hs2 with ⟨rfl, rfl⟩ | ⟨hne2, h2⟩
      · exact ⟨⟨o, level.tail, none⟩, hONslot, rfl⟩
      · rcases wf.index_to_orders id2 s2 h2 with ⟨l3s, hl3s, hids⟩
        have hs2ne : s2 ≠ b.next_slot := by
          intro h
          rw [h, wf.fresh_slot] at hl3s
          exact Option.noConfusion hl3s
        by_cases hs2t : s2 = t
        · have hl3st : l3s = told0 := by
            rw [hs2t] at hl3s
            exact Option.some.inj (hl3s.symm.trans htold0)
          rw [hl3st] at hids
          exact ⟨{ told0 with next := some b.next_slot },
            by rw [hs2t]; exact hOt, hids⟩
        · exact ⟨l3s, ((lookupA_insertA_ne _ _ hs2t).trans
            (lookupA_insertA_ne _ _ hs2ne)).trans hl3s, hids⟩
    · intro s2 os2 hs2
      rw [setSide_orders] at hs2
      rw [setSide_order_index]
      rcases lookupA_insertA_cases hs2 with ⟨rfl, rfl⟩ | ⟨hne2, h2⟩
      · have hx := wf.orders_to_index _ _ htold0
        have hne3 : told0.order.order_id ≠ o.order_id := by
          intro h
          rw [h, hidxN] at hx
          exact Option.noConfusion hx
        exact (lookupA_insertA_ne _ _ hne3).trans hx
      · rcases lookupA_insertA_cases h2 with ⟨rfl, rfl⟩ | ⟨hne4, h3⟩
        · exact lookupA_insertA_self _ _ _
        · have hx := wf.orders_to_index _ _ h3
          have hne3 : os2.order.order_id ≠ o.order_id := by
            intro h
            rw [h, hidxN] at hx
            exact Option.noConfusion hx
          exact (lookupA_insertA_ne _ _ hne3).trans hx
    · intro sd2 p2 lv2 hlv2
      rw [setSide_orders]
      by_cases hsd2 : sd2 = o.otype.side
      · subst hsd2
        rw [sideMap_setSide_same] at hlv2
        rcases lookupA_insertA_cases hlv2 with ⟨rfl, rfl⟩ | ⟨hne2, h2⟩
        · exact ⟨l ++ [b.next_slot], hlc2⟩
        · rcases wf.levels _ p2 lv2 h2 with ⟨l2, hlc3⟩
          exact ⟨l2, htrans (fun hc => hne2 hc.1.symm) hlc3⟩
      · rw [sideMap_setSide_ne _ _ hsd2] at hlv2
        rcases wf.levels sd2 p2 lv2 hlv2 with ⟨l2, hlc3⟩
        exact ⟨l2, htrans (fun hc => hsd2 hc.2.symm) hlc3⟩
    · intro s2 os2 hs2
      rw [setSide_orders] at hs2
      rw [setSide_orders]
      rcases lookupA_insertA_cases hs2 with ⟨rfl, rfl⟩ | ⟨hne2, h2⟩
      · dsimp only
        refine ⟨⟨if level.head = none then some b.next_slot else level.head,
          some b.next_slot, level.cached_size + o.size, level.cached_count + 1⟩,
          l ++ [b.next_slot], ?_, ?_, ?_⟩
        · rw [htp, hts, sideMap_setSide_same]
          exact lookupA_insertA_self _ _ _
        · rw [htp, hts]
          exact hlc2
        · exact List.mem_append_left _ htmem
      · rcases lookupA_insertA_cases h2 with ⟨rfl, rfl⟩ | ⟨hne4, h3⟩
        · dsimp only
          refine ⟨⟨if level.head = none then some b.next_slot else level.head,
            some b.next_slot, level.cached_size + o.size, level.cached_count + 1⟩,
            l ++ [b.next_slot], ?_, hlc2, by simp⟩
          rw [sideMap_setSide_same]
          exact lookupA_insertA_self _ _ _
        · rcases wf.covers s2 os2 h3 with ⟨lv3, l33, hlv3, hlc33, hmem3⟩
          by_cases hkey : os2.order.price = o.price ∧
              os2.order.otype.side = o.otype.side
          · obtain ⟨hkeyp, hkeys⟩ := hkey
            rw [hkeyp, hkeys] at hlv3 hlc33
            have hlvl : level = lv3 := Option.some.inj (hlevL.symm.trans hlv3)
            subst hlvl
            have hl33 : l = l33 :=
              levelChain_unique ⟨hlne, hch, hhd, htl, hsz, hct⟩ hlc33
            subst hl33
            refine ⟨⟨if level.head = none then some b.next_slot else level.head,
              some b.next_slot, level.cached_size + o.size,
              level.cached_count + 1⟩, l ++ [b.next_slot], ?_, ?_, ?_⟩
            · rw [hkeyp, hkeys, sideMap_setSide_same]
              exact lookupA_insertA_self _ _ _
            · rw [hkeyp, hkeys]
              exact hlc2
            · exact List.mem_append_left _ hmem3
          · refine ⟨lv3, l33, ?_,
              htrans (fun hc => hkey ⟨hc.1.symm, hc.2.symm⟩) hlc33, hmem3⟩
            by_cases hsd3 : os2.order.otype.side = o.otype.side
            · rw [hsd3, sideMap_setSide_same]
              have hpne : os2.order.price ≠ o.price := fun h => hkey ⟨h, hsd3⟩
              rw [lookupA_insertA_ne _ _ hpne, ← hsd3]
              exact hlv3
            · rw [sideMap_setSide_ne _ _ hsd3]
              exact hlv3

/-- Core of `remove_order_by_id` preservation: `O2` is the arena after the
two neighbour patches (characterised abstractly by `ha`/`hbp`/`hcn`/`hd`),
and the final book erases the removed slot, erases the index entry, patches
the level and prunes it when it became empty. -/
theorem bookWf_remove_aux {b : L2Book} (wf : BookWf b) {oid slot : Nat}
    {l3 : L3Order} {O2 : List (Nat × L3Order)} {level : BookLevel}
    (hidx : lookupA oid b.order_index = some slot)
    (harena : lookupA slot b.orders = some l3)
    (hlev : lookupA l3.order.price (b.sideMap l3.order.otype.side) = some level)
    (ha : ∀ u, l3.prev ≠ some u → l3.next ≠ some u →
      lookupA u O2 = lookupA u b.orders)
    (hbp : ∀ p po, l3.prev = some p → l3.next ≠ some p →
      lookupA p b.orders = some po →
      lookupA p O2 = some { po with next := l3.next })
    (hcn : ∀ n no, l3.next = some n → l3.prev ≠ some n →
      lookupA n b.orders = some no →
      lookupA n O2 = some { no with prev := l3.prev })
    (hd : ∀ u w, lookupA u O2 = some w →
      ∃ w0, lookupA u b.orders = some w0 ∧ w.order = w0.order)
    (hknd : keysND O2) :
    BookWf ((({ b with
        order_index := eraseA oid b.order_index
        orders := eraseA slot O2 } : L2Book)).setSide l3.order.otype.side
      (if (⟨if level.head = some slot then l3.next else level.head,
           if level.tail = some slot then l3.prev else level.tail,
           level.cached_size - l3.order.size,
           level.cached_count - 1⟩ : BookLevel).isEmptyB = true
       then eraseA l3.order.price
         (insertA l3.order.price
           ⟨if level.head = some slot then l3.next else level.head,
            if level.tail = some slot then l3.prev else level.tail,
            level.cached_size - l3.order.size, level.cached_count - 1⟩
           (b.sideMap l3.order.otype.side))
       else insertA l3.order.price
         ⟨if level.head = some slot then l3.next else level.head,
          if level.tail = some slot then l3.prev else level.tail,
          level.cached_size - l3.order.size, level.cached_count - 1⟩
         (b.sideMap l3.order.otype.side))) := by
  have hoid : l3.order.order_id = oid := by
    obtain ⟨l3x, harx, hx⟩ := wf.index_to_orders oid slot hidx
    rw [Option.some.inj (harx.symm.trans harena)] at hx
    exact hx
  rcases wf.covers slot l3 harena with ⟨levelc, lc, hlevc, hlcc, hmemc⟩
  have hlevel : level = levelc := Option.some.inj (hlev.symm.trans hlevc)
  subst hlevel
  obtain ⟨l1, l2, hl⟩ := List.append_of_mem hmemc
  subst hl
  obtain ⟨hlne, hch, hhd, htl, hsz, hct⟩ := hlcc
  have hnd : (l1 ++ slot :: l2).Nodup :=
    levelChain_nodup ⟨hlne, hch, hhd, htl, hsz, hct⟩
  obtain ⟨hnd1, hnd2c, hdisj⟩ := List.nodup_append.mp hnd
  have hslot_l2 : slot ∉ l2 := (List.nodup_cons.mp hnd2c).1
  have hnd2 : l2.Nodup := (List.nodup_cons.mp hnd2c).2
  have hslot_l1 : slot ∉ l1 := fun h => hdisj h (by simp)
  have hdisj12 : ∀ x ∈ l1, x ∉ l2 := fun x hx hx2 => hdisj hx (by simp [hx2])
  have hndlex : (l1 ++ l2).Nodup := by
    rw [List.nodup_append]
    exact ⟨hnd1, hnd2, fun x hx hx2 => hdisj12 x hx hx2⟩
  obtain ⟨ox, hox, hoxp, hoxn, _, _⟩ := chainOk_decomp l1 hch
  have hoxl3 : ox = l3 := Option.some.inj (hox.symm.trans harena)
  subst hoxl3
  have hprevE : ox.prev = l1.getLast? := by
    rw [hoxp]
    cases l1.getLast? <;> rfl
  have hnextE : ox.next = l2.head? := hoxn
  -- Entries of chain members (for key typing).
  have hmem_entry : ∀ u ∈ l1 ++ slot :: l2, ∃ ou, lookupA u b.orders = some ou ∧
      ou.order.price = ox.order.price ∧
      ou.order.otype.side = ox.order.otype.side :=
    fun u hu => chainOk_mem hch hu
  -- The previous neighbour is never the next neighbour or the slot itself.
  have hprev_not_next : ∀ v, ox.prev = some v → ox.next ≠ some v := by
    intro v hv hnv
    rw [hprevE] at hv
    rw [hnextE] at hnv
    have hv1 : v ∈ l1 := mem_of_getLastQ hv
    have hv2 : v ∈ l2 := by
      cases l2 with
      | nil => exact Option.noConfusion hnv
      | cons y l2' => simp at hnv; simp [hnv]
    exact hdisj12 v hv1 hv2
  have hnext_not_prev : ∀ v, ox.next = some v → ox.prev ≠ some v := by
    intro v hv hpv
    exact hprev_not_next v hpv hv
  have hprev_mem : ∀ v, ox.prev = some v → v ∈ l1 := by
    intro v hv
    rw [hprevE] at hv
    exact mem_of_getLastQ hv
  have hnext_mem : ∀ v, ox.next = some v → v ∈ l2 := by
    intro v hv
    rw [hnextE] at hv
    cases l2 with
    | nil => exact Option.noConfusion hv
    | cons y l2' => simp at hv; simp [hv]
  -- Excised chain over the patched arena, then over the erased arena.
  have hexcise : chainOk O2 ox.order.price ox.order.otype.side none (l1 ++ l2) := by
    refine chainOk_excise l1 hch hnd ?_ ?_ ?_
    · intro u hu h1 h2
      refine ha u ?_ ?_
      · rw [hprevE]; exact h1
      · rw [hnextE]; exact h2
    · intro v hv ov hov
      have hpv : ox.prev = some v := by rw [hprevE, hv]
      have := hbp v ov hpv (hprev_not_next v hpv) hov
      rw [hnextE] at this
      exact this
    · intro y hy oy hoy
      have hny : ox.next = some y := by rw [hnextE, hy]
      have := hcn y oy hny (hnext_not_prev y hny) hoy
      rw [hprevE] at this
      rw [this]
      cases hgl : l1.getLast? <;> rw [hgl] at hprevE <;> rw [hprevE]
  have hmemlex_ne_slot : ∀ u ∈ l1 ++ l2, u ≠ slot := by
    intro u hu h
    rcases List.mem_append.mp hu with h2 | h2
    · exact hslot_l1 (h ▸ h2)
    · exact hslot_l2 (h ▸ h2)
  have herased : chainOk (eraseA slot O2) ox.order.price ox.order.otype.side
      none (l1 ++ l2) :=
    chainOk_congr
      (fun u hu => lookupA_eraseA_ne _ (hmemlex_ne_slot u hu)) hexcise
  -- Per-member size preservation under the patches and the erase.
  have hsizes_pres : ∀ u ∈ l1 ++ l2,
      ((lookupA u (eraseA slot O2)).map (fun o => o.order.size)).getD 0 =
      ((lookupA u b.orders).map (fun o => o.order.size)).getD 0 := by
    intro u hu
    rw [lookupA_eraseA_ne _ (hmemlex_ne_slot u hu)]
    rcases chainOk_mem hexcise hu with ⟨w, hw, _, _⟩
    rcases hd u w hw with ⟨w0, hw0, hord⟩
    rw [hw, hw0]
    simp only [Option.map_some', Option.getD_some]
    rw [hord]
  have hszlex : chainSizes (eraseA slot O2) (l1 ++ l2) =
      chainSizes b.orders l1 + chainSizes b.orders l2 := by
    rw [chainSizes_congr_size hsizes_pres, chainSizes_append]
  have hszold : level.cached_size =
      chainSizes b.orders l1 + (ox.order.size + chainSizes b.orders l2) := by
    rw [hsz, chainSizes_append, chainSizes_cons, harena]
    simp only [Option.map_some', Option.getD_some]
  -- The patched level delimits the excised chain.
  have hhd' : (if level.head = some slot then ox.next else level.head) =
      (l1 ++ l2).head? := by
    cases hl1 : l1 with
    | nil =>
      subst hl1
      have : level.head = some slot := by simpa using hhd
      rw [this, if_pos rfl, hnextE]
      rfl
    | cons a l1' =>
      subst hl1
      have hha : level.head = some a := by simpa using hhd
      have hane : a ≠ slot := fun h => hslot_l1 (by simp [h])
      rw [hha, if_neg (by simpa using hane)]
      rfl
  have htl' : (if level.tail = some slot then ox.prev else level.tail) =
      (l1 ++ l2).getLast? := by
    cases hl2 : l2 with
    | nil =>
      subst hl2
      have hts : level.tail = some slot := by
        rw [htl, List.getLast?_concat l1]
      rw [hts, if_pos rfl, hprevE]
      simp
    | cons y l2' =>
      subst hl2
      have hts : level.tail = (y :: l2').getLast? := by
        rw [htl, List.getLast?_append_of_ne_nil _ (List.cons_ne_nil slot (y :: l2')),
          List.getLast?_cons_cons]
      obtain ⟨w, hw⟩ := getLastQ_cons_some y l2'
      have hwne : w ≠ slot := fun h =>
        hslot_l2 (h ▸ mem_of_getLastQ hw)
      rw [hts, hw, if_neg (by simpa using hwne),
        List.getLast?_append_of_ne_nil _ (List.cons_ne_nil y l2'), hw]
  have hct' : level.cached_count - 1 = (l1 ++ l2).length := by
    rw [hct]
    simp only [List.length_append, List.length_cons]
    omega
  have hsz' : level.cached_size - ox.order.size =
      chainSizes (eraseA slot O2) (l1 ++ l2) := by
    rw [hszold, hszlex]
    ring
  -- Pruning happens exactly when the chain is now empty.
  have hprune : ((⟨if level.head = some slot then ox.next else level.head,
      if level.tail = some slot then ox.prev else level.tail,
      level.cached_size - ox.order.size,
      level.cached_count - 1⟩ : BookLevel).isEmptyB = true) ↔ (l1 ++ l2) = [] := by
    simp only [BookLevel.isEmptyB, decide_eq_true_eq]
    rw [hhd']
    cases hlex : l1 ++ l2 with
    | nil => simp
    | cons a r => simp
  -- Transport of a chain at a different key to the final arena.
  have hOther : ∀ {p2 : Rat} {sd2 : OrderSide} {lv : BookLevel} {l2x : List Nat},
      ¬ (ox.order.price = p2 ∧ ox.order.otype.side = sd2) →
      levelChain b.orders p2 sd2 lv l2x →
      levelChain (eraseA slot O2) p2 sd2 lv l2x := by
    intro p2 sd2 lv l2x hne hlcx
    have hnms : slot ∉ l2x := chain_not_mem_of_entry hlcx.2.1 harena hne
    refine levelChain_congr (fun u hu => ?_) hlcx
    rcases chainOk_mem hlcx.2.1 hu with ⟨ou, hou, hup, hus⟩
    have hnp : ox.prev ≠ some u := by
      intro h
      have hu1 : u ∈ l1 := hprev_mem u h
      rcases hmem_entry u (by simp [hu1]) with ⟨ou2, hou2, hup2, hus2⟩
      have : ou2 = ou := Option.some.inj (hou2.symm.trans hou)
      subst this
      exact hne ⟨hup2.symm.trans hup, hus2.symm.trans hus⟩
    have hnn : ox.next ≠ some u := by
      intro h
      have hu2 : u ∈ l2 := hnext_mem u h
      rcases hmem_entry u (by simp [hu2]) with ⟨ou2, hou2, hup2, hus2⟩
      have : ou2 = ou := Option.some.inj (hou2.symm.trans hou)
      subst this
      exact hne ⟨hup2.symm.trans hup, hus2.symm.trans hus⟩
    rw [lookupA_eraseA_ne _ (fun h => hnms (by rw [← h]; exact hu))]
    exact ha u hnp hnn
  -- Arena lookup facts for the final book.
  have hlookO2 : ∀ u ou, lookupA u b.orders = some ou →
      ∃ w, lookupA u O2 = some w ∧ w.order = ou.order := by
    intro u ou hou
    by_cases hp2 : ox.prev = some u
    · exact ⟨{ ou with next := ox.next },
        hbp u ou hp2 (hprev_not_next u hp2) hou, rfl⟩
    · by_cases hn2 : ox.next = some u
      · exact ⟨{ ou with prev := ox.prev },
          hcn u ou hn2 (hnext_not_prev u hn2) hou, rfl⟩
      · exact ⟨ou, (ha u hp2 hn2).trans hou, rfl⟩
  have her_cases : ∀ s2 w, lookupA s2 (eraseA slot O2) = some w →
      s2 ≠ slot ∧ lookupA s2 O2 = some w := by
    intro s2 w hs2
    by_cases h : s2 = slot
    · rw [h, lookupA_eraseA_self hknd] at hs2
      exact absurd hs2 (by simp)
    · rw [lookupA_eraseA_ne _ h] at hs2
      exact ⟨h, hs2⟩
  have hlc2 : (l1 ++ l2) ≠ [] →
      levelChain (eraseA slot O2) ox.order.price ox.order.otype.side
        ⟨if level.head = some slot then ox.next else level.head,
         if level.tail = some slot then ox.prev else level.tail,
         level.cached_size - ox.order.size, level.cached_count - 1⟩
        (l1 ++ l2) :=
    fun hne => ⟨hne, herased, hhd'.symm ▸ rfl, htl'.symm ▸ rfl, hsz', hct'⟩
  constructor
  · rw [setSide_orders]
    exact keysND_eraseA _ hknd
  · rw [setSide_order_index]
    exact keysND_eraseA _ wf.indexND
  · cases hsd : ox.order.otype.side
    · by_cases hif : (⟨if level.head = some slot then ox.next else level.head,
          if level.tail = some slot then ox.prev else level.tail,
          level.cached_size - ox.order.size,
          level.cached_count - 1⟩ : BookLevel).isEmptyB = true
      · rw [if_pos hif]
        exact keysND_eraseA _ (keysND_insertA _ _ wf.asksND)
      · rw [if_neg hif]
        exact keysND_insertA _ _ wf.asksND
    · exact wf.asksND
  · cases hsd : ox.order.otype.side
    · exact wf.bidsND
    · by_cases hif : (⟨if level.head = some slot then ox.next else level.head,
          if level.tail = some slot then ox.prev else level.tail,
          level.cached_size - ox.order.size,
          level.cached_count - 1⟩ : BookLevel).isEmptyB = true
      · rw [if_pos hif]
        exact keysND_eraseA _ (keysND_insertA _ _ wf.bidsND)
      · rw [if_neg hif]
        exact keysND_insertA _ _ wf.bidsND
  · intro s2 os2 hs2
    rw [setSide_orders] at hs2
    rw [setSide_next_slot]
    obtain ⟨_, hs2O⟩ := her_cases s2 os2 hs2
    rcases hd _ _ hs2O with ⟨w0, hw0, _⟩
    exact wf.slots_lt _ _ hw0
  · intro id2 s2 hs2
    rw [setSide_order_index] at hs2
    rw [setSide_orders]
    have hid2ne : id2 ≠ oid := by
      intro h
      rw [h, lookupA_eraseA_self wf.indexND] at hs2
      exact Option.noConfusion hs2
    rw [lookupA_eraseA_ne _ hid2ne] at hs2
    rcases wf.index_to_orders id2 s2 hs2 with ⟨l3s, hl3s, hids⟩
    have hs2slot : s2 ≠ slot := by
      intro h
      rw [h] at hl3s
      have hl3ox : l3s = ox := Option.some.inj (hl3s.symm.trans harena)
      rw [hl3ox] at hids
      exact hid2ne (hids.symm.trans hoid)
    rcases hlookO2 s2 l3s hl3s with ⟨w, hwO, hword⟩
    refine ⟨w, ?_, ?_⟩
    · rw [lookupA_eraseA_ne _ hs2slot]
      exact hwO
    · rw [hword]
      exact hids
  · intro s2 w hs2
    rw [setSide_orders] at hs2
    rw [setSide_order_index]
    obtain ⟨hs2slot, hs2O⟩ := her_cases s2 w hs2
    rcases hd _ _ hs2O with ⟨w0, hw0, hword⟩
    have hx := wf.orders_to_index _ _ hw0
    have hwne : w0.order.order_id ≠ oid := by
      intro h
      rw [h] at hx
      exact hs2slot (Option.some.inj (hx.symm.trans hidx))
    rw [hword, lookupA_eraseA_ne _ hwne]
    exact hx
  · intro sd2 p2 lv hlv
    rw [setSide_orders]
    by_cases hsd2 : sd2 = ox.order.otype.side
    · subst hsd2
      rw [sideMap_setSide_same] at hlv
      by_cases hif : (⟨if level.head = some slot then ox.next else level.head,
          if level.tail = some slot then ox.prev else level.tail,
          level.cached_size - ox.order.size,
          level.cached_count - 1⟩ : BookLevel).isEmptyB = true
      · rw [if_pos hif] at hlv
        have hp2ne : p2 ≠ ox.order.price := by
          intro h
          rw [h, lookupA_eraseA_self (keysND_insertA _ _ ?_)] at hlv
          · exact Option.noConfusion hlv
          · cases hsd : ox.order.otype.side
            · exact wf.asksND
            · exact wf.bidsND
        rw [lookupA_eraseA_ne _ hp2ne, lookupA_insertA_ne _ _ hp2ne] at hlv
        rcases wf.levels _ p2 lv hlv with ⟨l2x, hlcx⟩
        exact ⟨l2x, hOther (fun hc => hp2ne hc.1.symm) hlcx⟩
      · rw [if_neg hif] at hlv
        rcases lookupA_insertA_cases hlv with ⟨rfl, rfl⟩ | ⟨hne2, h2⟩
        · refine ⟨l1 ++ l2, hlc2 ?_⟩
          intro hl
          exact hif (hprune.mpr hl)
        · rcases wf.levels _ p2 lv h2 with ⟨l2x, hlcx⟩
          exact ⟨l2x, hOther (fun hc => hne2 hc.1.symm) hlcx⟩
    · rw [sideMap_setSide_ne _ _ hsd2] at hlv
      rcases wf.levels sd2 p2 lv hlv with ⟨l2x, hlcx⟩
      exact ⟨l2x, hOther (fun hc => hsd2 hc.2.symm) hlcx⟩
  · intro s2 w hs2
    rw [setSide_orders] at hs2
    rw [setSide_orders]
    obtain ⟨hs2slot, hs2O⟩ := her_cases s2 w hs2
    rcases hd _ _ hs2O with ⟨w0, hw0, hword⟩
    rcases wf.covers s2 w0 hw0 with ⟨lv3, l3x, hlv3, hlc3x, hmem3x⟩
    by_cases hkey : w0.order.price = ox.order.price ∧
        w0.order.otype.side = ox.order.otype.side
    · obtain ⟨hkeyp, hkeys⟩ := hkey
      rw [hkeyp, hkeys] at hlv3 hlc3x
      have hlvl : level = lv3 := Option.some.inj (hlev.symm.trans hlv3)
      subst hlvl
      have hl3x : l1 ++ slot :: l2 = l3x :=
        levelChain_unique ⟨hlne, hch, hhd, htl, hsz, hct⟩ hlc3x
      have hs2mem : s2 ∈ l1 ++ l2 := by
        have : s2 ∈ l1 ++ slot :: l2 := by rw [hl3x]; exact hmem3x
        rcases List.mem_append.mp this with h | h
        · exact List.mem_append_left _ h
        · rcases List.mem_cons.mp h with h2 | h2
          · exact absurd h2 hs2slot
          · exact List.mem_append_right _ h2
      have hlexne : (l1 ++ l2) ≠ [] := by
        intro hl
        rw [hl] at hs2mem
        exact absurd hs2mem (by simp)
      have hif : ¬ ((⟨if level.head = some slot then ox.next else level.head,
          if level.tail = some slot then ox.prev else level.tail,
          level.cached_size - ox.order.size,
          level.cached_count - 1⟩ : BookLevel).isEmptyB = true) := by
        intro h
        exact hlexne (hprune.mp h)
      refine ⟨⟨if level.head = some slot then ox.next else level.head,
        if level.tail = some slot then ox.prev else level.tail,
        level.cached_size - ox.order.size, level.cached_count - 1⟩,
        l1 ++ l2, ?_, ?_, hs2mem⟩
      · rw [hword, hkeyp, hkeys, sideMap_setSide_same, if_neg hif,
          lookupA_insertA_self]
      · rw [hword, hkeyp, hkeys]
        exact hlc2 hlexne
    · refine ⟨lv3, l3x, ?_, ?_, hmem3x⟩
      · rw [hword]
        by_cases hsd3 : w0.order.otype.side = ox.order.otype.side
        · rw [hsd3, sideMap_setSide_same]
          have hpne : w0.order.price ≠ ox.order.price :=
            fun h => hkey ⟨h, hsd3⟩
          by_cases hif : (⟨if level.head = some slot then ox.next else level.head,
              if level.tail = some slot then ox.prev else level.tail,
              level.cached_size - ox.order.size,
              level.cached_count - 1⟩ : BookLevel).isEmptyB = true
          · rw [if_pos hif, lookupA_eraseA_ne _ hpne,
              lookupA_insertA_ne _ _ hpne, ← hsd3]
            exact hlv3
          · rw [if_neg hif, lookupA_insertA_ne _ _ hpne, ← hsd3]
            exact hlv3
        · rw [sideMap_setSide_ne _ _ hsd3]
          exact hlv3
      · rw [hword]
        exact hOther (fun hc => hkey ⟨hc.1.symm, hc.2.symm⟩) hlc3x

/-- `remove_order_by_id` preserves well-formedness. -/
theorem bookWf_removeOrderById {b : L2Book} (wf : BookWf b) {oid : Nat}
    {b2 : L2Book} {ord : Order}
    (hok : b.removeOrderById oid = .ok (b2, ord)) : BookWf b2 := by
  simp only [L2Book.removeOrderById] at hok
  split at hok
  · exact Except.noConfusion hok
  next slot hidx =>
  split at hok
  · exact Except.noConfusion hok
  next l3 harena =>
  rcases wf.covers slot l3 harena with ⟨level, l, hlev, _, _⟩
  rw [sideMap_set_index, hlev] at hok
  have hvacP : ∀ {z : Nat}, l3.prev = none → ¬ l3.prev = some z := by
    intro z h h2
    rw [h] at h2
    exact Option.noConfusion h2
  have hvacN : ∀ {z : Nat}, l3.next = none → ¬ l3.next = some z := by
    intro z h h2
    rw [h] at h2
    exact Option.noConfusion h2
  cases hpO : l3.prev with
  | none =>
    rw [hpO] at hok
    cases hnO : l3.next with
    | none =>
      rw [hnO] at hok
      dsimp only at hok
      injection Except.ok.inj hok with hb2 hord
      subst hb2
      have haux := bookWf_remove_aux wf hidx harena hlev
        (fun u _ _ => rfl)
        (fun p po hp _ _ => absurd hp (hvacP hpO))
        (fun n no hn _ _ => absurd hn (hvacN hnO))
        (fun u w hw => ⟨w, hw, rfl⟩) wf.ordersND
      rw [hpO, hnO] at haux
      exact haux
    | some n =>
      rw [hnO] at hok
      dsimp only at hok
      cases hno2 : lookupA n b.orders with
      | none =>
        rw [hno2] at hok
        dsimp only at hok
        injection Except.ok.inj hok with hb2 hord
        subst hb2
        have haux := bookWf_remove_aux wf hidx harena hlev
          (fun u _ _ => rfl)
          (fun p po hp _ _ => absurd hp (hvacP hpO))
          (fun n2 no hn _ hno => by
            rw [Option.some.inj (hnO.symm.trans hn)] at hno2
            rw [hno2] at hno
            exact Option.noConfusion hno)
          (fun u w hw => ⟨w, hw, rfl⟩) wf.ordersND
        rw [hpO, hnO] at haux
        exact haux
      | some no =>
        rw [hno2] at hok
        dsimp only at hok
        injection Except.ok.inj hok with hb2 hord
        subst hb2
        have haux := bookWf_remove_aux wf hidx harena hlev
          (fun u _ h2 => lookupA_insertA_ne _ _
            (fun h => h2 (by rw [hnO, h])))
          (fun p po hp _ _ => absurd hp (hvacP hpO))
          (fun n2 no2 hn _ hno => by
            have hn2 : n = n2 := Option.some.inj (hnO.symm.trans hn)
            subst hn2
            rw [lookupA_insertA_self, hpO,
              Option.some.inj (hno.symm.trans hno2)])
          (fun u w hw => by
            rcases lookupA_insertA_cases hw with ⟨rfl, rfl⟩ | ⟨_, h2⟩
            · exact ⟨no, hno2, rfl⟩
            · exact ⟨w, h2, rfl⟩)
          (keysND_insertA _ _ wf.ordersND)
        rw [hpO, hnO] at haux
        exact haux
  | some p =>
    rw [hpO] at hok
    dsimp only at hok
    cases hpo2 : lookupA p b.orders with
    | none =>
      rw [hpo2] at hok
      dsimp only at hok
      have hbpV : ∀ p2 po, l3.prev = some p2 → ¬ l3.next = some p2 →
          lookupA p2 b.orders = some po →
          lookupA p2 b.orders = some { po with next := l3.next } := by
        intro p2 po hp _ hpo
        rw [← Option.some.inj (hpO.symm.trans hp)] at hpo
        rw [hpo2] at hpo
        exact Option.noConfusion hpo
      cases hnO : l3.next with
      | none =>
        rw [hnO] at hok
        dsimp only at hok
        injection Except.ok.inj hok with hb2 hord
        subst hb2
        have haux := bookWf_remove_aux wf hidx harena hlev
          (fun u _ _ => rfl) hbpV
          (fun n no hn _ _ => absurd hn (hvacN hnO))
          (fun u w hw => ⟨w, hw, rfl⟩) wf.ordersND
        rw [hpO, hnO] at haux
        exact haux
      | some n =>
        rw [hnO] at hok
        dsimp only at hok
        cases hno2 : lookupA n b.orders with
        | none =>
          rw [hno2] at hok
          dsimp only at hok
          injection Except.ok.inj hok with hb2 hord
          subst hb2
          have haux := bookWf_remove_aux wf hidx harena hlev
            (fun u _ _ => rfl) hbpV
            (fun n2 no hn _ hno => by
              rw [Option.some.inj (hnO.symm.trans hn)] at hno2
              rw [hno2] at hno
              exact Option.noConfusion hno)
            (fun u w hw => ⟨w, hw, rfl⟩) wf.ordersND
          rw [hpO, hnO] at haux
          exact haux
        | some no =>
          rw [hno2] at hok
          dsimp only at hok
          injection Except.ok.inj hok with hb2 hord
          subst hb2
          have haux := bookWf_remove_aux wf hidx harena hlev
            (fun u _ h2 => lookupA_insertA_ne _ _
              (fun h => h2 (by rw [hnO, h])))
            (fun p2 po hp hg hpo => by
              rw [← Option.some.inj (hpO.symm.trans hp)] at hpo
              rw [hpo2] at hpo
              exact Option.noConfusion hpo)
            (fun n2 no2 hn _ hno => by
              have hn2 : n = n2 := Option.some.inj (hnO.symm.trans hn)
              subst hn2
              rw [lookupA_insertA_self, hpO,
                Option.some.inj (hno.symm.trans hno2)])
            (fun u w hw => by
              rcases lookupA_insertA_cases hw with ⟨rfl, rfl⟩ | ⟨_, h2⟩
              · exact ⟨no, hno2, rfl⟩
              · exact ⟨w, h2, rfl⟩)
            (keysND_insertA _ _ wf.ordersND)
          rw [hpO, hnO] at haux
          exact haux
    | some po =>
      rw [hpo2] at hok
      dsimp only at hok
      cases hnO : l3.next with
      | none =>
        rw [hnO] at hok
        dsimp only at hok
        injection Except.ok.inj hok with hb2 hord
        subst hb2
        have haux := bookWf_remove_aux wf hidx harena hlev
          (fun u h1 _ => lookupA_insertA_ne _ _
            (fun h => h1 (by rw [hpO, h])))
          (fun p2 po2 hp _ hpo => by
            have hp2 : p = p2 := Option.some.inj (hpO.symm.trans hp)
            subst hp2
            rw [lookupA_insertA_self, hnO,
              Option.some.inj (hpo.symm.trans hpo2)])
          (fun n no hn _ _ => absurd hn (hvacN hnO))
          (fun u w hw => by
            rcases lookupA_insertA_cases hw with ⟨rfl, rfl⟩ | ⟨_, h2⟩
            · exact ⟨po, hpo2, rfl⟩
            · exact ⟨w, h2, rfl⟩)
          (keysND_insertA _ _ wf.ordersND)
        rw [hpO, hnO] at haux
        exact haux
      | some n =>
        rw [hnO] at hok
        dsimp only at hok
        cases hno2 : lookupA n (insertA p { po with next := some n } b.orders) with
        | none =>
          rw [hno2] at hok
          dsimp only at hok
          injection Except.ok.inj hok with hb2 hord
          subst hb2
          have haux := bookWf_remove_aux wf hidx harena hlev
            (fun u h1 _ => lookupA_insertA_ne _ _
              (fun h => h1 (by rw [hpO, h])))
            (fun p2 po2 hp _ hpo => by
              have hp2 : p = p2 := Option.some.inj (hpO.symm.trans hp)
              subst hp2
              rw [lookupA_insertA_self, hnO,
                Option.some.inj (hpo.symm.trans hpo2)])
            (fun n2 no hn hg hno => by
              have hn2 : n = n2 := Option.some.inj (hnO.symm.trans hn)
              have hnp : n ≠ p := by
                rw [hn2]
                intro h
                exact hg (by rw [hpO, h])
              rw [← hn2] at hno
              rw [lookupA_insertA_ne _ _ hnp, hno] at hno2
              exact Option.noConfusion hno2)
            (fun u w hw => by
              rcases lookupA_insertA_cases hw with ⟨rfl, rfl⟩ | ⟨_, h2⟩
              · exact ⟨po, hpo2, rfl⟩
              · exact ⟨w, h2, rfl⟩)
            (keysND_insertA _ _ wf.ordersND)
          rw [hpO, hnO] at haux
          exact haux
        | some no =>
          rw [hno2] at hok
          dsimp only at hok
          injection Except.ok.inj hok with hb2 hord
          subst hb2
          have haA : ∀ u, l3.prev ≠ some u → l3.next ≠ some u →
              lookupA u (insertA n { no with prev := some p }
                (insertA p { po with next := some n } b.orders)) =
              lookupA u b.orders := fun u h1 h2 =>
            (lookupA_insertA_ne _ _ (fun h => h2 (by rw [hnO, h]))).trans
              (lookupA_insertA_ne _ _ (fun h => h1 (by rw [hpO, h])))
          have haux := bookWf_remove_aux wf hidx harena hlev haA
            (fun p2 po2 hp hg hpo => by
              have hp2 : p = p2 := Option.some.inj (hpO.symm.trans hp)
              subst hp2
              have hpn : p ≠ n := fun h => hg (by rw [hnO, ← h])
              have hpoeq : po2 = po := Option.some.inj (hpo.symm.trans hpo2)
              rw [hpoeq, hnO]
              rw [lookupA_insertA_ne _ _ hpn]
              rw [lookupA_insertA_self]
            )
            (fun n2 no2 hn hg hno => by
              have hn2 : n = n2 := Option.some.inj (hnO.symm.trans hn)
              subst hn2
              have hnp : n ≠ p := fun h => hg (by rw [hpO, ← h])
              have hnoeq2 : no2 = no := by
                have hx : lookupA n b.orders = some no := by
                  rw [lookupA_insertA_ne _ _ hnp] at hno2
                  exact hno2
                exact Option.some.inj (hno.symm.trans hx)
              rw [hnoeq2, hpO]
              rw [lookupA_insertA_self]
            )
            (fun u w hw => by
              rcases lookupA_insertA_cases hw with ⟨rfl, rfl⟩ | ⟨hune, h2⟩
              · rcases lookupA_insertA_cases hno2 with ⟨he, rfl⟩ | ⟨_, h3⟩
                · exact ⟨po, by rw [he]; exact hpo2, rfl⟩
                · exact ⟨no, h3, rfl⟩
              · rcases lookupA_insertA_cases h2 with ⟨rfl, rfl⟩ | ⟨_, h3⟩
                · exact ⟨po, hpo2, rfl⟩
                · exact ⟨w, h3, rfl⟩)
            (keysND_insertA _ _ (keysND_insertA _ _ wf.ordersND))
          rw [hpO, hnO] at haux
          exact haux

/-- Core of the relink branch of `move_to_back`: the order is excised from
the middle of its chain (neighbour patches abstracted as in
`bookWf_remove_aux`), then re-appended at the tail with refreshed data. -/
theorem bookWf_move_aux {b : L2Book} (wf : BookWf b) {o : Order} {slot : Nat}
    {l3 : L3Order} {O2 : List (Nat × L3Order)} {level : BookLevel} {t : Nat}
    {told : L3Order}
    (hidx : lookupA o.order_id b.order_index = some slot)
    (harena : lookupA slot b.orders = some l3)
    (hkp : o.price = l3.order.price) (hks : o.otype.side = l3.order.otype.side)
    (hlev : lookupA l3.order.price (b.sideMap l3.order.otype.side) = some level)
    (hcond : level.tail ≠ some slot)
    (ha : ∀ u, l3.prev ≠ some u → l3.next ≠ some u →
      lookupA u O2 = lookupA u b.orders)
    (hbp : ∀ p po, l3.prev = some p → l3.next ≠ some p →
      lookupA p b.orders = some po →
      lookupA p O2 = some { po with next := l3.next })
    (hcn : ∀ n no, l3.next = some n → l3.prev ≠ some n →
      lookupA n b.orders = some no →
      lookupA n O2 = some { no with prev := l3.prev })
    (hd : ∀ u w, lookupA u O2 = some w →
      ∃ w0, lookupA u b.orders = some w0 ∧ w.order = w0.order)
    (hknd : keysND O2)
    (htlev : level.tail = some t)
    (htold : lookupA t O2 = some told) :
    BookWf (({ b with
        orders := insertA slot ⟨o, some t, none⟩
          (insertA t { told with next := some slot } O2) } : L2Book).setSide
      l3.order.otype.side
      (insertA l3.order.price
        ⟨(if level.head = some slot then { level with head := l3.next }
          else level).head,
         some slot,
         (if level.head = some slot then { level with head := l3.next }
          else level).cached_size - l3.order.size + o.size,
         (if level.head = some slot then { level with head := l3.next }
          else level).cached_count⟩
        (b.sideMap l3.order.otype.side))) := by
  have hoid : l3.order.order_id = o.order_id := by
    obtain ⟨l3x, harx, hx⟩ := wf.index_to_orders o.order_id slot hidx
    rw [Option.some.inj (harx.symm.trans harena)] at hx
    exact hx
  rcases wf.covers slot l3 harena with ⟨levelc, lc, hlevc, hlcc, hmemc⟩
  have hlevid : level = levelc := Option.some.inj (hlev.symm.trans hlevc)
  subst hlevid
  obtain ⟨l1, l2, hl⟩ := List.append_of_mem hmemc
  subst hl
  obtain ⟨hlne, hch, hhd, htl, hsz, hct⟩ := hlcc
  have hnd : (l1 ++ slot :: l2).Nodup :=
    levelChain_nodup ⟨hlne, hch, hhd, htl, hsz, hct⟩
  obtain ⟨hnd1, hnd2c, hdisj⟩ := List.nodup_append.mp hnd
  have hslot_l2 : slot ∉ l2 := (List.nodup_cons.mp hnd2c).1
  have hnd2 : l2.Nodup := (List.nodup_cons.mp hnd2c).2
  have hslot_l1 : slot ∉ l1 := fun h => hdisj h (by simp)
  have hdisj12 : ∀ x ∈ l1, x ∉ l2 := fun x hx hx2 => hdisj hx (by simp [hx2])
  have hndlex : (l1 ++ l2).Nodup := by
    rw [List.nodup_append]
    exact ⟨hnd1, hnd2, fun x hx hx2 => hdisj12 x hx hx2⟩
  obtain ⟨ox, hox, hoxp, hoxn, _, _⟩ := chainOk_decomp l1 hch
  have hoxl3 : ox = l3 := Option.some.inj (hox.symm.trans harena)
  subst hoxl3
  have hprevE : ox.prev = l1.getLast? := by
    rw [hoxp]
    cases l1.getLast? <;> rfl
  have hnextE : ox.next = l2.head? := hoxn
  have hl2ne : l2 ≠ [] := by
    intro h
    subst h
    rw [htl, List.getLast?_concat l1] at hcond
    exact hcond rfl
  have hlexne : l1 ++ l2 ≠ [] := by
    intro h
    exact hl2ne (List.append_eq_nil.mp h).2
  have hgl2 : l2.getLast? = some t := by
    rw [htl, List.getLast?_append_of_ne_nil _ (by simp)] at htlev
    cases l2 with
    | nil => exact absurd rfl hl2ne
    | cons y l2' =>
      rw [List.getLast?_cons_cons] at htlev
      rw [htlev]
  have htmem2 : t ∈ l2 := mem_of_getLastQ hgl2
  have htslot : t ≠ slot := by
    intro h
    rw [← h] at hcond
    exact hcond htlev
  have hglex : (l1 ++ l2).getLast? = some t := by
    rw [List.getLast?_append_of_ne_nil _ hl2ne]
    exact hgl2
  have hmem_entry : ∀ u ∈ l1 ++ slot :: l2, ∃ ou, lookupA u b.orders = some ou ∧
      ou.order.price = ox.order.price ∧
      ou.order.otype.side = ox.order.otype.side :=
    fun u hu => chainOk_mem hch hu
  have hprev_not_next : ∀ v, ox.prev = some v → ox.next ≠ some v := by
    intro v hv hnv
    rw [hprevE] at hv
    rw [hnextE] at hnv
    have hv1 : v ∈ l1 := mem_of_getLastQ hv
    have hv2 : v ∈ l2 := by
      cases l2 with
      | nil => exact Option.noConfusion hnv
      | cons y l2' => simp at hnv; simp [hnv]
    exact hdisj12 v hv1 hv2
  have hnext_not_prev : ∀ v, ox.next = some v → ox.prev ≠ some v := by
    intro v hv hpv
    exact hprev_not_next v hpv hv
  have hprev_mem : ∀ v, ox.prev = some v → v ∈ l1 := by
    intro v hv
    rw [hprevE] at hv
    exact mem_of_getLastQ hv
  have hnext_mem : ∀ v, ox.next = some v → v ∈ l2 := by
    intro v hv
    rw [hnextE] at hv
    cases l2 with
    | nil => exact Option.noConfusion hv
    | cons y l2' => simp at hv; simp [hv]
  have hmemlex_ne_slot : ∀ u ∈ l1 ++ l2, u ≠ slot := by
    intro u hu h
    rcases List.mem_append.mp hu with h2 | h2
    · exact hslot_l1 (h ▸ h2)
    · exact hslot_l2 (h ▸ h2)
  have hexcise : chainOk O2 ox.order.price ox.order.otype.side none (l1 ++ l2) := by
    refine chainOk_excise l1 hch hnd ?_ ?_ ?_
    · intro u hu h1 h2
      refine ha u ?_ ?_
      · rw [hprevE]; exact h1
      · rw [hnextE]; exact h2
    · intro v hv ov hov
      have hpv : ox.prev = some v := by rw [hprevE, hv]
      have := hbp v ov hpv (hprev_not_next v hpv) hov
      rw [hnextE] at this
      exact this
    · intro y hy oy hoy
      have hny : ox.next = some y := by rw [hnextE, hy]
      have := hcn y oy hny (hnext_not_prev y hny) hoy
      rw [hprevE] at this
      rw [this]
      cases hgl : l1.getLast? <;> rw [hgl] at hprevE <;> rw [hprevE]
  obtain ⟨told0, htold0b, htord⟩ := hd t told htold
  have htO4 : lookupA t (insertA slot (⟨o, some t, none⟩ : L3Order)
      (insertA t { told with next := some slot } O2)) =
      some { told with next := some slot } :=
    (lookupA_insertA_ne _ _ htslot).trans (lookupA_insertA_self _ _ _)
  have hslotO4 : lookupA slot (insertA slot (⟨o, some t, none⟩ : L3Order)
      (insertA t { told with next := some slot } O2)) =
      some ⟨o, some t, none⟩ := lookupA_insertA_self _ _ _
  have hsameO4 : ∀ u, u ≠ slot → u ≠ t →
      lookupA u (insertA slot (⟨o, some t, none⟩ : L3Order)
        (insertA t { told with next := some slot } O2)) = lookupA u O2 :=
    fun u hus hut =>
      (lookupA_insertA_ne _ _ hus).trans (lookupA_insertA_ne _ _ hut)
  have hsnoc : chainOk (insertA slot (⟨o, some t, none⟩ : L3Order)
      (insertA t { told with next := some slot } O2))
      ox.order.price ox.order.otype.side none ((l1 ++ l2) ++ [slot]) := by
    refine chainOk_snoc hslotO4 rfl rfl hkp hks ?_ hexcise hglex hndlex
      (fun h => hmemlex_ne_slot slot h rfl) ?_
    · intro ot hot
      rw [Option.some.inj (hot.symm.trans htold)]
      exact htO4
    · intro u hu hut
      exact hsameO4 u (hmemlex_ne_slot u hu) hut
  have hl1nil : level.head = some slot → l1 = [] := by
    intro hcase
    cases hl0 : l1 with
    | nil => rfl
    | cons a l1' =>
      exfalso
      rw [hl0] at hhd
      have hha : level.head = some a := by simpa using hhd
      have has : a = slot := Option.some.inj (hha.symm.trans hcase)
      exact hslot_l1 (by rw [hl0, has]; exact List.mem_cons_self _ _)
  have hhd4 : (if level.head = some slot then { level with head := ox.next }
      else level).head = ((l1 ++ l2) ++ [slot]).head? := by
    by_cases hcase : level.head = some slot
    · rw [if_pos hcase]
      have hl1 : l1 = [] := hl1nil hcase
      subst hl1
      show ox.next = ((l2 : List Nat) ++ [slot]).head?
      rw [hnextE]
      cases l2 with
      | nil => exact absurd rfl hl2ne
      | cons y l2' => rfl
    · rw [if_neg hcase]
      cases hl0 : l1 with
      | nil =>
        subst hl0
        exact absurd (by simpa using hhd) hcase
      | cons a l1' =>
        subst hl0
        have hha : level.head = some a := by simpa using hhd
        rw [hha]
        rfl
  have hsizeO2 : ∀ u ∈ l1 ++ l2,
      ((lookupA u O2).map (fun w => w.order.size)).getD 0 =
      ((lookupA u b.orders).map (fun w => w.order.size)).getD 0 := by
    intro u hu
    have humem : u ∈ l1 ++ slot :: l2 := by
      rcases List.mem_append.mp hu with h | h
      · exact List.mem_append_left _ h
      · exact List.mem_append_right _ (List.mem_cons_of_mem _ h)
    rcases hmem_entry u humem with ⟨ou, hou, _, _⟩
    by_cases hpu : ox.prev = some u
    · rw [hbp u ou hpu (hprev_not_next u hpu) hou, hou]
      rfl
    · by_cases hnu : ox.next = some u
      · rw [hcn u ou hnu (hnext_not_prev u hnu) hou, hou]
        rfl
      · rw [ha u hpu hnu]
  have hsz4 : chainSizes (insertA slot (⟨o, some t, none⟩ : L3Order)
      (insertA t { told with next := some slot } O2)) ((l1 ++ l2) ++ [slot]) =
      (chainSizes b.orders l1 + chainSizes b.orders l2) + o.size := by
    rw [chainSizes_append]
    have h1 : chainSizes (insertA slot (⟨o, some t, none⟩ : L3Order)
        (insertA t { told with next := some slot } O2)) (l1 ++ l2) =
        chainSizes b.orders l1 + chainSizes b.orders l2 := by
      rw [← chainSizes_append]
      refine chainSizes_congr_size (fun u hu => ?_)
      by_cases hut : u = t
      · rw [hut, htO4, htold0b]
        simp only [Option.map_some', Option.getD_some]
        show told.order.size = told0.order.size
        rw [htord]
      · rw [hsameO4 u (hmemlex_ne_slot u hu) hut]
        exact hsizeO2 u hu
    rw [h1, chainSizes_cons, chainSizes_nil, hslotO4]
    simp only [Option.map_some', Option.getD_some]
    ring
  have hszlevel : level.cached_size =
      chainSizes b.orders l1 + (ox.order.size + chainSizes b.orders l2) := by
    rw [hsz, chainSizes_append, chainSizes_cons, harena]
    simp only [Option.map_some', Option.getD_some]
  have hifsz : (if level.head = some slot then { level with head := ox.next }
      else level).cached_size = level.cached_size := by
    split <;> rfl
  have hifct : (if level.head = some slot then { level with head := ox.next }
      else level).cached_count = level.cached_count := by
    split <;> rfl
  have hlc4 : levelChain (insertA slot (⟨o, some t, none⟩ : L3Order)
      (insertA t { told with next := some slot } O2))
      ox.order.price ox.order.otype.side
      ⟨(if level.head = some slot then { level with head := ox.next }
        else level).head, some slot,
       (if level.head = some slot then { level with head := ox.next }
        else level).cached_size - ox.order.size + o.size,
       (if level.head = some slot then { level with head := ox.next }
        else level).cached_count⟩ ((l1 ++ l2) ++ [slot]) := by
    refine ⟨by simp, hsnoc, hhd4, (List.getLast?_concat _).symm, ?_, ?_⟩
    · dsimp only
      rw [hifsz, hszlevel, hsz4]
      ring
    · dsimp only
      rw [hifct, hct]
      simp only [List.length_append, List.length_cons, List.length_nil]
      omega
  have hOther : ∀ {p2 : Rat} {sd2 : OrderSide} {lv : BookLevel} {l2x : List Nat},
      ¬ (ox.order.price = p2 ∧ ox.order.otype.side = sd2) →
      levelChain b.orders p2 sd2 lv l2x →
      levelChain (insertA slot (⟨o, some t, none⟩ : L3Order)
        (insertA t { told with next := some slot } O2)) p2 sd2 lv l2x := by
    intro p2 sd2 lv l2x hne hlcx
    have hnms : slot ∉ l2x := chain_not_mem_of_entry hlcx.2.1 harena hne
    have hnmt : t ∉ l2x := by
      refine chain_not_mem_of_entry hlcx.2.1 htold0b ?_
      rcases hmem_entry t (List.mem_append_right _ (List.mem_cons_of_mem _ htmem2))
        with ⟨ou, hou, hup, hus⟩
      have : ou = told0 := Option.some.inj (hou.symm.trans htold0b)
      subst this
      exact fun hc => hne ⟨hup.symm.trans hc.1, hus.symm.trans hc.2⟩
    refine levelChain_congr (fun u hu => ?_) hlcx
    rcases chainOk_mem hlcx.2.1 hu with ⟨ou, hou, hup, hus⟩
    have hnp : ox.prev ≠ some u := by
      intro h
      have hu1 : u ∈ l1 := hprev_mem u h
      rcases hmem_entry u (by simp [hu1]) with ⟨ou2, hou2, hup2, hus2⟩
      have : ou2 = ou := Option.some.inj (hou2.symm.trans hou)
      subst this
      exact hne ⟨hup2.symm.trans hup, hus2.symm.trans hus⟩
    have hnn : ox.next ≠ some u := by
      intro h
      have hu2 : u ∈ l2 := hnext_mem u h
      rcases hmem_entry u (by simp [hu2]) with ⟨ou2, hou2, hup2, hus2⟩
      have : ou2 = ou := Option.some.inj (hou2.symm.trans hou)
      subst this
      exact hne ⟨hup2.symm.trans hup, hus2.symm.trans hus⟩
    rw [hsameO4 u (fun h => hnms (by rw [← h]; exact hu))
      (fun h => hnmt (by rw [← h]; exact hu))]
    exact ha u hnp hnn
  have hlookO2 : ∀ u ou, lookupA u b.orders = some ou →
      ∃ w, lookupA u O2 = some w ∧ w.order = ou.order := by
    intro u ou hou
    by_cases hp2 : ox.prev = some u
    · exact ⟨{ ou with next := ox.next },
        hbp u ou hp2 (hprev_not_next u hp2) hou, rfl⟩
    · by_cases hn2 : ox.next = some u
      · exact ⟨{ ou with prev := ox.prev },
          hcn u ou hn2 (hnext_not_prev u hn2) hou, rfl⟩
      · exact ⟨ou, (ha u hp2 hn2).trans hou, rfl⟩
  constructor
  · rw [setSide_orders]
    exact keysND_insertA _ _ (keysND_insertA _ _ hknd)
  · rw [setSide_order_index]
    exact wf.indexND
  · cases hsd : ox.order.otype.side
    · exact keysND_insertA _ _ wf.asksND
    · exact wf.asksND
  · cases hsd : ox.order.otype.side
    · exact wf.bidsND
    · exact keysND_insertA _ _ wf.bidsND
  · intro s2 os2 hs2
    rw [setSide_orders] at hs2
    rw [setSide_next_slot]
    rcases lookupA_insertA_cases hs2 with ⟨rfl, _⟩ | ⟨_, h2⟩
    · exact wf.slots_lt _ _ harena
    · rcases lookupA_insertA_cases h2 with ⟨rfl, _⟩ | ⟨_, h3⟩
      · exact wf.slots_lt _ _ htold0b
      · rcases hd _ _ h3 with ⟨w0, hw0, _⟩
        exact wf.slots_lt _ _ hw0
  · intro id2 s2 hs2
    rw [setSide_order_index] at hs2
    rw [setSide_orders]
    rcases wf.index_to_orders id2 s2 hs2 with ⟨l3s, hl3s, hids⟩
    by_cases hs2s : s2 = slot
    · refine ⟨⟨o, some t, none⟩, by rw [hs2s]; exact hslotO4, ?_⟩
      have hl3l3 : l3s = ox := by
        rw [hs2s] at hl3s
        exact Option.some.inj (hl3s.symm.trans harena)
      rw [hl3l3] at hids
      exact hoid.symm.trans hids
    · by_cases hs2t : s2 = t
      · refine ⟨{ told with next := some slot }, by rw [hs2t]; exact htO4, ?_⟩
        have hl3t : l3s = told0 := by
          rw [hs2t] at hl3s
          exact Option.some.inj (hl3s.symm.trans htold0b)
        rw [hl3t] at hids
        show told.order.order_id = id2
        rw [htord]
        exact hids
      · rcases hlookO2 s2 l3s hl3s with ⟨w, hwO, hword⟩
        refine ⟨w, ?_, ?_⟩
        · rw [hsameO4 s2 hs2s hs2t]
          exact hwO
        · rw [hword]
          exact hids
  · intro s2 w hs2
    rw [setSide_orders] at hs2
    rw [setSide_order_index]
    rcases lookupA_insertA_cases hs2 with ⟨rfl, rfl⟩ | ⟨hs2s, h2⟩
    · exact hidx
    · rcases lookupA_insertA_cases h2 with ⟨heq2, rfl⟩ | ⟨hs2t, h3⟩
      · have hx := wf.orders_to_index _ _ htold0b
        show lookupA told.order.order_id b.order_index = some s2
        rw [htord, heq2]
        exact hx
      · rcases hd _ _ h3 with ⟨w0, hw0, hword⟩
        rw [hword]
        exact wf.orders_to_index _ _ hw0
  · intro sd2 p2 lv hlv
    rw [setSide_orders]
    by_cases hsd2 : sd2 = ox.order.otype.side
    · subst hsd2
      rw [sideMap_setSide_same] at hlv
      rcases lookupA_insertA_cases hlv with ⟨rfl, rfl⟩ | ⟨hne2, h2⟩
      · exact ⟨(l1 ++ l2) ++ [slot], hlc4⟩
      · rcases wf.levels _ p2 lv h2 with ⟨l2x, hlcx⟩
        exact ⟨l2x, hOther (fun hc => hne2 hc.1.symm) hlcx⟩
    · rw [sideMap_setSide_ne _ _ hsd2] at hlv
      rcases wf.levels sd2 p2 lv hlv with ⟨l2x, hlcx⟩
      exact ⟨l2x, hOther (fun hc => hsd2 hc.2.symm) hlcx⟩
  · intro s2 w hs2
    rw [setSide_orders] at hs2
    rw [setSide_orders]
    rcases lookupA_insertA_cases hs2 with ⟨heqs, rfl⟩ | ⟨hs2s, h2⟩
    · dsimp only
      refine ⟨⟨(if level.head = some slot then { level with head := ox.next }
          else level).head, some slot,
         (if level.head = some slot then { level with head := ox.next }
          else level).cached_size - ox.order.size + o.size,
         (if level.head = some slot then { level with head := ox.next }
          else level).cached_count⟩, (l1 ++ l2) ++ [slot], ?_, ?_,
         by rw [heqs]; simp⟩
      · rw [hkp, hks, sideMap_setSide_same, lookupA_insertA_self]
      · rw [hkp, hks]
        exact hlc4
    · rcases lookupA_insertA_cases h2 with ⟨heqt, rfl⟩ | ⟨hs2t, h3⟩
      · rcases hmem_entry t
          (List.mem_append_right _ (List.mem_cons_of_mem _ htmem2))
          with ⟨ou, hou, hup, hus⟩
        have houtold : ou = told0 := Option.some.inj (hou.symm.trans htold0b)
        subst houtold
        have hwp : ({ told with next := some slot } : L3Order).order.price =
            ox.order.price := by
          show told.order.price = ox.order.price
          rw [htord]
          exact hup
        have hws : ({ told with next := some slot } : L3Order).order.otype.side =
            ox.order.otype.side := by
          show told.order.otype.side = ox.order.otype.side
          rw [htord]
          exact hus
        refine ⟨⟨(if level.head = some slot then { level with head := ox.next }
            else level).head, some slot,
           (if level.head = some slot then { level with head := ox.next }
            else level).cached_size - ox.order.size + o.size,
           (if level.head = some slot then { level with head := ox.next }
            else level).cached_count⟩, (l1 ++ l2) ++ [slot], ?_, ?_, ?_⟩
        · rw [hwp, hws, sideMap_setSide_same, lookupA_insertA_self]
        · rw [hwp, hws]
          exact hlc4
        · rw [heqt]
          exact List.mem_append_left _ (List.mem_append_right _ htmem2)
      · rcases hd _ _ h3 with ⟨w0, hw0, hword⟩
        rcases wf.covers s2 w0 hw0 with ⟨lv3, l3x, hlv3, hlc3x, hmem3x⟩
        by_cases hkey : w0.order.price = ox.order.price ∧
            w0.order.otype.side = ox.order.otype.side
        · obtain ⟨hkeyp, hkeys⟩ := hkey
          rw [hkeyp, hkeys] at hlv3 hlc3x
          have hlvl : level = lv3 := Option.some.inj (hlev.symm.trans hlv3)
          subst hlvl
          have hl3x : l1 ++ slot :: l2 = l3x :=
            levelChain_unique ⟨hlne, hch, hhd, htl, hsz, hct⟩ hlc3x
          have hs2mem : s2 ∈ (l1 ++ l2) ++ [slot] := by
            have : s2 ∈ l1 ++ slot :: l2 := by rw [hl3x]; exact hmem3x
            rcases List.mem_append.mp this with h | h
            · exact List.mem_append_left _ (List.mem_append_left _ h)
            · rcases List.mem_cons.mp h with h2 | h2
              · exact absurd h2 hs2s
              · exact List.mem_append_left _ (List.mem_append_right _ h2)
          refine ⟨⟨(if level.head = some slot then { level with head := ox.next }
              else level).head, some slot,
             (if level.head = some slot then { level with head := ox.next }
              else level).cached_size - ox.order.size + o.size,
             (if level.head = some slot then { level with head := ox.next }
              else level).cached_count⟩, (l1 ++ l2) ++ [slot], ?_, ?_, hs2mem⟩
          · rw [hword, hkeyp, hkeys, sideMap_setSide_same, lookupA_insertA_self]
          · rw [hword, hkeyp, hkeys]
            exact hlc4
        · refine ⟨lv3, l3x, ?_, ?_, hmem3x⟩
          · rw [hword]
            by_cases hsd3 : w0.order.otype.side = ox.order.otype.side
            · rw [hsd3, sideMap_setSide_same]
              have hpne : w0.order.price ≠ ox.order.price :=
                fun h => hkey ⟨h, hsd3⟩
              rw [lookupA_insertA_ne _ _ hpne, ← hsd3]
              exact hlv3
            · rw [sideMap_setSide_ne _ _ hsd3]
              exact hlv3
          · rw [hword]
            exact hOther (fun hc => hkey ⟨hc.1.symm, hc.2.symm⟩) hlc3x

/-- `move_to_back` preserves well-formedness when the incoming order data
keeps the stored order's price and side. -/
theorem bookWf_moveToBack {b : L2Book} (wf : BookWf b) {o : Order}
    {b2 : L2Book} (hok : b.moveToBack o = .ok b2)
    (hkeep : ∀ slot l3, lookupA o.order_id b.order_index = some slot →
      lookupA slot b.orders = some l3 →
      o.price = l3.order.price ∧ o.otype.side = l3.order.otype.side) :
    BookWf b2 := by
  simp only [L2Book.moveToBack] at hok
  split at hok
  · exact Except.noConfusion hok
  next slot hidx =>
  split at hok
  · exact Except.noConfusion hok
  next l3 harena =>
  obtain ⟨hkp, hks⟩ := hkeep slot l3 hidx harena
  rcases wf.covers slot l3 harena with ⟨level, lc, hlev, hlcc, hmemc⟩
  split at hok
  case isTrue hcond =>
    rw [sideMap_set_orders] at hok
    split at hok
    case h_2 heqn =>
      rw [hlev] at heqn
      exact Option.noConfusion heqn
    next level2 hlev2 =>
    have hlev2' : level = level2 := Option.some.inj (hlev.symm.trans hlev2)
    subst hlev2'
    have hb2 := (Except.ok.inj hok).symm
    subst hb2
    rw [sideMap_set_orders]
    exact bookWf_update_core wf hidx harena hkp hks hlev2
  case isFalse hcond =>
    rw [hlev] at hok
    have hcondT : level.tail ≠ some slot := by
      intro h
      exact hcond (by rw [hlev]; simp only [Option.map_some']; rw [h])
    obtain ⟨hlne, hchc, hhdc, htlc, hszc, hctc⟩ := hlcc
    obtain ⟨t, htlev⟩ : ∃ t, level.tail = some t := by
      cases hl0 : lc with
      | nil => exact absurd hl0 hlne
      | cons a rest =>
        rw [htlc, hl0]
        exact getLastQ_cons_some a rest
    have htmeml : t ∈ lc := mem_of_getLastQ (htlc.symm.trans htlev)
    obtain ⟨told0, htold0, _, _⟩ := chainOk_mem hchc htmeml
    have htslot : t ≠ slot := by
      intro h
      rw [← h] at hcondT
      exact hcondT htlev
  -- Chain decomposition for pointer facts.
    obtain ⟨l1, l2, hl⟩ := List.append_of_mem hmemc
    subst hl
    have hnd : (l1 ++ slot :: l2).Nodup :=
      levelChain_nodup ⟨hlne, hchc, hhdc, htlc, hszc, hctc⟩
    obtain ⟨hnd1, hnd2c, hdisj⟩ := List.nodup_append.mp hnd
    have hslot_l2 : slot ∉ l2 := (List.nodup_cons.mp hnd2c).1
    have hslot_l1 : slot ∉ l1 := fun h => hdisj h (by simp)
    have hdisj12 : ∀ x ∈ l1, x ∉ l2 := fun x hx hx2 => hdisj hx (by simp [hx2])
    obtain ⟨ox, hox, hoxp, hoxn, _, _⟩ := chainOk_decomp l1 hchc
    have hoxl3 : ox = l3 := Option.some.inj (hox.symm.trans harena)
    have hprevE : l3.prev = l1.getLast? := by
      rw [← hoxl3, hoxp]
      cases l1.getLast? <;> rfl
    have hnextE : l3.next = l2.head? := by
      rw [← hoxl3]
      exact hoxn
    have hprev_mem : ∀ v, l3.prev = some v → v ∈ l1 := by
      intro v hv
      rw [hprevE] at hv
      exact mem_of_getLastQ hv
    have hnext_mem : ∀ v, l3.next = some v → v ∈ l2 := by
      intro v hv
      rw [hnextE] at hv
      cases l2 with
      | nil => exact Option.noConfusion hv
      | cons y l2' => simp at hv; simp [hv]
    have hpv_not_nv : ∀ v, l3.prev = some v → l3.next ≠ some v :=
      fun v hv hnv => hdisj12 v (hprev_mem v hv) (hnext_mem v hnv)
    have hnv_not_pv : ∀ v, l3.next = some v → l3.prev ≠ some v :=
      fun v hv hpv => hpv_not_nv v hpv hv
    have hpslot : l3.prev ≠ some slot :=
      fun h => hslot_l1 (hprev_mem slot h)
    have hnslot : l3.next ≠ some slot :=
      fun h => hslot_l2 (hnext_mem slot h)
    have hmem_arena : ∀ u ∈ l1 ++ slot :: l2,
        ∃ ou, lookupA u b.orders = some ou :=
      fun u hu => (chainOk_mem hchc hu).imp (fun _ h => h.1)
    have hvacP : ∀ {z : Nat}, l3.prev = none → ¬ l3.prev = some z := by
      intro z h h2
      rw [h] at h2
      exact Option.noConfusion h2
    have hvacN : ∀ {z : Nat}, l3.next = none → ¬ l3.next = some z := by
      intro z h h2
      rw [h] at h2
      exact Option.noConfusion h2
    cases hpO : l3.prev with
    | none =>
      rw [hpO] at hok
      cases hnO : l3.next with
      | none =>
        rw [hnO] at hok
        dsimp only at hok
        have haP : ∀ u, l3.prev ≠ some u → l3.next ≠ some u →
            lookupA u b.orders = lookupA u b.orders := fun u _ _ => rfl
        have hlookO2 : ∀ u ou, lookupA u b.orders = some ou →
            ∃ w, lookupA u b.orders = some w ∧ w.order = ou.order :=
          fun u ou hou => ⟨ou, hou, rfl⟩
        obtain ⟨told, htoldO2, _⟩ := hlookO2 t told0 htold0
        have hot : (if level.head = some slot then { level with head := l3.next }
            else level).tail = some t := by
          split <;> exact htlev
        rw [hnO] at hot
        rw [hot] at hok
        dsimp only at hok
        rw [htoldO2] at hok
        dsimp only at hok
        have hslotO3 : lookupA slot
            (insertA t { told with next := some slot } b.orders) = some l3 :=
          (lookupA_insertA_ne _ _ (Ne.symm htslot)).trans harena
        rw [hslotO3] at hok
        dsimp only at hok
        have hb2 := Except.ok.inj hok
        subst hb2
        have haux := bookWf_move_aux wf hidx harena hkp hks hlev hcondT haP
          (fun p po hp _ _ => absurd hp (hvacP hpO))
          (fun n no hn _ _ => absurd hn (hvacN hnO))
          (fun u w hw => ⟨w, hw, rfl⟩) wf.ordersND htlev htoldO2
        rw [hnO] at haux
        exact haux
      | some n =>
        rw [hnO] at hok
        dsimp only at hok
        obtain ⟨no, hno⟩ := hmem_arena n
          (List.mem_append_right _ (List.mem_cons_of_mem _ (hnext_mem n hnO)))
        rw [hno] at hok
        dsimp only at hok
        have haP : ∀ u, l3.prev ≠ some u → l3.next ≠ some u →
            lookupA u (insertA n { no with prev := none } b.orders) =
            lookupA u b.orders :=
          fun u _ h2 => lookupA_insertA_ne _ _ (fun h => h2 (by rw [hnO, h]))
        have hbpP : ∀ p po, l3.prev = some p → l3.next ≠ some p →
            lookupA p b.orders = some po →
            lookupA p (insertA n { no with prev := none } b.orders) =
            some { po with next := l3.next } :=
          fun p po hp _ _ => absurd hp (hvacP hpO)
        have hcnP : ∀ n2 no2, l3.next = some n2 → l3.prev ≠ some n2 →
            lookupA n2 b.orders = some no2 →
            lookupA n2 (insertA n { no with prev := none } b.orders) =
            some { no2 with prev := l3.prev } := by
          intro n2 no2 hn _ hno3
          have hn2 : n = n2 := Option.some.inj (hnO.symm.trans hn)
          subst hn2
          rw [lookupA_insertA_self, hpO, Option.some.inj (hno3.symm.trans hno)]
        have hdP : ∀ u w,
            lookupA u (insertA n { no with prev := none } b.orders) = some w →
            ∃ w0, lookupA u b.orders = some w0 ∧ w.order = w0.order := by
          intro u w hw
          rcases lookupA_insertA_cases hw with ⟨rfl, rfl⟩ | ⟨_, h2⟩
          · exact ⟨no, hno, rfl⟩
          · exact ⟨w, h2, rfl⟩
        have hlookO2 : ∀ u ou, lookupA u b.orders = some ou →
            ∃ w, lookupA u (insertA n { no with prev := none } b.orders) =
              some w ∧ w.order = ou.order := by
          intro u ou hou
          by_cases hn2 : l3.next = some u
          · exact ⟨{ ou with prev := l3.prev },
              hcnP u ou hn2 (hnv_not_pv u hn2) hou, rfl⟩
          · exact ⟨ou, (haP u (hvacP hpO) hn2).trans hou, rfl⟩
        obtain ⟨told, htoldO2, _⟩ := hlookO2 t told0 htold0
        have hot : (if level.head = some slot then { level with head := l3.next }
            else level).tail = some t := by
          split <;> exact htlev
        rw [hnO] at hot
        rw [hot] at hok
        dsimp only at hok
        rw [htoldO2] at hok
        dsimp only at hok
        have hslotO3 : lookupA slot (insertA t { told with next := some slot }
            (insertA n { no with prev := none } b.orders)) = some l3 :=
          (lookupA_insertA_ne _ _ (Ne.symm htslot)).trans
            ((lookupA_insertA_ne _ _ (fun h => hnslot (by rw [hnO, h]))).trans
              harena)
        rw [hslotO3] at hok
        dsimp only at hok
        have hb2 := Except.ok.inj hok
        subst hb2
        have hcnP2 : ∀ n2 no2, l3.next = some n2 → l3.prev ≠ some n2 →
            lookupA n2 b.orders = some no2 →
            lookupA n2 (insertA n { no with prev := none } b.orders) =
            some { no2 with prev := l3.prev } := hcnP
        have haux := bookWf_move_aux wf hidx harena hkp hks hlev hcondT haP
          hbpP hcnP2 hdP (keysND_insertA _ _ wf.ordersND) htlev htoldO2
        rw [hnO] at haux
        exact haux
    | some p =>
      rw [hpO] at hok
      dsimp only at hok
      obtain ⟨po, hpo⟩ := hmem_arena p
        (List.mem_append_left _ (hprev_mem p hpO))
      rw [hpo] at hok
      dsimp only at hok
      cases hnO : l3.next with
      | none =>
        rw [hnO] at hok
        dsimp only at hok
        have haP : ∀ u, l3.prev ≠ some u → l3.next ≠ some u →
            lookupA u (insertA p { po with next := none } b.orders) =
            lookupA u b.orders :=
          fun u h1 _ => lookupA_insertA_ne _ _ (fun h => h1 (by rw [hpO, h]))
        have hbpP : ∀ p2 po2, l3.prev = some p2 → l3.next ≠ some p2 →
            lookupA p2 b.orders = some po2 →
            lookupA p2 (insertA p { po with next := none } b.orders) =
            some { po2 with next := l3.next } := by
          intro p2 po2 hp _ hpo3
          have hp2 : p = p2 := Option.some.inj (hpO.symm.trans hp)
          subst hp2
          rw [lookupA_insertA_self, hnO, Option.some.inj (hpo3.symm.trans hpo)]
        have hcnP : ∀ n2 no2, l3.next = some n2 → l3.prev ≠ some n2 →
            lookupA n2 b.orders = some no2 →
            lookupA n2 (insertA p { po with next := none } b.orders) =
            some { no2 with prev := l3.prev } :=
          fun n2 no2 hn _ _ => absurd hn (hvacN hnO)
        have hdP : ∀ u w,
            lookupA u (insertA p { po with next := none } b.orders) = some w →
            ∃ w0, lookupA u b.orders = some w0 ∧ w.order = w0.order := by
          intro u w hw
          rcases lookupA_insertA_cases hw with ⟨rfl, rfl⟩ | ⟨_, h2⟩
          · exact ⟨po, hpo, rfl⟩
          · exact ⟨w, h2, rfl⟩
        have hlookO2 : ∀ u ou, lookupA u b.orders = some ou →
            ∃ w, lookupA u (insertA p { po with next := none } b.orders) =
              some w ∧ w.order = ou.order := by
          intro u ou hou
          by_cases hp2 : l3.prev = some u
          · refine ⟨{ ou with next := l3.next }, ?_, rfl⟩
            have := hbpP u ou hp2 (hpv_not_nv u hp2) hou
            rw [hnO] at this ⊢
            exact this
          · exact ⟨ou, (haP u hp2 (hvacN hnO)).trans hou, rfl⟩
        obtain ⟨told, htoldO2, _⟩ := hlookO2 t told0 htold0
        have hot : (if level.head = some slot then { level with head := l3.next }
            else level).tail = some t := by
          split <;> exact htlev
        rw [hnO] at hot
        rw [hot] at hok
        dsimp only at hok
        rw [htoldO2] at hok
        dsimp only at hok
        have hslotO3 : lookupA slot (insertA t { told with next := some slot }
            (insertA p { po with next := none } b.orders)) = some l3 :=
          (lookupA_insertA_ne _ _ (Ne.symm htslot)).trans
            ((lookupA_insertA_ne _ _ (fun h => hpslot (by rw [hpO, h]))).trans
              harena)
        rw [hslotO3] at hok
        dsimp only at hok
        have hb2 := Except.ok.inj hok
        subst hb2
        have haux := bookWf_move_aux wf hidx harena hkp hks hlev hcondT haP
          hbpP hcnP hdP (keysND_insertA _ _ wf.ordersND) htlev htoldO2
        rw [hnO] at haux
        exact haux
      | some n =>
        rw [hnO] at hok
        dsimp only at hok
        obtain ⟨no, hno⟩ := hmem_arena n
          (List.mem_append_right _ (List.mem_cons_of_mem _ (hnext_mem n hnO)))
        have hnp : n ≠ p := by
          intro h
          exact hpv_not_nv p hpO (by rw [hnO, h])
        have hno1 : lookupA n (insertA p { po with next := some n } b.orders) =
            some no := (lookupA_insertA_ne _ _ hnp).trans hno
        rw [hno1] at hok
        dsimp only at hok
        have haP : ∀ u, l3.prev ≠ some u → l3.next ≠ some u →
            lookupA u (insertA n { no with prev := some p }
              (insertA p { po with next := some n } b.orders)) =
            lookupA u b.orders :=
          fun u h1 h2 =>
            (lookupA_insertA_ne _ _ (fun h => h2 (by rw [hnO, h]))).trans
              (lookupA_insertA_ne _ _ (fun h => h1 (by rw [hpO, h])))
        have hbpP : ∀ p2 po2, l3.prev = some p2 → l3.next ≠ some p2 →
            lookupA p2 b.orders = some po2 →
            lookupA p2 (insertA n { no with prev := some p }
              (insertA p { po with next := some n } b.orders)) =
            some { po2 with next := l3.next } := by
          intro p2 po2 hp hg hpo3
          have hp2 : p = p2 := Option.some.inj (hpO.symm.trans hp)
          subst hp2
          have hpoeq : po2 = po := Option.some.inj (hpo3.symm.trans hpo)
          rw [hpoeq, hnO]
          rw [lookupA_insertA_ne _ _ (Ne.symm hnp)]
          rw [lookupA_insertA_self]
        have hcnP : ∀ n2 no2, l3.next = some n2 → l3.prev ≠ some n2 →
            lookupA n2 b.orders = some no2 →
            lookupA n2 (insertA n { no with prev := some p }
              (insertA p { po with next := some n } b.orders)) =
            some { no2 with prev := l3.prev } := by
          intro n2 no2 hn hg hno3
          have hn2 : n = n2 := Option.some.inj (hnO.symm.trans hn)
          subst hn2
          have hnoeq : no2 = no := Option.some.inj (hno3.symm.trans hno)
          rw [hnoeq, hpO]
          rw [lookupA_insertA_self]
        have hdP : ∀ u w,
            lookupA u (insertA n { no with prev := some p }
              (insertA p { po with next := some n } b.orders)) = some w →
            ∃ w0, lookupA u b.orders = some w0 ∧ w.order = w0.order := by
          intro u w hw
          rcases lookupA_insertA_cases hw with ⟨rfl, rfl⟩ | ⟨_, h2⟩
          · exact ⟨no, hno, rfl⟩
          · rcases lookupA_insertA_cases h2 with ⟨rfl, rfl⟩ | ⟨_, h3⟩
            · exact ⟨po, hpo, rfl⟩
            · exact ⟨w, h3, rfl⟩
        have hlookO2 : ∀ u ou, lookupA u b.orders = some ou →
            ∃ w, lookupA u (insertA n { no with prev := some p }
              (insertA p { po with next := some n } b.orders)) =
              some w ∧ w.order = ou.order := by
          intro u ou hou
          by_cases hp2 : l3.prev = some u
          · refine ⟨{ ou with next := l3.next }, ?_, rfl⟩
            exact hbpP u ou hp2 (hpv_not_nv u hp2) hou
          · by_cases hn2 : l3.next = some u
            · refine ⟨{ ou with prev := l3.prev }, ?_, rfl⟩
              exact hcnP u ou hn2 (hnv_not_pv u hn2) hou
            · exact ⟨ou, (haP u hp2 hn2).trans hou, rfl⟩
        obtain ⟨told, htoldO2, _⟩ := hlookO2 t told0 htold0
        have hot : (if level.head = some slot then { level with head := l3.next }
            else level).tail = some t := by
          split <;> exact htlev
        rw [hnO] at hot
        rw [hot] at hok
        dsimp only at hok
        rw [htoldO2] at hok
        dsimp only at hok
        have hslotO3 : lookupA slot (insertA t { told with next := some slot }
            (insertA n { no with prev := some p }
              (insertA p { po with next := some n } b.orders))) = some l3 :=
          (lookupA_insertA_ne _ _ (Ne.symm htslot)).trans
            ((lookupA_insertA_ne _ _ (fun h => hnslot (by rw [hnO, h]))).trans
              ((lookupA_insertA_ne _ _ (fun h => hpslot (by rw [hpO, h]))).trans
                harena))
        rw [hslotO3] at hok
        dsimp only at hok
        have hb2 := Except.ok.inj hok
        subst hb2
        have haux := bookWf_move_aux wf hidx harena hkp hks hlev hcondT haP
          hbpP hcnP hdP (keysND_insertA _ _ (keysND_insertA _ _ wf.ordersND))
          htlev htoldO2
        rw [hnO] at haux
        exact haux

/-- C6: on a well-formed book, adding an order whose id is absent and whose
size and price are non-zero and then removing it by id restores the orders
map, the order index and both side level maps exactly, and returns the added
order. -/
theorem add_remove_roundtrip (b : L2Book) (o : Order) (hwf : BookWf b)
    (hid : lookupA o.order_id b.order_index = none)
    (hs : o.size ≠ 0) (hp : o.price ≠ 0) :
    ∃ b1 sl b2, b.addOrder o = .ok (b1, sl) ∧
      b1.removeOrderById o.order_id = .ok (b2, o) ∧
      b2.orders = b.orders ∧ b2.order_index = b.order_index ∧
      b2.asks = b.asks ∧ b2.bids = b.bids := by
  cases hlevL : lookupA o.price (b.sideMap o.otype.side) with
  | none =>
    have hadd : b.addOrder o = .ok (b.addOrderGo o) := by
      simp only [L2Book.addOrder, if_neg hs, if_neg hp, hid]
    rw [addOrderGo_none hlevL] at hadd
    have hmain : ∃ b2,
        (({ b with
            next_slot := b.next_slot + 1
            orders := insertA b.next_slot ⟨o, none, none⟩ b.orders
            order_index := insertA o.order_id b.next_slot b.order_index
          } : L2Book).setSide o.otype.side
            (insertA o.price
              ⟨some b.next_slot, some b.next_slot, 0 + o.size, 0 + 1⟩
              (b.sideMap o.otype.side))).removeOrderById o.order_id =
          .ok (b2, o) ∧
        b2.orders = b.orders ∧ b2.order_index = b.order_index ∧
        b2.asks = b.asks ∧ b2.bids = b.bids := by
      cases hsd : o.otype.side with
      | Ask =>
        rw [hsd] at hlevL
        simp only [L2Book.sideMap] at hlevL
        simp only [hsd, L2Book.removeOrderById, L2Book.setSide, L2Book.sideMap,
          lookupA_insertA_self, BookLevel.isEmptyB]
        simp only [insertA_insertA]
        rw [eraseA_insertA_of_none hlevL, eraseA_insertA_of_none hwf.fresh_slot,
          eraseA_insertA_of_none hid]
        exact ⟨_, rfl, rfl, rfl, rfl, rfl⟩
      | Bid =>
        rw [hsd] at hlevL
        simp only [L2Book.sideMap] at hlevL
        simp only [hsd, L2Book.removeOrderById, L2Book.setSide, L2Book.sideMap,
          lookupA_insertA_self, BookLevel.isEmptyB]
        simp only [insertA_insertA]
        rw [eraseA_insertA_of_none hlevL, eraseA_insertA_of_none hwf.fresh_slot,
          eraseA_insertA_of_none hid]
        exact ⟨_, rfl, rfl, rfl, rfl, rfl⟩
    obtain ⟨b2, h1, h2, h3, h4, h5⟩ := hmain
    exact ⟨_, _, b2, hadd, h1, h2, h3, h4, h5⟩
  | some level =>
    obtain ⟨l, hlne, hchain, hheadE, htailE, hsz, hct⟩ :=
      hwf.levels o.otype.side o.price level hlevL
    obtain ⟨t, hlt⟩ : ∃ t, l.getLast? = some t := by
      rcases List.eq_nil_or_concat l with rfl | ⟨l1, x, rfl⟩
      · exact absurd rfl hlne
      · exact ⟨x, by rw [List.concat_eq_append]; exact List.getLast?_concat l1⟩
    have ht : level.tail = some t := htailE.trans hlt
    obtain ⟨h0, hlh⟩ : ∃ h0, l.head? = some h0 := by
      cases l with
      | nil => exact absurd rfl hlne
      | cons a rest => exact ⟨a, rfl⟩
    have hh0 : level.head = some h0 := hheadE.trans hlh
    obtain ⟨told0, htold0, htnext⟩ := chainOk_getLast_next hchain hlt
    have htns : t ≠ b.next_slot :=
      Nat.ne_of_lt (hwf.chain_mem_lt hchain (mem_of_getLastQ hlt))
    have hh0mem : h0 ∈ l := by
      cases l with
      | nil => exact Option.noConfusion hlh
      | cons a rest =>
        rw [← Option.some.inj hlh]
        exact List.mem_cons_self a rest
    have hh0ns : h0 ≠ b.next_slot :=
      Nat.ne_of_lt (hwf.chain_mem_lt hchain hh0mem)
    have htoldB2 : lookupA t
        (insertA b.next_slot (⟨o, some t, none⟩ : L3Order) b.orders) =
        some told0 := (lookupA_insertA_ne _ _ htns).trans htold0
    have htoldB : lookupA t
        (insertA b.next_slot (⟨o, level.tail, none⟩ : L3Order) b.orders) =
        some told0 := by rw [ht]; exact htoldB2
    have hns2 : lookupA b.next_slot
        (insertA t { told0 with next := some b.next_slot }
          (insertA b.next_slot (⟨o, some t, none⟩ : L3Order) b.orders)) =
        some (⟨o, some t, none⟩ : L3Order) :=
      (lookupA_insertA_ne _ _ (Ne.symm htns)).trans (lookupA_insertA_self _ _ _)
    have htold0eta : (⟨told0.order, told0.prev, none⟩ : L3Order) = told0 := by
      rw [← htnext]
    have hif1 : (if some h0 = some b.next_slot then (none : Option Nat)
        else some h0) = some h0 :=
      if_neg (fun hc => hh0ns (Option.some.inj hc))
    have hif2 : (if some b.next_slot = some b.next_slot then (some t : Option Nat)
        else some b.next_slot) = some t := if_pos rfl
    have hleveta : (⟨some h0, some t, level.cached_size + o.size - o.size,
        level.cached_count + 1 - 1⟩ : BookLevel) = level := by
      rw [add_sub_cancel_right, Nat.add_sub_cancel, ← hh0, ← ht]
    have hnemp : ¬ (BookLevel.isEmptyB level = true) := by
      simp [BookLevel.isEmptyB, hh0]
    have hadd : b.addOrder o = .ok (b.addOrderGo o) := by
      simp only [L2Book.addOrder, if_neg hs, if_neg hp, hid]
    rw [addOrderGo_some hlevL ht htoldB] at hadd
    rw [hh0, if_neg (Option.some_ne_none h0), ht] at hadd
    have hmain : ∃ b2,
        (({ b with
            next_slot := b.next_slot + 1
            orders := insertA t { told0 with next := some b.next_slot }
              (insertA b.next_slot (⟨o, some t, none⟩ : L3Order) b.orders)
            order_index := insertA o.order_id b.next_slot b.order_index
          } : L2Book).setSide o.otype.side
            (insertA o.price
              (⟨some h0, some b.next_slot, level.cached_size + o.size,
                level.cached_count + 1⟩ : BookLevel)
              (b.sideMap o.otype.side))).removeOrderById o.order_id =
          .ok (b2, o) ∧
        b2.orders = b.orders ∧ b2.order_index = b.order_index ∧
        b2.asks = b.asks ∧ b2.bids = b.bids := by
      cases hsd : o.otype.side with
      | Ask =>
        rw [hsd] at hlevL
        simp only [L2Book.sideMap] at hlevL
        simp only [hsd, L2Book.removeOrderById, L2Book.setSide, L2Book.sideMap,
          lookupA_insertA_self, hns2, htold0eta, hif1, hif2, if_true, hleveta]
        rw [if_neg hnemp]
        simp only [insertA_insertA]
        rw [insertA_of_lookupA_self htoldB2, insertA_of_lookupA_self hlevL,
          eraseA_insertA_of_none hwf.fresh_slot, eraseA_insertA_of_none hid]
        exact ⟨_, rfl, rfl, rfl, rfl, rfl⟩
      | Bid =>
        rw [hsd] at hlevL
        simp only [L2Book.sideMap] at hlevL
        simp only [hsd, L2Book.removeOrderById, L2Book.setSide, L2Book.sideMap,
          lookupA_insertA_self, hns2, htold0eta, hif1, hif2, if_true, hleveta]
        rw [if_neg hnemp]
        simp only [insertA_insertA]
        rw [insertA_of_lookupA_self htoldB2, insertA_of_lookupA_self hlevL,
          eraseA_insertA_of_none hwf.fresh_slot, eraseA_insertA_of_none hid]
        exact ⟨_, rfl, rfl, rfl, rfl, rfl⟩
    obtain ⟨b2, h1, h2, h3, h4, h5⟩ := hmain
    exact ⟨_, _, b2, hadd, h1, h2, h3, h4, h5⟩

theorem add_remove_roundtrip_witness :
    ∃ b1 sl b2,
      L2Book.empty.addOrder ⟨1, .OpenShort, 7, 10, 5, none, none⟩ =
        .ok (b1, sl) ∧
      b1.removeOrderById 1 =
        .ok (b2, (⟨1, .OpenShort, 7, 10, 5, none, none⟩ : Order)) ∧
      b2.orders = L2Book.empty.orders ∧
      b2.order_index = L2Book.empty.order_index ∧
      b2.asks = L2Book.empty.asks ∧ b2.bids = L2Book.empty.bids :=
  add_remove_roundtrip L2Book.empty ⟨1, .OpenShort, 7, 10, 5, none, none⟩
    bookWf_empty rfl (by norm_num) (by norm_num)

/-- Counterexample for claim C4: snapshot reconstruction does not establish
the per-level invariants.  A batch of two unlinked orders at the same price
builds a level whose cached count is 2 while only one order is reachable
from its head via `next` pointers (both orders claim head/tail position; the
builder picks the first for each and caches the aggregate of all slots of
the price group). -/
theorem snapshot_breaks_level_invariants :
    ∃ bs level,
      L2Book.empty.addOrdersFromSnapshot
          [⟨1, .OpenShort, 7, 10, 5, none, none⟩,
           ⟨2, .OpenShort, 7, 10, 7, none, none⟩] = (bs, none) ∧
      lookupA 10 bs.asks = some level ∧
      level.cached_count = 2 ∧
      (chainFrom bs.orders bs.orders.length level.head).length = 1 := by
  refine ⟨_, _, rfl, rfl, rfl, rfl⟩

/-- Claim C4 (amended): after each successful incremental book mutation
(`add_order`, `update_order`, `remove_order_by_id`, `move_to_back`) on a
well-formed book — the in-place update and the move-to-back under the
price/side stability of the updated order that they presuppose — the book is
well-formed again, hence every price level present in either side map
satisfies the per-level invariants `BookInv`: the chain reachable from its
head via `next` pointers is nonempty (a level emptied by a removal is
pruned), its cached size is that chain's total order size, its cached count
the chain's length, its tail the chain's last slot, the head order has
`prev = none` and the tail order has `next = none`.  Snapshot reconstruction
is excluded: it can build levels violating these invariants. -/
theorem book_mutation_invariants (b : L2Book) (hwf : BookWf b) :
    BookInv b ∧
    (∀ o b2 sl, b.addOrder o = .ok (b2, sl) → BookWf b2 ∧ BookInv b2) ∧
    (∀ o b2, b.updateOrder o = .ok b2 →
      (∀ slot l3, lookupA o.order_id b.order_index = some slot →
        lookupA slot b.orders = some l3 →
        o.price = l3.order.price ∧ o.otype.side = l3.order.otype.side) →
      BookWf b2 ∧ BookInv b2) ∧
    (∀ oid b2 ord, b.removeOrderById oid = .ok (b2, ord) →
      BookWf b2 ∧ BookInv b2) ∧
    (∀ o b2, b.moveToBack o = .ok b2 →
      (∀ slot l3, lookupA o.order_id b.order_index = some slot →
        lookupA slot b.orders = some l3 →
        o.price = l3.order.price ∧ o.otype.side = l3.order.otype.side) →
      BookWf b2 ∧ BookInv b2) := by
  refine ⟨bookInv_of_bookWf hwf, ?_, ?_, ?_, ?_⟩
  · intro o b2 sl hok
    have w := bookWf_addOrder hwf hok
    exact ⟨w, bookInv_of_bookWf w⟩
  · intro o b2 hok hkeep
    have w := bookWf_updateOrder hwf hok hkeep
    exact ⟨w, bookInv_of_bookWf w⟩
  · intro oid b2 ord hok
    have w := bookWf_removeOrderById hwf hok
    exact ⟨w, bookInv_of_bookWf w⟩
  · intro o b2 hok hkeep
    have w := bookWf_moveToBack hwf hok hkeep
    exact ⟨w, bookInv_of_bookWf w⟩

/-- Witness for the amended C4: the empty book is well-formed, and adding a
concrete order to it yields a book that is well-formed and satisfies the
per-level invariants. -/
theorem book_mutation_invariants_witness :
    L2Book.empty.addOrder ⟨1, .OpenShort, 7, 10, 5, none, none⟩ =
      .ok (⟨1, [(0, ⟨⟨1, .OpenShort, 7, 10, 5, none, none⟩, none, none⟩)],
        [(1, 0)], [(10, ⟨some 0, some 0, 0 + 5, 0 + 1⟩)], []⟩, 0) ∧
    (BookWf ⟨1, [(0, ⟨⟨1, .OpenShort, 7, 10, 5, none, none⟩, none, none⟩)],
        [(1, 0)], [(10, ⟨some 0, some 0, 0 + 5, 0 + 1⟩)], []⟩ ∧
      BookInv ⟨1, [(0, ⟨⟨1, .OpenShort, 7, 10, 5, none, none⟩, none, none⟩)],
        [(1, 0)], [(10, ⟨some 0, some 0, 0 + 5, 0 + 1⟩)], []⟩) :=
  ⟨rfl, (book_mutation_invariants L2Book.empty bookWf_empty).2.1
    ⟨1, .OpenShort, 7, 10, 5, none, none⟩ _ 0 rfl⟩

end PerplDex
